import Mathlib

/-!
# PyBon: verification of the intermediate-code layer

A shallow embedding of the PyBon compiler backend (`intermediate_code.py`,
`optimizer.py`) together with reference interpreters for the symbolic IR
and for the concrete Bonsai machine, and theorems about them.

Conventions used throughout the embedding:

* Python's `Operand` namedtuple `(typ, val)` (with `typ` a string tag and
  `val` either a string or an int) becomes the inductive `Operand`; the
  `HELP_REGISTER` constructor carries a `Nat` because the Python code stores
  an `int` there, while the other constructors carry the Python string.
* Python dicts whose iteration/insertion order matters are embedded as
  association lists; `dictSet` mirrors `d[k] = v` (update in place if the
  key exists, else append preserving insertion order) and `dictGet?`
  mirrors `d[k]` lookup.
* Places where the Python code would raise an exception other than
  `CompilerError` (a `KeyError` on a missing symbol, an `IndexError` on a
  truncated instruction list) are totalised with a default that leaves the
  state unchanged; every theorem below either carries a well-formedness
  hypothesis ruling those inputs out or only ever evaluates the embedding
  on inputs where the defaults are not exercised.
-/

namespace PyBon

/-- Tagged operand, mirroring `Operand = namedtuple("Operator", ["typ", "val"])`
together with the four `typ` strings that appear in `intermediate_code.py`. -/
inductive Operand : Type where
  | REGISTER (val : String)
  | HELP_REGISTER (val : Nat)
  | CONSTANT (val : String)
  | LABEL_IDENTIFIER (val : String)
  deriving DecidableEq, Repr

/-- Python compares `op.val == "0"` directly; an `int`-valued
`HELP_REGISTER` operand never equals the string `"0"`. -/
def Operand.pyValIsZeroString : Operand → Bool
  | .REGISTER s => s = "0"
  | .HELP_REGISTER _ => false
  | .CONSTANT s => s = "0"
  | .LABEL_IDENTIFIER s => s = "0"

/-- `Instruction = namedtuple("Instruction", ["opcode", "op1", "op2"])`;
`op1`/`op2` may be `None` in Python. -/
structure Instruction : Type where
  opcode : String
  op1 : Option Operand
  op2 : Option Operand
  deriving DecidableEq, Repr

/-- Association-list lookup, mirroring `d[k]` on a Python dict. -/
def dictGet? {α : Type} (d : List (String × α)) (k : String) : Option α :=
  (d.find? fun e => e.1 = k).map (·.2)

/-- `d[k] = v` on a Python dict: replace in place if present (keeping the
insertion order), otherwise append. -/
def dictSet {α : Type} (d : List (String × α)) (k : String) (v : α) :
    List (String × α) :=
  if (d.find? fun e => e.1 = k).isSome then
    d.map fun e => if e.1 = k then (k, v) else e
  else d ++ [(k, v)]

/-- The `IntermediateCode` object: the fields of `IntermediateCode.__init__`.
Register start values are stored as the parsed numbers (Python keeps the
digit strings from the tree and converts with `int(...)` when serialising). -/
structure IC : Type where
  instructions : List Instruction
  symbolTable : List (String × Nat)
  registers : List Nat
  comments : List String
  helpRegisterScopes : List (Nat × Nat)
  helpRegisterCount : Nat
  ifCount : Nat
  deriving DecidableEq, Repr

/-! ## The optimizer (`optimizer.py`) -/

/-- The jump opcodes tested by all three optimizer rules:
`["jmp", "jg", "jge", "jl", "jle", "je", "jne"]`. -/
def jumpOpcodes : List String := ["jmp", "jg", "jge", "jl", "jle", "je", "jne"]

/-- One step of `optimizeJmpToJmp`'s scan at index `i`: if the instruction is
a jump whose target label resolves to an unconditional `jmp`, retarget it to
that second jump's operand.  The Python loop mutates the list it iterates
over, so the scan below is a fold that threads the updated code. -/
def jmpToJmpStep (ic : IC) (i : Nat) : IC :=
  match ic.instructions[i]? with
  | none => ic
  | some instr =>
    if instr.opcode ∈ jumpOpcodes then
      match instr.op1 with
      | some (.LABEL_IDENTIFIER l) =>
        match dictGet? ic.symbolTable l with
        | some t =>
          match ic.instructions[t]? with
          | some tgt =>
            if tgt.opcode = "jmp" then
              { ic with instructions :=
                  ic.instructions.set i { instr with op1 := tgt.op1 } }
            else ic
          | none => ic
        | none => ic
      | _ => ic
    else ic

/-- `optimizeJmpToJmp`: scan all positions in order. -/
def optimizeJmpToJmp (ic : IC) : IC :=
  (List.range ic.instructions.length).foldl jmpToJmpStep ic

/-- One step of `optimizeJmpToHlt`'s scan at index `i`. -/
def jmpToHltStep (ic : IC) (i : Nat) : IC :=
  match ic.instructions[i]? with
  | none => ic
  | some instr =>
    if instr.opcode = "jmp" then
      match instr.op1 with
      | some (.LABEL_IDENTIFIER l) =>
        match dictGet? ic.symbolTable l with
        | some t =>
          match ic.instructions[t]? with
          | some tgt =>
            if tgt.opcode = "hlt" then
              { ic with instructions :=
                  ic.instructions.set i ⟨"hlt", none, none⟩ }
            else ic
          | none => ic
        | none => ic
      | _ => ic
    else ic

/-- `optimizeJmpToHlt`: scan all positions in order. -/
def optimizeJmpToHlt (ic : IC) : IC :=
  (List.range ic.instructions.length).foldl jmpToHltStep ic

/-- Python's `label[0] == "."` test (labels are exactly the symbol-table
keys whose first character is the reserved marker `.`). -/
def pyStartsWithDot (s : String) : Bool := s.data.head? = some '.'

/-- Label adjustment performed after `ic.instructions.pop(i)`: every symbol
whose name starts with `"."` and whose recorded index exceeds `i` is
decremented by one; all other entries are untouched. -/
def adjustLabels (st : List (String × Nat)) (i : Nat) : List (String × Nat) :=
  st.map fun e => if pyStartsWithDot e.1 ∧ i < e.2 then (e.1, e.2 - 1) else e

/-- The guard of `optimizeJmpToNextLine` at index `i`: the instruction is any
jump whose target label resolves to exactly `i + 1`. -/
def jmpToNextGuard (ic : IC) (i : Nat) : Bool :=
  match ic.instructions[i]? with
  | none => false
  | some instr =>
    instr.opcode ∈ jumpOpcodes &&
      match instr.op1 with
      | some (.LABEL_IDENTIFIER l) => dictGet? ic.symbolTable l = some (i + 1)
      | _ => false

/-- The body of `optimizeJmpToNextLine`'s `while` loop, which pops the
instruction and fixes up the labels without advancing `i`, or advances `i`.
The loop strictly decreases `ic.instructions.length - i`; it is embedded
with structural recursion on a fuel argument that the caller makes at least
that measure plus one, so the fuel can never run out
(`jmpToNextAux_fuel_irrelevant` below). -/
def jmpToNextAux : Nat → IC → Nat → IC
  | 0, ic, _ => ic
  | fuel + 1, ic, i =>
    if i < ic.instructions.length then
      if jmpToNextGuard ic i then
        jmpToNextAux fuel
          { ic with instructions := ic.instructions.eraseIdx i,
                    symbolTable := adjustLabels ic.symbolTable i } i
      else
        jmpToNextAux fuel ic (i + 1)
    else ic

/-- `optimizeJmpToNextLine`. -/
def optimizeJmpToNextLine (ic : IC) : IC :=
  jmpToNextAux (ic.instructions.length + 1) ic 0

/-- Any fuel of at least `length - i + 1` gives the Python loop's result. -/
theorem jmpToNextAux_fuel_irrelevant (f1 f2 : Nat) (ic : IC) (i : Nat)
    (h1 : ic.instructions.length - i < f1) (h2 : ic.instructions.length - i < f2) :
    jmpToNextAux f1 ic i = jmpToNextAux f2 ic i := by
  induction f1 generalizing f2 ic i with
  | zero => omega
  | succ f1 ih =>
    cases f2 with
    | zero => omega
    | succ f2 =>
      rw [jmpToNextAux, jmpToNextAux]
      split
      · rename_i hlt
        split
        · apply ih <;>
          · have := List.length_eraseIdx_of_lt hlt
            simp only [this]
            omega
        · apply ih <;> omega
      · rfl

/-- One round of the optimizer's fixpoint loop: the three rules applied in
the order they appear in `optimizations`. -/
def optRound (ic : IC) : IC :=
  optimizeJmpToNextLine (optimizeJmpToHlt (optimizeJmpToJmp ic))

/-- The fixpoint loop of `Optimizer`: rounds are applied until a round leaves
the instruction list unchanged.  The Python loop carries no fuel; `optFix`
returns `some` exactly when the loop terminates within `gas` rounds, and the
result is then independent of the exact gas supplied. -/
def optFix : Nat → IC → Option IC
  | 0, _ => none
  | gas + 1, ic =>
    let ic' := optRound ic
    if ic'.instructions = ic.instructions then some ic' else optFix gas ic'

/-! ## Basic lemmas about the optimizer rules -/

theorem dictGet?_adjustLabels (st : List (String × Nat)) (i : Nat) (k : String) :
    dictGet? (adjustLabels st i) k =
      (dictGet? st k).map fun v => if pyStartsWithDot k ∧ i < v then v - 1 else v := by
  induction st with
  | nil => rfl
  | cons e rest ih =>
    obtain ⟨k', v'⟩ := e
    by_cases hk : k' = k
    · subst hk
      by_cases hc : pyStartsWithDot k' = true ∧ i < v' <;>
        simp [dictGet?, adjustLabels, List.find?, hc]
    · by_cases hc : pyStartsWithDot k' = true ∧ i < v' <;>
        simpa [dictGet?, adjustLabels, List.find?, hc, hk] using ih

theorem jmpToJmpStep_shape (ic : IC) (i : Nat) :
    ∃ l, jmpToJmpStep ic i = { ic with instructions := l } ∧
      l.length = ic.instructions.length := by
  unfold jmpToJmpStep
  repeat' split
  all_goals
    first
      | exact ⟨ic.instructions, rfl, rfl⟩
      | exact ⟨_, rfl, List.length_set ..⟩

theorem jmpToHltStep_shape (ic : IC) (i : Nat) :
    ∃ l, jmpToHltStep ic i = { ic with instructions := l } ∧
      l.length = ic.instructions.length := by
  unfold jmpToHltStep
  repeat' split
  all_goals
    first
      | exact ⟨ic.instructions, rfl, rfl⟩
      | exact ⟨_, rfl, List.length_set ..⟩

theorem foldl_shape {f : IC → Nat → IC}
    (hf : ∀ ic i, ∃ l, f ic i = { ic with instructions := l } ∧
      l.length = ic.instructions.length)
    (idx : List Nat) (ic : IC) :
    ∃ l, idx.foldl f ic = { ic with instructions := l } ∧
      l.length = ic.instructions.length := by
  induction idx generalizing ic with
  | nil => exact ⟨ic.instructions, rfl, rfl⟩
  | cons i rest ih =>
    obtain ⟨l1, h1, hl1⟩ := hf ic i
    obtain ⟨l2, h2, hl2⟩ := ih (f ic i)
    rw [h1] at h2 hl2
    refine ⟨l2, ?_, ?_⟩
    · rw [List.foldl_cons, h1]; exact h2
    · rw [hl2]; exact hl1

theorem optimizeJmpToJmp_shape (ic : IC) :
    ∃ l, optimizeJmpToJmp ic = { ic with instructions := l } ∧
      l.length = ic.instructions.length :=
  foldl_shape jmpToJmpStep_shape _ ic

theorem optimizeJmpToHlt_shape (ic : IC) :
    ∃ l, optimizeJmpToHlt ic = { ic with instructions := l } ∧
      l.length = ic.instructions.length :=
  foldl_shape jmpToHltStep_shape _ ic

theorem jmpToNextAux_length_le (fuel : Nat) (ic : IC) (i : Nat) :
    (jmpToNextAux fuel ic i).instructions.length ≤ ic.instructions.length := by
  induction fuel generalizing ic i with
  | zero => exact le_refl _
  | succ fuel ih =>
    rw [jmpToNextAux]
    split
    · split
      · exact le_trans
          (ih { ic with instructions := ic.instructions.eraseIdx i,
                        symbolTable := adjustLabels ic.symbolTable i } i)
          (List.length_eraseIdx_le ic.instructions i)
      · exact ih ic (i + 1)
    · exact le_refl _

theorem jmpToNextAux_length_eq (fuel : Nat) (ic : IC) (i : Nat)
    (h : (jmpToNextAux fuel ic i).instructions.length = ic.instructions.length) :
    jmpToNextAux fuel ic i = ic := by
  induction fuel generalizing ic i with
  | zero => rfl
  | succ fuel ih =>
    by_cases hlt : i < ic.instructions.length
    · by_cases hg : jmpToNextGuard ic i = true
      · exfalso
        rw [jmpToNextAux, if_pos hlt, if_pos hg] at h
        have hle : (jmpToNextAux fuel
            { ic with instructions := ic.instructions.eraseIdx i,
                      symbolTable := adjustLabels ic.symbolTable i } i).instructions.length
            ≤ (ic.instructions.eraseIdx i).length :=
          jmpToNextAux_length_le fuel _ i
        have hlen := List.length_eraseIdx_of_lt hlt
        omega
      · rw [jmpToNextAux, if_pos hlt, if_neg hg] at h ⊢
        exact ih ic (i + 1) h
    · rw [jmpToNextAux, if_neg hlt]

/-- If one full optimizer round leaves the instruction list unchanged, it is
the identity on the whole intermediate code: the only rule that can change
the symbol table also shortens the instruction list. -/
theorem optRound_fix (ic : IC) (h : (optRound ic).instructions = ic.instructions) :
    optRound ic = ic := by
  obtain ⟨l1, h1, hl1⟩ := optimizeJmpToJmp_shape ic
  obtain ⟨l2, h2, hl2⟩ := optimizeJmpToHlt_shape (optimizeJmpToJmp ic)
  have hIC : optimizeJmpToHlt (optimizeJmpToJmp ic) = { ic with instructions := l2 } := by
    rw [h2, h1]
  have hl : l2.length = ic.instructions.length := by rw [hl2, h1]; exact hl1
  have hrw : optRound ic
      = jmpToNextAux (l2.length + 1) { ic with instructions := l2 } 0 := by
    unfold optRound optimizeJmpToNextLine
    rw [hIC]
  have h' : (jmpToNextAux (l2.length + 1) { ic with instructions := l2 } 0).instructions
      = ic.instructions := by
    rw [← hrw]; exact h
  have hfix : jmpToNextAux (l2.length + 1) { ic with instructions := l2 } 0
      = { ic with instructions := l2 } :=
    jmpToNextAux_length_eq _ _ _ (by rw [h']; exact hl.symm)
  have hl2eq : l2 = ic.instructions := by rw [← h', hfix]
  rw [hrw, hfix, hl2eq]

/-- **C7.** The optimizer is idempotent: if the fixpoint loop terminates on
`ic` (with any gas) yielding `oc`, then running the optimizer again on `oc`
returns `oc` itself — in particular the instruction list and symbol table
are unchanged. -/
theorem optimizer_idempotent (g : Nat) (ic oc : IC)
    (h : optFix g ic = some oc) (g' : Nat) :
    optFix (g' + 1) oc = some oc := by
  induction g generalizing ic with
  | zero => simp [optFix] at h
  | succ g ih =>
    rw [optFix] at h
    split at h
    · rename_i heq
      have hfix : optRound ic = ic := optRound_fix ic heq
      have hoc : oc = ic := by
        rw [hfix] at h; exact (Option.some_injective _ h).symm
      subst hoc
      rw [optFix, hfix]
      simp [hfix]
    · exact ih _ h

/-- Witness for `optimizer_idempotent` at a concrete intermediate code. -/
def icIdemEx : IC where
  instructions :=
    [⟨"cmp", some (.REGISTER "x"), some (.CONSTANT "0")⟩,
     ⟨"je", some (.LABEL_IDENTIFIER ".IF_0"), none⟩,
     ⟨"jmp", some (.LABEL_IDENTIFIER ".ENDIF_0"), none⟩,
     ⟨"add", some (.REGISTER "y"), some (.CONSTANT "1")⟩,
     ⟨"hlt", none, none⟩]
  symbolTable := [("x", 0), ("y", 1), (".IF_0", 3), (".ENDIF_0", 3)]
  registers := [1, 0]
  comments := []
  helpRegisterScopes := []
  helpRegisterCount := 0
  ifCount := 0

/-- The optimizer fixpoint of `icIdemEx`, computed for the witness. -/
def icIdemExOpt : IC where
  instructions :=
    [⟨"cmp", some (.REGISTER "x"), some (.CONSTANT "0")⟩,
     ⟨"add", some (.REGISTER "y"), some (.CONSTANT "1")⟩,
     ⟨"hlt", none, none⟩]
  symbolTable := [("x", 0), ("y", 1), (".IF_0", 1), (".ENDIF_0", 1)]
  registers := [1, 0]
  comments := []
  helpRegisterScopes := []
  helpRegisterCount := 0
  ifCount := 0

theorem optimizer_idempotent_witness :
    optFix 10 icIdemEx = some icIdemExOpt ∧
      optFix 3 icIdemExOpt = some icIdemExOpt :=
  ⟨by decide, optimizer_idempotent 10 icIdemEx icIdemExOpt (by decide) 2⟩

/-- **C6.** One firing of the dead fallthrough-jump elision rule: whenever
`optimizeJmpToNextLine`'s loop finds at position `i` any jump whose target
label resolves to `i + 1`, it removes exactly that instruction and continues,
and in the adjusted symbol table every label (dot-prefixed key) whose
recorded index was greater than `i` is exactly one smaller, while every
other entry — labels at index at most `i` and identifier-to-register
entries — is unchanged. -/
theorem jmpToNextLine_deletion (fuel : Nat) (ic : IC) (i : Nat)
    (hlt : i < ic.instructions.length) (hg : jmpToNextGuard ic i = true) :
    jmpToNextAux (fuel + 1) ic i =
      jmpToNextAux fuel
        { ic with instructions := ic.instructions.eraseIdx i,
                  symbolTable := adjustLabels ic.symbolTable i } i ∧
    (∀ k v, dictGet? ic.symbolTable k = some v → pyStartsWithDot k → i < v →
      dictGet? (adjustLabels ic.symbolTable i) k = some (v - 1)) ∧
    (∀ k v, dictGet? ic.symbolTable k = some v → ¬(pyStartsWithDot k = true ∧ i < v) →
      dictGet? (adjustLabels ic.symbolTable i) k = some v) := by
  refine ⟨?_, ?_, ?_⟩
  · rw [jmpToNextAux, if_pos hlt, if_pos hg]
  · intro k v hv hdot hiv
    rw [dictGet?_adjustLabels, hv, Option.map_some', if_pos ⟨hdot, hiv⟩]
  · intro k v hv hne
    rw [dictGet?_adjustLabels, hv, Option.map_some', if_neg hne]

/-- Witness for `jmpToNextLine_deletion`: a jump to the following line with a
label above, one at, and one below the deleted position, plus an identifier
entry. -/
def icJmpNextEx : IC where
  instructions :=
    [⟨"hlt", none, none⟩,
     ⟨"jmp", some (.LABEL_IDENTIFIER ".a"), none⟩,
     ⟨"hlt", none, none⟩]
  symbolTable := [("x", 2), (".lo", 0), (".at", 1), (".a", 2)]
  registers := [0]
  comments := []
  helpRegisterScopes := []
  helpRegisterCount := 0
  ifCount := 0

theorem jmpToNextLine_deletion_witness :
    (1 < icJmpNextEx.instructions.length ∧ jmpToNextGuard icJmpNextEx 1 = true) ∧
      (jmpToNextAux 4 icJmpNextEx 1 =
        jmpToNextAux 3
          { icJmpNextEx with
              instructions := icJmpNextEx.instructions.eraseIdx 1,
              symbolTable := adjustLabels icJmpNextEx.symbolTable 1 } 1 ∧
      dictGet? (adjustLabels icJmpNextEx.symbolTable 1) ".a" = some 1 ∧
      dictGet? (adjustLabels icJmpNextEx.symbolTable 1) "x" = some 2 ∧
      dictGet? (adjustLabels icJmpNextEx.symbolTable 1) ".lo" = some 0 ∧
      dictGet? (adjustLabels icJmpNextEx.symbolTable 1) ".at" = some 1) := by
  refine ⟨⟨by decide, by decide⟩, ?_⟩
  obtain ⟨h1, h2, h3⟩ := jmpToNextLine_deletion 3 icJmpNextEx 1 (by decide) (by decide)
  refine ⟨h1, ?_, ?_, ?_, ?_⟩
  · exact h2 ".a" 2 (by decide) (by decide) (by decide)
  · exact h3 "x" 2 (by decide) (by decide)
  · exact h3 ".lo" 0 (by decide) (by decide)
  · exact h3 ".at" 1 (by decide) (by decide)

/-! ## A reference interpreter for the symbolic IR

The symbolic instructions operate on user registers (addressed by
identifier) and help registers (addressed by id); `cmp` records the
comparison of its operands, and the conditional jumps read that recorded
comparison.  Labels are resolved through the code's own symbol table. -/

/-- Register file of the symbolic machine: user registers by name, help
registers by id. -/
def RegFile : Type := String ⊕ Nat → Int

/-- State of the symbolic machine: the register file and the result of the
most recent `cmp`. -/
structure SymState : Type where
  regs : RegFile
  flag : Ordering

/-- Python's `int(...)` on the digit strings stored in `CONSTANT` operands. -/
def pyNat (s : String) : Nat :=
  s.data.foldl (fun acc c => acc * 10 + (c.toNat - 48)) 0

/-- Value of an operand in a state.  A label operand has no value; it never
appears in value position in well-formed code. -/
def evalOperand (s : SymState) : Operand → Int
  | .REGISTER n => s.regs (.inl n)
  | .HELP_REGISTER h => s.regs (.inr h)
  | .CONSTANT c => (pyNat c : Int)
  | .LABEL_IDENTIFIER _ => 0

/-- The register cell written by a `mov`/`add`/`sub` destination operand. -/
def opKey? : Operand → Option (String ⊕ Nat)
  | .REGISTER n => some (.inl n)
  | .HELP_REGISTER h => some (.inr h)
  | _ => none

/-- Whether a conditional jump fires, given the recorded comparison. -/
def condTaken (flag : Ordering) : String → Bool
  | "jg" => flag == .gt
  | "jge" => flag == .gt || flag == .eq
  | "jl" => flag == .lt
  | "jle" => flag == .lt || flag == .eq
  | "je" => flag == .eq
  | "jne" => flag != .eq
  | _ => false

/-- Outcome of one interpreter step. -/
inductive StepOut : Type where
  | stuck
  | halt (r : RegFile)
  | cont (pc : Nat) (s : SymState)

/-- Destination update shared by `mov`, `add` and `sub`. -/
def applyBinop (f : Int → Int → Int) (instr : Instruction) (pc : Nat)
    (s : SymState) : StepOut :=
  match instr.op1, instr.op2 with
  | some a, some b =>
    match opKey? a with
    | some k =>
      .cont (pc + 1)
        { s with regs := fun k' =>
            if k' = k then f (s.regs k) (evalOperand s b) else s.regs k' }
    | none => .stuck
  | _, _ => .stuck

/-- One step of the symbolic machine on a single instruction. -/
def stepInstr (tbl : List (String × Nat)) (instr : Instruction) (pc : Nat)
    (s : SymState) : StepOut :=
  if instr.opcode = "hlt" then .halt s.regs
  else if instr.opcode ∈ jumpOpcodes then
    match instr.op1 with
    | some (.LABEL_IDENTIFIER l) =>
      match dictGet? tbl l with
      | some t =>
        if instr.opcode == "jmp" || condTaken s.flag instr.opcode then .cont t s
        else .cont (pc + 1) s
      | none => .stuck
    | _ => .stuck
  else if instr.opcode = "cmp" then
    match instr.op1, instr.op2 with
    | some a, some b =>
      .cont (pc + 1) { s with flag := compare (evalOperand s a) (evalOperand s b) }
    | _, _ => .stuck
  else if instr.opcode = "mov" then applyBinop (fun _ v => v) instr pc s
  else if instr.opcode = "add" then applyBinop (· + ·) instr pc s
  else if instr.opcode = "sub" then applyBinop (· - ·) instr pc s
  else .stuck

/-- One step of the symbolic machine on an intermediate code. -/
def stepSym (ic : IC) (pc : Nat) (s : SymState) : StepOut :=
  match ic.instructions[pc]? with
  | none => .stuck
  | some instr => stepInstr ic.symbolTable instr pc s

/-- Fuel-bounded run of the symbolic machine; `some r` means the program
halted with final register file `r`. -/
def runSym (ic : IC) : Nat → Nat → SymState → Option RegFile
  | 0, _, _ => none
  | fuel + 1, pc, s =>
    match stepSym ic pc s with
    | .stuck => none
    | .halt r => some r
    | .cont q s' => runSym ic fuel q s'

theorem runSym_zero (ic : IC) (pc : Nat) (s : SymState) :
    runSym ic 0 pc s = none := rfl

theorem runSym_succ (ic : IC) (f pc : Nat) (s : SymState) :
    runSym ic (f + 1) pc s =
      match stepSym ic pc s with
      | .stuck => none
      | .halt r => some r
      | .cont q s' => runSym ic f q s' := rfl

/-- The program halts with final register file `r` when started at `pc`. -/
def HaltsFrom (ic : IC) (pc : Nat) (s : SymState) (r : RegFile) : Prop :=
  ∃ f, runSym ic f pc s = some r

theorem haltsFrom_step_cont {ic : IC} {pc : Nat} {s : SymState} {q : Nat}
    {s' : SymState} (h : stepSym ic pc s = .cont q s') {r : RegFile}
    (hh : HaltsFrom ic q s' r) : HaltsFrom ic pc s r := by
  obtain ⟨f, hf⟩ := hh
  exact ⟨f + 1, by rw [runSym, h]; exact hf⟩

theorem haltsFrom_step_halt {ic : IC} {pc : Nat} {s : SymState} {r : RegFile}
    (h : stepSym ic pc s = .halt r) : HaltsFrom ic pc s r :=
  ⟨1, by rw [runSym, h]⟩

/-- Zero or more interpreter steps. -/
inductive Reach (ic : IC) : Nat → SymState → Nat → SymState → Prop where
  | refl (pc : Nat) (s : SymState) : Reach ic pc s pc s
  | head {pc : Nat} {s : SymState} {q : Nat} {s' : SymState} {pc'' : Nat}
      {s'' : SymState} :
      stepSym ic pc s = .cont q s' → Reach ic q s' pc'' s'' → Reach ic pc s pc'' s''

theorem haltsFrom_of_reach {ic : IC} {pc : Nat} {s : SymState} {pc' : Nat}
    {s' : SymState} (h : Reach ic pc s pc' s') {r : RegFile}
    (hh : HaltsFrom ic pc' s' r) : HaltsFrom ic pc s r := by
  induction h with
  | refl => exact hh
  | head hstep _ ih => exact haltsFrom_step_cont hstep (ih hh)

/-- Forward simulation: if every step of `A` is matched by zero or more
steps of `B` through the index map `φ`, then every halting run of `A` is
matched by a halting run of `B`. -/
theorem halts_sim (A B : IC) (φ : Nat → Nat)
    (Hc : ∀ pc s q s', stepSym A pc s = .cont q s' → Reach B (φ pc) s (φ q) s')
    (Hh : ∀ pc s r, stepSym A pc s = .halt r → HaltsFrom B (φ pc) s r) :
    ∀ f pc s r, runSym A f pc s = some r → HaltsFrom B (φ pc) s r := by
  intro f
  induction f with
  | zero => intro pc s r hf; simp [runSym] at hf
  | succ f ih =>
    intro pc s r hf
    rw [runSym] at hf
    cases hst : stepSym A pc s with
    | stuck => rw [hst] at hf; cases hf
    | halt r' => rw [hst] at hf; cases hf; exact Hh pc s r hst
    | cont q s' =>
      rw [hst] at hf
      exact haltsFrom_of_reach (Hc pc s q s' hst) (ih q s' r hf)

/-- Both-ways equivalence for a rewrite that replaces one instruction by a
shortcut of two consecutive steps of the original (jump-chain collapsing and
jump-to-halt folding fit this shape). -/
theorem halts_iff_shortcut (A B : IC)
    (H : ∀ pc s, stepSym B pc s = stepSym A pc s ∨
      ∃ q, stepSym A pc s = .cont q s ∧
        ((∃ q', stepSym A q s = .cont q' s ∧ stepSym B pc s = .cont q' s) ∨
         (∃ r, stepSym A q s = .halt r ∧ stepSym B pc s = .halt r) ∨
         (stepSym A q s = .stuck ∧ stepSym B pc s = .stuck))) :
    ∀ pc s r, HaltsFrom A pc s r ↔ HaltsFrom B pc s r := by
  have fwd : ∀ f pc s r, runSym A f pc s = some r → HaltsFrom B pc s r := by
    intro f
    induction f using Nat.strong_induction_on with
    | _ f ih =>
      intro pc s r hf
      match f, hf with
      | g + 1, hf =>
        rw [runSym] at hf
        rcases H pc s with heq | ⟨q, hq, hrest⟩
        · cases hst : stepSym A pc s with
          | stuck => rw [hst] at hf; cases hf
          | halt r' =>
            rw [hst] at hf; cases hf
            exact haltsFrom_step_halt (heq.trans hst)
          | cont q s' =>
            rw [hst] at hf
            exact haltsFrom_step_cont (heq.trans hst) (ih g (by omega) q s' r hf)
        · simp only [hq] at hf
          cases g with
          | zero => rw [runSym_zero] at hf; cases hf
          | succ g' =>
            rw [runSym_succ] at hf
            rcases hrest with ⟨q', hq', hB⟩ | ⟨r', hr', hB⟩ | ⟨hstk, hB⟩
            · rw [hq'] at hf
              exact haltsFrom_step_cont hB (ih g' (by omega) q' s r hf)
            · rw [hr'] at hf; cases hf
              exact haltsFrom_step_halt hB
            · rw [hstk] at hf; cases hf
  have bwd : ∀ f pc s r, runSym B f pc s = some r → HaltsFrom A pc s r := by
    intro f
    induction f using Nat.strong_induction_on with
    | _ f ih =>
      intro pc s r hf
      match f, hf with
      | g + 1, hf =>
        rw [runSym] at hf
        rcases H pc s with heq | ⟨q, hq, hrest⟩
        · rw [heq] at hf
          cases hst : stepSym A pc s with
          | stuck => rw [hst] at hf; cases hf
          | halt r' =>
            rw [hst] at hf; cases hf
            exact haltsFrom_step_halt hst
          | cont q s' =>
            rw [hst] at hf
            exact haltsFrom_step_cont hst (ih g (by omega) q s' r hf)
        · rcases hrest with ⟨q', hq', hB⟩ | ⟨r', hr', hB⟩ | ⟨hstk, hB⟩
          · rw [hB] at hf
            exact haltsFrom_step_cont hq
              (haltsFrom_step_cont hq' (ih g (by omega) q' s r hf))
          · rw [hB] at hf; cases hf
            exact haltsFrom_step_cont hq (haltsFrom_step_halt hr')
          · rw [hB] at hf; cases hf
  exact fun pc s r =>
    ⟨fun ⟨f, hf⟩ => fwd f pc s r hf, fun ⟨f, hf⟩ => bwd f pc s r hf⟩

/-! ## Well-formed intermediate code

`WFb` captures the shape of IR-builder output on which the Python optimizer
does not crash: every jump's operand is a dot-prefixed label present in the
symbol table, resolving to an index inside the instruction list. -/

/-- Well-formedness of a single instruction. -/
def instrWF (tbl : List (String × Nat)) (len : Nat) (instr : Instruction) : Bool :=
  if instr.opcode ∈ jumpOpcodes then
    match instr.op1 with
    | some (.LABEL_IDENTIFIER l) =>
      pyStartsWithDot l &&
        match dictGet? tbl l with
        | some t => t < len
        | none => false
    | _ => false
  else true

/-- Well-formed intermediate code. -/
def WFb (ic : IC) : Bool :=
  ic.instructions.all (instrWF ic.symbolTable ic.instructions.length)

theorem instrWF_of_mem {ic : IC} (h : WFb ic = true) {i : Nat}
    {instr : Instruction} (hi : ic.instructions[i]? = some instr) :
    instrWF ic.symbolTable ic.instructions.length instr = true :=
  List.all_eq_true.mp h instr (List.getElem?_mem hi)

/-- Unpacked well-formedness of a jump instruction. -/
theorem jump_target_of_WF {ic : IC} (h : WFb ic = true) {i : Nat}
    {instr : Instruction} (hi : ic.instructions[i]? = some instr)
    (hj : instr.opcode ∈ jumpOpcodes) :
    ∃ l t, instr.op1 = some (.LABEL_IDENTIFIER l) ∧ pyStartsWithDot l = true ∧
      dictGet? ic.symbolTable l = some t ∧ t < ic.instructions.length := by
  have hw := instrWF_of_mem h hi
  rw [instrWF, if_pos hj] at hw
  rcases hop : instr.op1 with _ | op
  · simp only [hop] at hw; cases hw
  · rcases op with a | b | c | l
    · simp only [hop] at hw; cases hw
    · simp only [hop] at hw; cases hw
    · simp only [hop] at hw; cases hw
    · simp only [hop, Bool.and_eq_true] at hw
      obtain ⟨hdot, hrest⟩ := hw
      rcases hdict : dictGet? ic.symbolTable l with _ | t
      · simp only [hdict] at hrest; cases hrest
      · simp only [hdict] at hrest
        exact ⟨l, t, rfl, hdot, hdict, by simpa using hrest⟩

/-! ## Soundness of the three optimizer rules -/

theorem ne_hlt_of_jump {op : String} (h : op ∈ jumpOpcodes) : ¬op = "hlt" := by
  intro he; subst he; simp [jumpOpcodes] at h

theorem lt_length_of_getElem?_eq_some {α : Type} {l : List α} {i : Nat} {a : α}
    (h : l[i]? = some a) : i < l.length := by
  by_contra hge
  rw [List.getElem?_eq_none (by omega)] at h
  cases h

/-- Steps of two codes agree away from a single modified position when the
symbol tables agree. -/
theorem stepSym_set_ne {ic : IC} {i : Nat} {v : Instruction} {pc : Nat}
    (hne : pc ≠ i) (s : SymState) :
    stepSym { ic with instructions := ic.instructions.set i v } pc s =
      stepSym ic pc s := by
  unfold stepSym
  rw [show ({ ic with instructions := ic.instructions.set i v } : IC).instructions
      = ic.instructions.set i v from rfl,
    List.getElem?_set_ne (Ne.symm hne)]

/-- Core of jump-to-halt folding: replacing a `jmp` that targets a `hlt` by
a `hlt` preserves the halting behaviour from every program point. -/
theorem set_hlt_halts (ic : IC) {i : Nat} {instr : Instruction}
    (hi : ic.instructions[i]? = some instr) (hjmp : instr.opcode = "jmp")
    {l : String} (hop : instr.op1 = some (.LABEL_IDENTIFIER l))
    {t : Nat} (ht : dictGet? ic.symbolTable l = some t)
    {tgt : Instruction} (htgt : ic.instructions[t]? = some tgt)
    (hhlt : tgt.opcode = "hlt") (pc : Nat) (s : SymState) (r : RegFile) :
    HaltsFrom ic pc s r ↔
      HaltsFrom { ic with instructions := ic.instructions.set i ⟨"hlt", none, none⟩ } pc s r := by
  apply halts_iff_shortcut
  intro pc' s'
  by_cases hpc : pc' = i
  · subst hpc
    right
    refine ⟨t, ?_, Or.inr (Or.inl ⟨s'.regs, ?_, ?_⟩)⟩
    · simp [stepSym, hi, stepInstr, hjmp, hop, ht, jumpOpcodes]
    · simp [stepSym, htgt, stepInstr, hhlt]
    · have hlen := lt_length_of_getElem?_eq_some hi
      simp [stepSym, List.getElem?_set_self hlen, stepInstr]
  · exact Or.inl (stepSym_set_ne hpc s')

/-- `optimizeJmpToHlt`'s scan step preserves halting behaviour. -/
theorem jmpToHltStep_halts (ic : IC) (i : Nat) (pc : Nat) (s : SymState)
    (r : RegFile) :
    HaltsFrom ic pc s r ↔ HaltsFrom (jmpToHltStep ic i) pc s r := by
  unfold jmpToHltStep
  repeat' split
  all_goals try exact Iff.rfl
  exact set_hlt_halts ic (by assumption) (by assumption) (by assumption)
    (by assumption) (by assumption) (by assumption) pc s r

/-- Core of jump-chain collapsing: retargeting a jump whose target is an
unconditional `jmp` to that jump's own target preserves halting behaviour.
Well-formedness supplies the second jump's resolvable label. -/
theorem set_retarget_halts (ic : IC) (hwf : WFb ic = true) {i : Nat}
    {instr : Instruction} (hi : ic.instructions[i]? = some instr)
    (hjmp : instr.opcode ∈ jumpOpcodes)
    {l : String} (hop : instr.op1 = some (.LABEL_IDENTIFIER l))
    {t : Nat} (ht : dictGet? ic.symbolTable l = some t)
    {tgt : Instruction} (htgt : ic.instructions[t]? = some tgt)
    (htj : tgt.opcode = "jmp") (pc : Nat) (s : SymState) (r : RegFile) :
    HaltsFrom ic pc s r ↔
      HaltsFrom { ic with instructions := ic.instructions.set i { instr with op1 := tgt.op1 } } pc s r := by
  obtain ⟨m, u, hop2, hdot2, hu, hu2⟩ :=
    jump_target_of_WF hwf htgt (by simp [htj, jumpOpcodes])
  apply halts_iff_shortcut
  intro pc' s'
  by_cases hpc : pc' = i
  · subst hpc
    have hlen := lt_length_of_getElem?_eq_some hi
    by_cases htk : (instr.opcode == "jmp" || condTaken s'.flag instr.opcode) = true
    · right
      refine ⟨t, ?_, Or.inl ⟨u, ?_, ?_⟩⟩
      · simp [stepSym, hi, stepInstr, ne_hlt_of_jump hjmp, hjmp, hop, ht, htk]
      · simp [stepSym, htgt, stepInstr, htj, hop2, hu, jumpOpcodes]
      · simp only [stepSym, List.getElem?_set_self hlen]
        simp [stepInstr, ne_hlt_of_jump hjmp, hjmp, hop2, hu, htk]
    · left
      simp only [stepSym, List.getElem?_set_self hlen, hi]
      simp [stepInstr, ne_hlt_of_jump hjmp, hjmp, hop, hop2, ht, hu, htk]
  · exact Or.inl (stepSym_set_ne hpc s')

/-- `optimizeJmpToJmp`'s scan step preserves halting behaviour. -/
theorem jmpToJmpStep_halts (ic : IC) (hwf : WFb ic = true) (i : Nat) (pc : Nat)
    (s : SymState) (r : RegFile) :
    HaltsFrom ic pc s r ↔ HaltsFrom (jmpToJmpStep ic i) pc s r := by
  unfold jmpToJmpStep
  repeat' split
  all_goals try exact Iff.rfl
  exact set_retarget_halts ic hwf (by assumption) (by assumption) (by assumption)
    (by assumption) (by assumption) (by assumption) pc s r

/-- Unpacked well-formedness of a jump instruction, from `instrWF` alone. -/
theorem instrWF_jump {tbl : List (String × Nat)} {len : Nat} {instr : Instruction}
    (hw : instrWF tbl len instr = true) (hj : instr.opcode ∈ jumpOpcodes) :
    ∃ l t, instr.op1 = some (.LABEL_IDENTIFIER l) ∧ pyStartsWithDot l = true ∧
      dictGet? tbl l = some t ∧ t < len := by
  rw [instrWF, if_pos hj] at hw
  rcases hop : instr.op1 with _ | op
  · simp only [hop] at hw; cases hw
  · rcases op with a | b | c | l
    · simp only [hop] at hw; cases hw
    · simp only [hop] at hw; cases hw
    · simp only [hop] at hw; cases hw
    · simp only [hop, Bool.and_eq_true] at hw
      obtain ⟨hdot, hrest⟩ := hw
      rcases hdict : dictGet? tbl l with _ | t
      · simp only [hdict] at hrest; cases hrest
      · simp only [hdict] at hrest
        exact ⟨l, t, rfl, hdot, hdict, by simpa using hrest⟩

/-- Evaluated form of a step on a jump instruction with a resolvable label. -/
theorem stepInstr_jump_eval {tbl : List (String × Nat)} {instr : Instruction}
    (hj : instr.opcode ∈ jumpOpcodes) {l : String}
    (hop : instr.op1 = some (.LABEL_IDENTIFIER l)) {t : Nat}
    (ht : dictGet? tbl l = some t) (pc : Nat) (s : SymState) :
    stepInstr tbl instr pc s =
      if (instr.opcode == "jmp" || condTaken s.flag instr.opcode) = true
      then .cont t s else .cont (pc + 1) s := by
  simp only [stepInstr, if_neg (ne_hlt_of_jump hj), if_pos hj, hop, ht]

/-- Steps on the non-jump, non-halt opcodes consult neither the symbol table
nor the program counter (except to fall through), so they commute with any
table change and any counter relocation. -/
theorem stepInstr_shift_pc {tbl tbl' : List (String × Nat)} (instr : Instruction)
    (hhlt : ¬instr.opcode = "hlt") (hj : instr.opcode ∉ jumpOpcodes)
    (pc pc' : Nat) (s : SymState) :
    stepInstr tbl' instr pc' s =
      match stepInstr tbl instr pc s with
      | .stuck => .stuck
      | .halt r => .halt r
      | .cont _ s' => .cont (pc' + 1) s' := by
  unfold stepInstr
  rw [if_neg hhlt, if_neg hj, if_neg hhlt, if_neg hj]
  by_cases hcmp : instr.opcode = "cmp"
  · rw [if_pos hcmp, if_pos hcmp]
    rcases instr.op1 with _ | a <;> rcases instr.op2 with _ | b <;> rfl
  · rw [if_neg hcmp, if_neg hcmp]
    by_cases hmov : instr.opcode = "mov"
    · rw [if_pos hmov, if_pos hmov]
      unfold applyBinop
      rcases instr.op1 with _ | a <;> rcases instr.op2 with _ | b <;> try rfl
      rcases a with a | a | a | a <;> rfl
    · rw [if_neg hmov, if_neg hmov]
      by_cases hadd : instr.opcode = "add"
      · rw [if_pos hadd, if_pos hadd]
        unfold applyBinop
        rcases instr.op1 with _ | a <;> rcases instr.op2 with _ | b <;> try rfl
        rcases a with a | a | a | a <;> rfl
      · rw [if_neg hadd, if_neg hadd]
        by_cases hsub : instr.opcode = "sub"
        · rw [if_pos hsub, if_pos hsub]
          unfold applyBinop
          rcases instr.op1 with _ | a <;> rcases instr.op2 with _ | b <;> try rfl
          rcases a with a | a | a | a <;> rfl
        · rw [if_neg hsub, if_neg hsub]

/-- Index map from pre-deletion to post-deletion program counters. -/
def delMap (i p : Nat) : Nat := if p ≤ i then p else p - 1

/-- Index map from post-deletion back to pre-deletion program counters. -/
def delInv (i p : Nat) : Nat := if p < i then p else p + 1

/-- Core of dead fallthrough-jump elision: deleting a jump at `i` whose
target resolves to `i + 1`, while decrementing the labels above `i`,
preserves the halting behaviour from the program entry. -/
theorem erase_halts (ic : IC) (hwf : WFb ic = true) {i : Nat}
    {instr : Instruction} (hi : ic.instructions[i]? = some instr)
    (hjmp : instr.opcode ∈ jumpOpcodes)
    {l : String} (hop : instr.op1 = some (.LABEL_IDENTIFIER l))
    (ht : dictGet? ic.symbolTable l = some (i + 1)) (s : SymState) (r : RegFile) :
    HaltsFrom ic 0 s r ↔
      HaltsFrom { ic with instructions := ic.instructions.eraseIdx i,
                          symbolTable := adjustLabels ic.symbolTable i } 0 s r := by
  set ic' : IC := { ic with instructions := ic.instructions.eraseIdx i,
                            symbolTable := adjustLabels ic.symbolTable i } with hic'
  have hC : ∀ s₀ : SymState, stepSym ic i s₀ = .cont (i + 1) s₀ := by
    intro s₀
    simp only [stepSym, hi]
    rw [stepInstr_jump_eval hjmp hop ht]
    split <;> rfl
  have hgetA : ∀ p : Nat, p ≠ i → ic'.instructions[delMap i p]? = ic.instructions[p]? := by
    intro p hp
    show (ic.instructions.eraseIdx i)[delMap i p]? = _
    by_cases hpi : p < i
    · rw [delMap, if_pos (by omega)]
      exact List.getElem?_eraseIdx_of_lt _ _ _ hpi
    · rw [delMap, if_neg (by omega)]
      rw [List.getElem?_eraseIdx_of_ge _ _ _ (by omega)]
      congr 1
      omega
  have hgetB : ∀ p : Nat, ic'.instructions[p]? = ic.instructions[delInv i p]? := by
    intro p
    show (ic.instructions.eraseIdx i)[p]? = _
    by_cases hpi : p < i
    · rw [delInv, if_pos hpi]
      exact List.getElem?_eraseIdx_of_lt _ _ _ hpi
    · rw [delInv, if_neg hpi]
      exact List.getElem?_eraseIdx_of_ge _ _ _ (by omega)
  have hInvNe : ∀ p : Nat, delInv i p ≠ i := by
    intro p; rw [delInv]; split <;> omega
  have hadj : ∀ (l₂ : String) (t₂ : Nat), pyStartsWithDot l₂ = true →
      dictGet? ic.symbolTable l₂ = some t₂ →
      dictGet? ic'.symbolTable l₂ = some (if i < t₂ then t₂ - 1 else t₂) := by
    intro l₂ t₂ hdot hd
    show dictGet? (adjustLabels ic.symbolTable i) l₂ = _
    rw [dictGet?_adjustLabels, hd, Option.map_some']
    simp [hdot]
  have hMapTgt : ∀ t₂ : Nat, (if i < t₂ then t₂ - 1 else t₂) = delMap i t₂ := by
    intro t₂; rw [delMap]; split <;> split <;> omega
  have hMapSucc : ∀ p : Nat, p ≠ i → delMap i (p + 1) = delMap i p + 1 := by
    intro p hp; rw [delMap, delMap]; split <;> split <;> omega
  have hInvSucc : ∀ j : Nat, j + 1 ≠ i → delInv i (j + 1) = delInv i j + 1 := by
    intro j hne; rw [delInv, delInv]; split <;> split <;> omega
  have hadv : ∀ (j : Nat) (s₁ s₂ : SymState),
      stepSym ic (delInv i j) s₁ = .cont (delInv i j + 1) s₂ →
      Reach ic (delInv i j) s₁ (delInv i (j + 1)) s₂ := by
    intro j s₁ s₂ hstep
    by_cases he : j + 1 = i
    · have h1 : delInv i j + 1 = i := by rw [delInv]; split <;> omega
      have h2 : delInv i (j + 1) = i + 1 := by rw [delInv]; split <;> omega
      rw [h2]
      refine Reach.head hstep ?_
      rw [h1]
      exact Reach.head (hC s₂) (Reach.refl _ _)
    · rw [hInvSucc j he]
      exact Reach.head hstep (Reach.refl _ _)
  have htgtReach : ∀ (t₂ : Nat) (s₂ : SymState),
      Reach ic t₂ s₂ (delInv i (if i < t₂ then t₂ - 1 else t₂)) s₂ := by
    intro t₂ s₂
    by_cases h1 : i < t₂
    · rw [if_pos h1]
      have h2 : delInv i (t₂ - 1) = t₂ := by rw [delInv]; split <;> omega
      rw [h2]; exact Reach.refl _ _
    · rw [if_neg h1]
      by_cases h2 : t₂ = i
      · subst h2
        have h3 : delInv t₂ t₂ = t₂ + 1 := by rw [delInv]; split <;> omega
        rw [h3]
        exact Reach.head (hC s₂) (Reach.refl _ _)
      · have h3 : delInv i t₂ = t₂ := by rw [delInv]; split <;> omega
        rw [h3]; exact Reach.refl _ _
  -- forward simulation obligations
  have hFc : ∀ pc s₀ q s', stepSym ic pc s₀ = .cont q s' →
      Reach ic' (delMap i pc) s₀ (delMap i q) s' := by
    intro pc s₀ q s' hstep
    by_cases hpc : pc = i
    · subst hpc
      rw [hC s₀] at hstep
      obtain ⟨hq, hs⟩ := StepOut.cont.inj hstep
      subst hq; subst hs
      have h1 : delMap pc (pc + 1) = pc := by rw [delMap]; split <;> omega
      have h2 : delMap pc pc = pc := by rw [delMap]; split <;> omega
      rw [h1, h2]
      exact Reach.refl _ _
    · rcases hinstr : ic.instructions[pc]? with _ | instr2
      · simp only [stepSym, hinstr] at hstep; cases hstep
      · have hstep' : stepInstr ic.symbolTable instr2 pc s₀ = .cont q s' := by
          simpa [stepSym, hinstr] using hstep
        have hw2 := instrWF_of_mem hwf hinstr
        have hgi : ic'.instructions[delMap i pc]? = some instr2 := by
          rw [hgetA pc hpc, hinstr]
        by_cases hh2 : instr2.opcode = "hlt"
        · rw [stepInstr, if_pos hh2] at hstep'; cases hstep'
        · by_cases hj2 : instr2.opcode ∈ jumpOpcodes
          · obtain ⟨l₂, t₂, hop₂, hdot₂, ht₂, hb₂⟩ := instrWF_jump hw2 hj2
            have hadj₂ := hadj l₂ t₂ hdot₂ ht₂
            rw [stepInstr_jump_eval hj2 hop₂ ht₂] at hstep'
            by_cases htk : (instr2.opcode == "jmp" || condTaken s₀.flag instr2.opcode) = true
            · rw [if_pos htk] at hstep'
              obtain ⟨hq, hs⟩ := StepOut.cont.inj hstep'
              subst hq; subst hs
              refine Reach.head ?_ (Reach.refl _ _)
              show stepSym ic' (delMap i pc) s₀ = .cont (delMap i t₂) s₀
              simp only [stepSym, hgi]
              rw [stepInstr_jump_eval hj2 hop₂ hadj₂, if_pos htk, hMapTgt t₂]
            · rw [if_neg htk] at hstep'
              obtain ⟨hq, hs⟩ := StepOut.cont.inj hstep'
              subst hq; subst hs
              rw [hMapSucc pc hpc]
              refine Reach.head ?_ (Reach.refl _ _)
              show stepSym ic' (delMap i pc) s₀ = .cont (delMap i pc + 1) s₀
              simp only [stepSym, hgi]
              rw [stepInstr_jump_eval hj2 hop₂ hadj₂, if_neg htk]
          · have hself := @stepInstr_shift_pc ic.symbolTable
              (ic.symbolTable) instr2 hh2 hj2 pc pc s₀
            have hshift := @stepInstr_shift_pc ic.symbolTable
              (adjustLabels ic.symbolTable i) instr2 hh2 hj2 pc (delMap i pc) s₀
            rw [hstep'] at hself hshift
            obtain ⟨hq, hs⟩ := StepOut.cont.inj hself
            subst hq
            rw [hMapSucc pc hpc]
            refine Reach.head ?_ (Reach.refl _ _)
            show stepSym ic' (delMap i pc) s₀ = .cont (delMap i pc + 1) s'
            simp only [stepSym, hgi]
            exact hshift
  have hFh : ∀ pc s₀ r₀, stepSym ic pc s₀ = .halt r₀ →
      HaltsFrom ic' (delMap i pc) s₀ r₀ := by
    intro pc s₀ r₀ hstep
    by_cases hpc : pc = i
    · subst hpc; rw [hC s₀] at hstep; cases hstep
    · rcases hinstr : ic.instructions[pc]? with _ | instr2
      · simp only [stepSym, hinstr] at hstep; cases hstep
      · have hstep' : stepInstr ic.symbolTable instr2 pc s₀ = .halt r₀ := by
          simpa [stepSym, hinstr] using hstep
        have hgi : ic'.instructions[delMap i pc]? = some instr2 := by
          rw [hgetA pc hpc, hinstr]
        by_cases hh2 : instr2.opcode = "hlt"
        · apply haltsFrom_step_halt
          show stepSym ic' (delMap i pc) s₀ = .halt r₀
          simp only [stepSym, hgi]
          rw [stepInstr, if_pos hh2]
          rw [stepInstr, if_pos hh2] at hstep'
          exact hstep'
        · by_cases hj2 : instr2.opcode ∈ jumpOpcodes
          · have hw2 := instrWF_of_mem hwf hinstr
            obtain ⟨l₂, t₂, hop₂, hdot₂, ht₂, hb₂⟩ := instrWF_jump hw2 hj2
            rw [stepInstr_jump_eval hj2 hop₂ ht₂] at hstep'
            split at hstep' <;> cases hstep'
          · have hshift := @stepInstr_shift_pc ic.symbolTable
              (adjustLabels ic.symbolTable i) instr2 hh2 hj2 pc (delMap i pc) s₀
            rw [hstep'] at hshift
            apply haltsFrom_step_halt
            show stepSym ic' (delMap i pc) s₀ = .halt r₀
            simp only [stepSym, hgi]
            exact hshift
  -- backward simulation obligations
  have hBc : ∀ j s₀ q s', stepSym ic' j s₀ = .cont q s' →
      Reach ic (delInv i j) s₀ (delInv i q) s' := by
    intro j s₀ q s' hstep
    rcases hinstr : ic.instructions[delInv i j]? with _ | instr2
    · rw [show stepSym ic' j s₀ = .stuck by
        simp only [stepSym, hgetB j, hinstr]] at hstep
      cases hstep
    · have hstep' : stepInstr ic'.symbolTable instr2 j s₀ = .cont q s' := by
        simpa [stepSym, hgetB j, hinstr] using hstep
      have hw2 := instrWF_of_mem hwf hinstr
      have hOld : stepSym ic (delInv i j) s₀ = stepInstr ic.symbolTable instr2 (delInv i j) s₀ := by
        simp only [stepSym, hinstr]
      by_cases hh2 : instr2.opcode = "hlt"
      · rw [show ic'.symbolTable = adjustLabels ic.symbolTable i from rfl] at hstep'
        rw [stepInstr, if_pos hh2] at hstep'; cases hstep'
      · by_cases hj2 : instr2.opcode ∈ jumpOpcodes
        · obtain ⟨l₂, t₂, hop₂, hdot₂, ht₂, hb₂⟩ := instrWF_jump hw2 hj2
          have hadj₂ := hadj l₂ t₂ hdot₂ ht₂
          rw [show ic'.symbolTable = adjustLabels ic.symbolTable i from rfl] at hstep'
          rw [stepInstr_jump_eval hj2 hop₂ hadj₂] at hstep'
          by_cases htk : (instr2.opcode == "jmp" || condTaken s₀.flag instr2.opcode) = true
          · rw [if_pos htk] at hstep'
            obtain ⟨hq, hs⟩ := StepOut.cont.inj hstep'
            subst hq; subst hs
            refine Reach.head ?_ (htgtReach t₂ s₀)
            rw [hOld, stepInstr_jump_eval hj2 hop₂ ht₂, if_pos htk]
          · rw [if_neg htk] at hstep'
            obtain ⟨hq, hs⟩ := StepOut.cont.inj hstep'
            subst hq; subst hs
            apply hadv
            rw [hOld, stepInstr_jump_eval hj2 hop₂ ht₂, if_neg htk]
        · have hself := @stepInstr_shift_pc ic'.symbolTable
            (ic'.symbolTable) instr2 hh2 hj2 j j s₀
          rw [hstep'] at hself
          obtain ⟨hq, hs⟩ := StepOut.cont.inj hself
          subst hq
          have hshift := @stepInstr_shift_pc ic'.symbolTable
            (ic.symbolTable) instr2 hh2 hj2 j (delInv i j) s₀
          rw [hstep'] at hshift
          apply hadv
          rw [hOld]
          exact hshift
  have hBh : ∀ j s₀ r₀, stepSym ic' j s₀ = .halt r₀ →
      HaltsFrom ic (delInv i j) s₀ r₀ := by
    intro j s₀ r₀ hstep
    rcases hinstr : ic.instructions[delInv i j]? with _ | instr2
    · rw [show stepSym ic' j s₀ = .stuck by
        simp only [stepSym, hgetB j, hinstr]] at hstep
      cases hstep
    · have hstep' : stepInstr ic'.symbolTable instr2 j s₀ = .halt r₀ := by
        simpa [stepSym, hgetB j, hinstr] using hstep
      have hw2 := instrWF_of_mem hwf hinstr
      by_cases hh2 : instr2.opcode = "hlt"
      · apply haltsFrom_step_halt
        show stepSym ic (delInv i j) s₀ = .halt r₀
        simp only [stepSym, hinstr]
        rw [stepInstr, if_pos hh2]
        rw [show ic'.symbolTable = adjustLabels ic.symbolTable i from rfl] at hstep'
        rw [stepInstr, if_pos hh2] at hstep'
        exact hstep'
      · by_cases hj2 : instr2.opcode ∈ jumpOpcodes
        · obtain ⟨l₂, t₂, hop₂, hdot₂, ht₂, hb₂⟩ := instrWF_jump hw2 hj2
          have hadj₂ := hadj l₂ t₂ hdot₂ ht₂
          rw [show ic'.symbolTable = adjustLabels ic.symbolTable i from rfl] at hstep'
          rw [stepInstr_jump_eval hj2 hop₂ hadj₂] at hstep'
          split at hstep' <;> cases hstep'
        · have hshift := @stepInstr_shift_pc ic'.symbolTable
            (ic.symbolTable) instr2 hh2 hj2 j (delInv i j) s₀
          rw [hstep'] at hshift
          apply haltsFrom_step_halt
          show stepSym ic (delInv i j) s₀ = .halt r₀
          simp only [stepSym, hinstr]
          exact hshift
  have fwd := halts_sim ic ic' (delMap i) hFc hFh
  have bwd := halts_sim ic' ic (delInv i) hBc hBh
  constructor
  · rintro ⟨f, hf⟩
    have h0 : delMap i 0 = 0 := by rw [delMap]; split <;> omega
    have := fwd f 0 s r hf
    rwa [h0] at this
  · rintro ⟨f, hf⟩
    have hb := bwd f 0 s r hf
    by_cases h0 : 0 < i
    · have h1 : delInv i 0 = 0 := by rw [delInv]; split <;> omega
      rwa [h1] at hb
    · have hieq : i = 0 := by omega
      subst hieq
      have h1 : delInv 0 0 = 1 := by rw [delInv]; split <;> omega
      rw [h1] at hb
      exact haltsFrom_step_cont (hC s) hb

/-! ## The optimizer rules preserve well-formedness -/

theorem WFb_set {ic : IC} (hwf : WFb ic = true) {i : Nat} {v : Instruction}
    (hv : instrWF ic.symbolTable ic.instructions.length v = true) :
    WFb { ic with instructions := ic.instructions.set i v } = true := by
  rw [WFb]
  apply List.all_eq_true.mpr
  intro x hx
  have hlen : (ic.instructions.set i v).length = ic.instructions.length :=
    List.length_set ..
  show instrWF ic.symbolTable (ic.instructions.set i v).length x = true
  rw [hlen]
  rcases List.mem_or_eq_of_mem_set hx with h | h
  · exact List.all_eq_true.mp hwf x h
  · subst h; exact hv

theorem WFb_retarget {ic : IC} (hwf : WFb ic = true) {i : Nat}
    {instr : Instruction} (hjmp : instr.opcode ∈ jumpOpcodes)
    {t : Nat} {tgt : Instruction} (htgt : ic.instructions[t]? = some tgt)
    (htj : tgt.opcode = "jmp") :
    WFb { ic with instructions := ic.instructions.set i { instr with op1 := tgt.op1 } } = true := by
  apply WFb_set hwf
  obtain ⟨l₂, t₂, hop₂, hdot₂, ht₂, hb₂⟩ :=
    jump_target_of_WF hwf htgt (by simp [htj, jumpOpcodes])
  rw [instrWF]
  have hopc : (({ instr with op1 := tgt.op1 } : Instruction)).opcode = instr.opcode := rfl
  rw [hopc, if_pos hjmp]
  show (match ({ instr with op1 := tgt.op1 } : Instruction).op1 with
    | some (.LABEL_IDENTIFIER l) =>
      pyStartsWithDot l &&
        match dictGet? ic.symbolTable l with
        | some t => decide (t < ic.instructions.length)
        | none => false
    | _ => false) = true
  show (match tgt.op1 with
    | some (.LABEL_IDENTIFIER l) =>
      pyStartsWithDot l &&
        match dictGet? ic.symbolTable l with
        | some t => decide (t < ic.instructions.length)
        | none => false
    | _ => false) = true
  rw [hop₂]
  simp [hdot₂, ht₂, hb₂]

theorem WFb_jmpToJmpStep {ic : IC} (hwf : WFb ic = true) (i : Nat) :
    WFb (jmpToJmpStep ic i) = true := by
  unfold jmpToJmpStep
  repeat' split
  all_goals try exact hwf
  exact WFb_retarget hwf (by assumption) (by assumption) (by assumption)

theorem WFb_jmpToHltStep {ic : IC} (hwf : WFb ic = true) (i : Nat) :
    WFb (jmpToHltStep ic i) = true := by
  unfold jmpToHltStep
  repeat' split
  all_goals try exact hwf
  apply WFb_set hwf
  simp [instrWF, jumpOpcodes]

theorem WFb_erase {ic : IC} (hwf : WFb ic = true) {i : Nat}
    {instr : Instruction} (hi : ic.instructions[i]? = some instr)
    (hjmp : instr.opcode ∈ jumpOpcodes) {l : String}
    (hop : instr.op1 = some (.LABEL_IDENTIFIER l))
    (ht : dictGet? ic.symbolTable l = some (i + 1)) :
    WFb { ic with instructions := ic.instructions.eraseIdx i,
                  symbolTable := adjustLabels ic.symbolTable i } = true := by
  have hi1 : i + 1 < ic.instructions.length := by
    obtain ⟨l', t', hop', hdot', ht', hb'⟩ := jump_target_of_WF hwf hi hjmp
    rw [hop] at hop'
    have hll : l = l' := by cases hop'; rfl
    subst hll
    rw [ht] at ht'
    cases ht'
    exact hb'
  have hlenx : (ic.instructions.eraseIdx i).length = ic.instructions.length - 1 :=
    List.length_eraseIdx_of_lt (by omega)
  rw [WFb]
  apply List.all_eq_true.mpr
  intro x hx
  have hxmem : x ∈ ic.instructions := List.mem_of_mem_eraseIdx hx
  have hwx := List.all_eq_true.mp hwf x hxmem
  show instrWF (adjustLabels ic.symbolTable i) (ic.instructions.eraseIdx i).length x = true
  by_cases hjx : x.opcode ∈ jumpOpcodes
  · obtain ⟨lx, tx, hopx, hdotx, htx, hbx⟩ := instrWF_jump hwx hjx
    have hadjx : dictGet? (adjustLabels ic.symbolTable i) lx
        = some (if i < tx then tx - 1 else tx) := by
      rw [dictGet?_adjustLabels, htx, Option.map_some']
      simp [hdotx]
    have hbound : (if i < tx then tx - 1 else tx) < (ic.instructions.eraseIdx i).length := by
      rw [hlenx]; split <;> omega
    rw [instrWF, if_pos hjx, hopx]
    simp only [hadjx, hdotx, Bool.true_and, decide_eq_true_eq]
    exact hbound
  · rw [instrWF, if_neg hjx]

/-! ## Assembling optimizer soundness -/

theorem foldl_sound {f : IC → Nat → IC}
    (hstep : ∀ ic : IC, WFb ic = true → ∀ i : Nat,
      (∀ pc s r, HaltsFrom ic pc s r ↔ HaltsFrom (f ic i) pc s r) ∧
        WFb (f ic i) = true)
    (idx : List Nat) (ic : IC) (hwf : WFb ic = true) :
    (∀ pc s r, HaltsFrom ic pc s r ↔ HaltsFrom (idx.foldl f ic) pc s r) ∧
      WFb (idx.foldl f ic) = true := by
  induction idx generalizing ic with
  | nil => exact ⟨fun _ _ _ => Iff.rfl, hwf⟩
  | cons j rest ih =>
    obtain ⟨h1, hw1⟩ := hstep ic hwf j
    obtain ⟨h2, hw2⟩ := ih (f ic j) hw1
    rw [List.foldl_cons]
    exact ⟨fun pc s r => (h1 pc s r).trans (h2 pc s r), hw2⟩

theorem optimizeJmpToJmp_sound (ic : IC) (hwf : WFb ic = true) :
    (∀ pc s r, HaltsFrom ic pc s r ↔ HaltsFrom (optimizeJmpToJmp ic) pc s r) ∧
      WFb (optimizeJmpToJmp ic) = true :=
  foldl_sound
    (fun ic hwf i =>
      ⟨fun pc s r => jmpToJmpStep_halts ic hwf i pc s r, WFb_jmpToJmpStep hwf i⟩)
    _ ic hwf

theorem optimizeJmpToHlt_sound (ic : IC) (hwf : WFb ic = true) :
    (∀ pc s r, HaltsFrom ic pc s r ↔ HaltsFrom (optimizeJmpToHlt ic) pc s r) ∧
      WFb (optimizeJmpToHlt ic) = true :=
  foldl_sound
    (fun ic hwf i =>
      ⟨fun pc s r => jmpToHltStep_halts ic i pc s r, WFb_jmpToHltStep hwf i⟩)
    _ ic hwf

theorem jmpToNextGuard_spec {ic : IC} {i : Nat} (hg : jmpToNextGuard ic i = true) :
    ∃ instr, ic.instructions[i]? = some instr ∧ instr.opcode ∈ jumpOpcodes ∧
      ∃ l, instr.op1 = some (.LABEL_IDENTIFIER l) ∧
        dictGet? ic.symbolTable l = some (i + 1) := by
  unfold jmpToNextGuard at hg
  rcases hi : ic.instructions[i]? with _ | instr
  · rw [hi] at hg; cases hg
  · rw [hi] at hg
    simp only [Bool.and_eq_true] at hg
    obtain ⟨h1, h2⟩ := hg
    refine ⟨instr, rfl, by simpa using h1, ?_⟩
    rcases hop : instr.op1 with _ | op
    · simp only [hop] at h2; cases h2
    · rcases op with a | b | c | l
      · simp only [hop] at h2; cases h2
      · simp only [hop] at h2; cases h2
      · simp only [hop] at h2; cases h2
      · simp only [hop] at h2
        exact ⟨l, rfl, by simpa using h2⟩

theorem jmpToNextAux_sound (fuel : Nat) (ic : IC) (i : Nat) (hwf : WFb ic = true) :
    (∀ s r, HaltsFrom ic 0 s r ↔ HaltsFrom (jmpToNextAux fuel ic i) 0 s r) ∧
      WFb (jmpToNextAux fuel ic i) = true := by
  induction fuel generalizing ic i with
  | zero => exact ⟨fun _ _ => Iff.rfl, hwf⟩
  | succ fuel ih =>
    by_cases hlt : i < ic.instructions.length
    · by_cases hg : jmpToNextGuard ic i = true
      · obtain ⟨instr, hi, hjmp, l, hop, ht⟩ := jmpToNextGuard_spec hg
        rw [jmpToNextAux, if_pos hlt, if_pos hg]
        obtain ⟨hiff, hw⟩ := ih _ i (WFb_erase hwf hi hjmp hop ht)
        exact ⟨fun s r => (erase_halts ic hwf hi hjmp hop ht s r).trans (hiff s r), hw⟩
      · rw [jmpToNextAux, if_pos hlt, if_neg hg]
        exact ih ic (i + 1) hwf
    · rw [jmpToNextAux, if_neg hlt]
      exact ⟨fun _ _ => Iff.rfl, hwf⟩

theorem optRound_sound (ic : IC) (hwf : WFb ic = true) :
    (∀ s r, HaltsFrom ic 0 s r ↔ HaltsFrom (optRound ic) 0 s r) ∧
      WFb (optRound ic) = true := by
  obtain ⟨h1, hw1⟩ := optimizeJmpToJmp_sound ic hwf
  obtain ⟨h2, hw2⟩ := optimizeJmpToHlt_sound (optimizeJmpToJmp ic) hw1
  obtain ⟨h3, hw3⟩ :=
    jmpToNextAux_sound
      ((optimizeJmpToHlt (optimizeJmpToJmp ic)).instructions.length + 1)
      (optimizeJmpToHlt (optimizeJmpToJmp ic)) 0 hw2
  exact ⟨fun s r => ((h1 0 s r).trans ((h2 0 s r).trans (h3 s r))), hw3⟩

theorem optFix_sound (gas : Nat) (ic oc : IC) (hwf : WFb ic = true)
    (h : optFix gas ic = some oc) (s : SymState) (r : RegFile) :
    HaltsFrom ic 0 s r ↔ HaltsFrom oc 0 s r := by
  induction gas generalizing ic with
  | zero => cases h
  | succ gas ih =>
    rw [optFix] at h
    obtain ⟨hiff, hw⟩ := optRound_sound ic hwf
    split at h
    · have hoc : optRound ic = oc := Option.some.inj h
      exact hoc ▸ hiff s r
    · exact (hiff s r).trans (ih (optRound ic) hw h)

/-- **C1.** The optimizer is semantics-preserving: for every well-formed
intermediate code (as the IR builder produces: every jump carries a
dot-prefixed label resolving in the code's own symbol table to an index
inside the instruction list), if the optimizer's fixpoint loop terminates,
then interpreting the optimized code under the symbolic-IR reference
interpreter from the program entry yields exactly the halting behaviours —
in particular the same final register state — as interpreting the original
code. -/
theorem optimizer_preserves_semantics (ic oc : IC) (gas : Nat)
    (hwf : WFb ic = true) (hopt : optFix gas ic = some oc)
    (s : SymState) (r : RegFile) :
    HaltsFrom ic 0 s r ↔ HaltsFrom oc 0 s r :=
  optFix_sound gas ic oc hwf hopt s r

theorem optimizer_preserves_semantics_witness :
    (WFb icIdemEx = true ∧ optFix 10 icIdemEx = some icIdemExOpt) ∧
      (HaltsFrom icIdemEx 0 ⟨fun _ => 0, Ordering.eq⟩ (fun _ => 0) ↔
        HaltsFrom icIdemExOpt 0 ⟨fun _ => 0, Ordering.eq⟩ (fun _ => 0)) :=
  ⟨⟨by decide, by decide⟩,
    optimizer_preserves_semantics icIdemEx icIdemExOpt 10 (by decide) (by decide)
      ⟨fun _ => 0, Ordering.eq⟩ (fun _ => 0)⟩

/-! ## The IR builder (`IntermediateCode.fromSyntaxTree`) -/

/-- A decorated syntax-tree node (`ASTNode` of `syntactic_analyzer.py`):
string-tagged type, source value, children, and semantic decorators. -/
inductive ASTNode : Type where
  | mk (typ : String) (val : String) (children : List ASTNode)
      (decorators : List String)

/-- Inert node used to totalise out-of-range child access (Python would
raise `IndexError`, which never happens on parser output). -/
def nullNode : ASTNode := .mk "" "" [] []

def ASTNode.typ : ASTNode → String | .mk t _ _ _ => t
def ASTNode.val : ASTNode → String | .mk _ v _ _ => v
def ASTNode.children : ASTNode → List ASTNode | .mk _ _ c _ => c
def ASTNode.decorators : ASTNode → List String | .mk _ _ _ d => d

/-- `node.children[n]`, totalised. -/
def nthChild (node : ASTNode) (n : Nat) : ASTNode :=
  node.children[n]?.getD nullNode

/-- `Operand(node.typ, node.val)` for the node kinds that reach operand
position in the builder (`CONSTANT` and `REGISTER` only). -/
def mkOperand (typ val : String) : Operand :=
  match typ with
  | "REGISTER" => .REGISTER val
  | "LABEL_IDENTIFIER" => .LABEL_IDENTIFIER val
  | _ => .CONSTANT val

/-- The help-register id stored in an operand's `val` field. -/
def Operand.hrVal : Operand → Nat
  | .HELP_REGISTER n => n
  | _ => 0

/-- Nat-keyed dict assignment, for `helpRegisterScopes[id] = line`. -/
def ndictSet (d : List (Nat × Nat)) (k v : Nat) : List (Nat × Nat) :=
  if (d.find? fun e => e.1 = k).isSome then
    d.map fun e => if e.1 = k then (k, v) else e
  else d ++ [(k, v)]

/-- `self.instructions.append(ins)`. -/
def emitInstr (ins : Instruction) (ic : IC) : IC :=
  { ic with instructions := ic.instructions ++ [ins] }

/-- `self.symbolTable[lab] = len(self.instructions)`. -/
def bindLabel (lab : String) (ic : IC) : IC :=
  { ic with symbolTable := dictSet ic.symbolTable lab ic.instructions.length }

/-- `calculateArithmeticExpression(node, baseOperand, mode)`: accumulate the
terms of an arithmetic expression into `baseOperand` with the opcodes in
`mode` (positive, negative). -/
def calculateArithmeticExpression (node : ASTNode) (baseOperand : Operand)
    (mode : String × String) (ic : IC) : IC :=
  if node.typ = "CONSTANT" ∨ node.typ = "REGISTER" then
    emitInstr ⟨mode.1, some baseOperand, some (mkOperand node.typ node.val)⟩ ic
  else
    node.children.foldl
      (fun acc child =>
        if child.val = "-" then
          emitInstr ⟨mode.2, some baseOperand,
            some (mkOperand (nthChild child 0).typ (nthChild child 0).val)⟩ acc
        else
          emitInstr ⟨mode.1, some baseOperand,
            some (mkOperand child.typ child.val)⟩ acc)
      ic

/-- `getArithmeticOperand(node)`: a direct operand, or a fresh help register
filled by `calculateArithmeticExpression`. -/
def getArithmeticOperand (node : ASTNode) (ic : IC) : Operand × IC :=
  if node.typ = "CONSTANT" ∨ node.typ = "REGISTER" then
    (mkOperand node.typ node.val, ic)
  else
    let helpRegister := Operand.HELP_REGISTER ic.helpRegisterCount
    let ic' : IC := { ic with helpRegisterCount := ic.helpRegisterCount + 1 }
    (helpRegister, calculateArithmeticExpression node helpRegister ("add", "sub") ic')

/-- The conditional-jump mnemonic for a comparator
(`{">": "jg", ">=": "jge", "<": "jl", "<=": "jle", "==": "je", "!=": "jne"}`);
Python raises `KeyError` on any other string, which the parser never
produces — totalised with an inert mnemonic. -/
def condOpcode : String → String
  | ">" => "jg"
  | ">=" => "jge"
  | "<" => "jl"
  | "<=" => "jle"
  | "==" => "je"
  | "!=" => "jne"
  | _ => "jerr"

/-- The mode table `{"+=": ("add", "sub"), "-=": ("sub", "add")}` of the
augmented-assignment case. -/
def augMode : String → String × String
  | "-=" => ("sub", "add")
  | _ => ("add", "sub")

/-- `val.replace("\r\n", "\n")` on the character list. -/
def replaceCRLF : List Char → List Char
  | [] => []
  | '\r' :: '\n' :: rest => '\n' :: replaceCRLF rest
  | c :: rest => c :: replaceCRLF rest

/-- `....replace("\n", ";")`: line breaks normalised to `;`. -/
def pyNormalizeComment (s : String) : String :=
  ⟨(replaceCRLF s.data).map fun c => if c = '\n' then ';' else c⟩

/-- The help-register reset emitted after a use: if the operand is a help
register it is reset to zero (`mov op, 0`) and its scope end recorded; both
the dynamic-assignment case and the branch case of `traverseTree` end with
this exact block. -/
def resetHelpOperand (op : Operand) (ic : IC) : IC :=
  match op with
  | .HELP_REGISTER _ =>
    let ic' := emitInstr ⟨"mov", some op, some (.CONSTANT "0")⟩ ic
    { ic' with helpRegisterScopes :=
        (ndictSet ic'.helpRegisterScopes op.hrVal ic'.instructions.length) }
  | _ => ic

/-- The `DYNAMIC_ASSIGNMENT` case of `traverseTree`: evaluate the right-hand
side to an operand, `mov` it into the destination register, and reset the
operand's help register if one was allocated. -/
def compileDynAssign (children : List ASTNode) (ic : IC) : IC :=
  let p := getArithmeticOperand (children[1]?.getD nullNode) ic
  resetHelpOperand p.1
    (emitInstr ⟨"mov", some (.REGISTER ((children[0]?.getD nullNode).val)),
      some p.1⟩ p.2)

/-- `traverseTree(node)`: compile one decorated node into the intermediate
code, threading the builder state. -/
def traverseTree : ASTNode → IC → IC
  | .mk "BLOCK" _ children _, ic =>
    children.attach.foldl (fun acc c => traverseTree c.1 acc) ic
  | .mk "LABEL" _ children _, ic =>
    bindLabel ((children[0]?.getD nullNode).val) ic
  | .mk "GOTO" _ children _, ic =>
    emitInstr ⟨"jmp",
      some (.LABEL_IDENTIFIER ((children[0]?.getD nullNode).val)), none⟩ ic
  | .mk "HALT" _ _ _, ic =>
    emitInstr ⟨"hlt", none, none⟩ ic
  | .mk "ASSIGNMENT" val children decorators, ic =>
    if "DYNAMIC_ASSIGNMENT" ∈ decorators then
      compileDynAssign children ic
    else if "AUGMENTED_ASSIGNMENT" ∈ decorators then
      calculateArithmeticExpression (children[1]?.getD nullNode)
        (.REGISTER ((children[0]?.getD nullNode).val)) (augMode val) ic
    else ic
  | .mk "DOCSTRING" val _ _, ic =>
    { ic with comments := ic.comments ++ [pyNormalizeComment val] }
  | .mk "BRANCH" _ children _, ic =>
    match children with
    | cmpN :: ifT :: elseT :: _restc =>
      let n := ic.ifCount
      let ic0 : IC := { ic with ifCount := ic.ifCount + 1 }
      let p1 := getArithmeticOperand (nthChild cmpN 0) ic0
      let p2 := getArithmeticOperand (nthChild cmpN 1) p1.2
      let icC := emitInstr
        ⟨condOpcode cmpN.val, some (.LABEL_IDENTIFIER (".IF_" ++ toString n)), none⟩
        (emitInstr ⟨"cmp", some p1.1, some p2.1⟩ p2.2)
      let icJ := emitInstr
        ⟨"jmp", some (.LABEL_IDENTIFIER (".ENDIF_" ++ toString n)), none⟩
        (traverseTree elseT icC)
      let icI := traverseTree ifT (bindLabel (".IF_" ++ toString n) icJ)
      resetHelpOperand p2.1
        (resetHelpOperand p1.1 (bindLabel (".ENDIF_" ++ toString n) icI))
    | _ => ic
  | _, ic => ic
termination_by node => sizeOf node
decreasing_by
  all_goals
    first
    | (have h1 := List.sizeOf_lt_of_mem c.2
       simp only [ASTNode.mk.sizeOf_spec]
       omega)
    | (simp only [ASTNode.mk.sizeOf_spec, List.cons.sizeOf_spec]
       omega)

/-- The decorated tree handed to the builder: root node plus the symbol
table and register list that semantic analysis stored on the `AST`. -/
structure ASTree : Type where
  root : ASTNode
  symbolTable : List (String × Nat)
  registers : List Nat

/-- `IntermediateCode.fromSyntaxTree`: start from the tree's symbol table
and registers, traverse, and terminate the program with `hlt`. -/
def fromSyntaxTree (t : ASTree) : IC :=
  let ic : IC :=
    { instructions := [], symbolTable := t.symbolTable, registers := t.registers,
      comments := [], helpRegisterScopes := [], helpRegisterCount := 0, ifCount := 0 }
  let ic := traverseTree t.root ic
  { ic with instructions := ic.instructions ++ [⟨"hlt", none, none⟩] }

/-! ### The builder only ever appends instructions -/

theorem exists_append_trans {a b c : List Instruction}
    (h1 : ∃ d, b = a ++ d) (h2 : ∃ d, c = b ++ d) : ∃ d, c = a ++ d := by
  obtain ⟨d1, rfl⟩ := h1
  obtain ⟨d2, rfl⟩ := h2
  exact ⟨d1 ++ d2, List.append_assoc ..⟩

theorem emitInstr_append (ins : Instruction) (ic : IC) :
    ∃ d, (emitInstr ins ic).instructions = ic.instructions ++ d := ⟨_, rfl⟩

theorem bindLabel_append (lab : String) (ic : IC) :
    ∃ d, (bindLabel lab ic).instructions = ic.instructions ++ d :=
  ⟨[], by simp [bindLabel]⟩

theorem foldl_append_closed {β : Type} (g : IC → β → IC)
    (l : List β) (ic : IC)
    (h : ∀ ic' : IC, ∀ b ∈ l, ∃ d, (g ic' b).instructions = ic'.instructions ++ d) :
    ∃ d, (l.foldl g ic).instructions = ic.instructions ++ d := by
  induction l generalizing ic with
  | nil => exact ⟨[], (List.append_nil _).symm⟩
  | cons x xs ih =>
    exact exists_append_trans (h ic x (List.mem_cons_self x xs))
      (ih (g ic x) fun ic' b hb => h ic' b (List.mem_cons_of_mem x hb))

theorem calc_append (node : ASTNode) (b : Operand) (m : String × String)
    (ic : IC) :
    ∃ d, (calculateArithmeticExpression node b m ic).instructions
      = ic.instructions ++ d := by
  unfold calculateArithmeticExpression
  split
  · exact emitInstr_append ..
  · apply foldl_append_closed
    intro ic' c _
    split
    · exact emitInstr_append ..
    · exact emitInstr_append ..

theorem getOp_append (node : ASTNode) (ic : IC) :
    ∃ d, (getArithmeticOperand node ic).2.instructions = ic.instructions ++ d := by
  unfold getArithmeticOperand
  split
  · exact ⟨[], (List.append_nil _).symm⟩
  · exact calc_append ..

theorem resetHelpOperand_append (op : Operand) (ic : IC) :
    ∃ d, (resetHelpOperand op ic).instructions = ic.instructions ++ d := by
  unfold resetHelpOperand
  split
  · exact ⟨_, rfl⟩
  · exact ⟨[], (List.append_nil _).symm⟩

theorem compileDynAssign_append (children : List ASTNode) (ic : IC) :
    ∃ d, (compileDynAssign children ic).instructions = ic.instructions ++ d := by
  unfold compileDynAssign
  exact exists_append_trans
    (exists_append_trans (getOp_append ..) (emitInstr_append ..))
    (resetHelpOperand_append ..)

/-- The builder only ever appends instructions. -/
theorem traverseTree_append (node : ASTNode) (ic : IC) :
    ∃ d, (traverseTree node ic).instructions = ic.instructions ++ d := by
  induction node, ic using traverseTree.induct with
  | case1 val children decorators ic ih =>
    rw [traverseTree]
    apply foldl_append_closed
    intro ic' c _
    exact ih ic' c
  | case2 val children decorators ic =>
    rw [traverseTree]
    exact bindLabel_append ..
  | case3 val children decorators ic =>
    rw [traverseTree]
    exact emitInstr_append ..
  | case4 val children decorators ic =>
    rw [traverseTree]
    exact emitInstr_append ..
  | case5 val children decorators ic hdyn =>
    rw [traverseTree, if_pos hdyn]
    exact compileDynAssign_append children ic
  | case6 val children decorators ic hdyn haug =>
    rw [traverseTree, if_neg hdyn, if_pos haug]
    exact calc_append ..
  | case7 val children decorators ic hdyn haug =>
    rw [traverseTree, if_neg hdyn, if_neg haug]
    exact ⟨[], (List.append_nil _).symm⟩
  | case8 val children decorators ic =>
    rw [traverseTree]
    exact ⟨[], (List.append_nil _).symm⟩
  | case9 val decorators ic cmpN ifT elseT _restc n ic0 p1 p2 icC icJ ihE ihE2 ihI =>
    rw [traverseTree]
    refine exists_append_trans ?_ (resetHelpOperand_append ..)
    refine exists_append_trans ?_ (resetHelpOperand_append ..)
    refine exists_append_trans ?_ (bindLabel_append ..)
    refine exists_append_trans ?_ ihI
    refine exists_append_trans ?_ (bindLabel_append ..)
    refine exists_append_trans ?_ (emitInstr_append ..)
    refine exists_append_trans ?_ ihE
    refine exists_append_trans ?_ (emitInstr_append ..)
    refine exists_append_trans ?_ (emitInstr_append ..)
    refine exists_append_trans ?_ (getOp_append ..)
    refine exists_append_trans ?_ (getOp_append ..)
    exact ⟨[], (List.append_nil _).symm⟩
  | case10 val children decorators ic h =>
    rw [traverseTree]
    · exact ⟨[], (List.append_nil _).symm⟩
    · exact h
  | case11 =>
    rw [traverseTree]
    · exact ⟨[], (List.append_nil _).symm⟩
    all_goals assumption

theorem dictGet?_dictSet_self {α : Type} (d : List (String × α)) (k : String)
    (v : α) : dictGet? (dictSet d k v) k = some v := by
  unfold dictGet? dictSet
  split
  · rename_i hfind
    induction d with
    | nil => simp [List.find?] at hfind
    | cons x rest ih =>
      by_cases hx : x.1 = k
      · simp [List.find?, hx]
      · rw [List.find?_cons_of_neg _ (by simpa using hx)] at hfind
        simpa [List.find?, hx] using ih hfind
  · rename_i hfind
    have hnone : d.find? (fun e => decide (e.1 = k)) = none := by
      cases h : d.find? (fun e => decide (e.1 = k)) with
      | none => rfl
      | some e => rw [h] at hfind; simp at hfind
    rw [List.find?_append, hnone]
    simp [List.find?]

theorem emitInstr_instructions (ins : Instruction) (ic : IC) :
    (emitInstr ins ic).instructions = ic.instructions ++ [ins] := rfl

theorem bindLabel_instructions (lab : String) (ic : IC) :
    (bindLabel lab ic).instructions = ic.instructions := rfl

theorem bindLabel_symbolTable (lab : String) (ic : IC) :
    (bindLabel lab ic).symbolTable
      = dictSet ic.symbolTable lab ic.instructions.length := rfl

theorem resetHelpOperand_symbolTable (op : Operand) (ic : IC) :
    (resetHelpOperand op ic).symbolTable = ic.symbolTable := by
  unfold resetHelpOperand
  split <;> rfl

/-- **C8.** For every `BRANCH` node the IR builder compiles, it emits, in
order: `cmp op1, op2`; a conditional jump whose mnemonic is chosen by
comparator (`>`→`jg`, `>=`→`jge`, `<`→`jl`, `<=`→`jle`, `==`→`je`,
`!=`→`jne`) targeting the fresh label `.IF_<id>` (where `<id>` is the
branch counter); then the else-branch subtree's instructions; then
`jmp .ENDIF_<id>`; then it binds `.IF_<id>` to the current
instruction-list length, emits the if-branch subtree's instructions, and
binds `.ENDIF_<id>` to the current length (the branch ends with the
help-register resets for materialised comparison operands, which emit
instructions only). -/
theorem branch_emission (val : String) (decs : List String)
    (cmpN ifT elseT : ASTNode) (restc : List ASTNode) (ic : IC) :
    (condOpcode ">" = "jg" ∧ condOpcode ">=" = "jge" ∧ condOpcode "<" = "jl" ∧
      condOpcode "<=" = "jle" ∧ condOpcode "==" = "je" ∧ condOpcode "!=" = "jne") ∧
    (let n := ic.ifCount
     let p1 := getArithmeticOperand (nthChild cmpN 0) { ic with ifCount := ic.ifCount + 1 }
     let p2 := getArithmeticOperand (nthChild cmpN 1) p1.2
     let icC := emitInstr
       ⟨condOpcode cmpN.val, some (.LABEL_IDENTIFIER (".IF_" ++ toString n)), none⟩
       (emitInstr ⟨"cmp", some p1.1, some p2.1⟩ p2.2)
     ∃ elseCode ifCode resets,
       (traverseTree elseT icC).instructions = icC.instructions ++ elseCode ∧
       (let icB1 := bindLabel (".IF_" ++ toString n)
          (emitInstr ⟨"jmp", some (.LABEL_IDENTIFIER (".ENDIF_" ++ toString n)), none⟩
            (traverseTree elseT icC))
        (traverseTree ifT icB1).instructions = icB1.instructions ++ ifCode ∧
        dictGet? icB1.symbolTable (".IF_" ++ toString n)
          = some (icC.instructions.length + elseCode.length + 1) ∧
        (let res := traverseTree (.mk "BRANCH" val (cmpN :: ifT :: elseT :: restc) decs) ic
         res.instructions
           = p2.2.instructions
             ++ [⟨"cmp", some p1.1, some p2.1⟩,
                 ⟨condOpcode cmpN.val, some (.LABEL_IDENTIFIER (".IF_" ++ toString n)), none⟩]
             ++ elseCode
             ++ [⟨"jmp", some (.LABEL_IDENTIFIER (".ENDIF_" ++ toString n)), none⟩]
             ++ ifCode ++ resets ∧
         dictGet? res.symbolTable (".ENDIF_" ++ toString n)
           = some (icC.instructions.length + elseCode.length + 1 + ifCode.length)))) := by
  refine ⟨⟨rfl, rfl, rfl, rfl, rfl, rfl⟩, ?_⟩
  intro n p1 p2 icC
  obtain ⟨dE, hE⟩ := traverseTree_append elseT icC
  obtain ⟨dI, hI⟩ := traverseTree_append ifT
    (bindLabel (".IF_" ++ toString n)
      (emitInstr ⟨"jmp", some (.LABEL_IDENTIFIER (".ENDIF_" ++ toString n)), none⟩
        (traverseTree elseT icC)))
  obtain ⟨dr1, hr1⟩ := resetHelpOperand_append p1.1
    (bindLabel (".ENDIF_" ++ toString n)
      (traverseTree ifT (bindLabel (".IF_" ++ toString n)
        (emitInstr ⟨"jmp", some (.LABEL_IDENTIFIER (".ENDIF_" ++ toString n)), none⟩
          (traverseTree elseT icC)))))
  obtain ⟨dr2, hr2⟩ := resetHelpOperand_append p2.1
    (resetHelpOperand p1.1
      (bindLabel (".ENDIF_" ++ toString n)
        (traverseTree ifT (bindLabel (".IF_" ++ toString n)
          (emitInstr ⟨"jmp", some (.LABEL_IDENTIFIER (".ENDIF_" ++ toString n)), none⟩
            (traverseTree elseT icC))))))
  refine ⟨dE, dI, dr1 ++ dr2, hE, ?_⟩
  intro icB1
  refine ⟨hI, ?_, ?_⟩
  · show dictGet? (dictSet
        ((emitInstr ⟨"jmp", some (.LABEL_IDENTIFIER (".ENDIF_" ++ toString n)), none⟩
          (traverseTree elseT icC)).symbolTable)
        (".IF_" ++ toString n)
        ((emitInstr ⟨"jmp", some (.LABEL_IDENTIFIER (".ENDIF_" ++ toString n)), none⟩
          (traverseTree elseT icC)).instructions.length))
      (".IF_" ++ toString n) = _
    rw [dictGet?_dictSet_self]
    congr 1
    rw [emitInstr_instructions, hE]
    simp
    omega
  · intro res
    constructor
    · show (traverseTree (.mk "BRANCH" val (cmpN :: ifT :: elseT :: restc) decs) ic).instructions = _
      rw [traverseTree]
      rw [hr2, hr1, bindLabel_instructions, hI, bindLabel_instructions,
        emitInstr_instructions, hE]
      have hicC : icC.instructions
          = p2.2.instructions
            ++ [⟨"cmp", some p1.1, some p2.1⟩]
            ++ [⟨condOpcode cmpN.val,
                 some (.LABEL_IDENTIFIER (".IF_" ++ toString n)), none⟩] := by rfl
      simp [hicC, List.append_assoc]
    · show dictGet? (traverseTree
          (.mk "BRANCH" val (cmpN :: ifT :: elseT :: restc) decs) ic).symbolTable
        (".ENDIF_" ++ toString n) = _
      rw [traverseTree]
      rw [resetHelpOperand_symbolTable, resetHelpOperand_symbolTable,
        bindLabel_symbolTable, dictGet?_dictSet_self]
      congr 1
      rw [hI, bindLabel_instructions, emitInstr_instructions, hE]
      simp
      omega

/-! ### A `cmp` whose guarding conditional jump the optimizer deletes -/

/-- The decorated syntax tree of a source program whose `if` arm contains
only a docstring and whose `else` arm is empty (e.g. `x = 1; y = 0;
if x == 0: docstring; else: pass; y += 1`), as the semantic analyzer hands
it to the IR builder. -/
def astC5 : ASTNode :=
  .mk "BLOCK" "" [
    .mk "BRANCH" "" [
      .mk "COMPARISON" "==" [.mk "REGISTER" "x" [] [], .mk "CONSTANT" "0" [] []] [],
      .mk "BLOCK" "" [.mk "DOCSTRING" "branch body is only a docstring" [] []] [],
      .mk "BLOCK" "" [] []] [],
    .mk "ASSIGNMENT" "+=" [.mk "REGISTER" "y" [] [], .mk "CONSTANT" "1" [] []]
      ["AUGMENTED_ASSIGNMENT"]] []

def treeC5 : ASTree := ⟨astC5, [("x", 0), ("y", 1)], [1, 0]⟩

def icC5 : IC := fromSyntaxTree treeC5

theorem traverseTree_block_nil (v : String) (d : List String) (ic : IC) :
    traverseTree (.mk "BLOCK" v [] d) ic = ic := by
  rw [traverseTree]
  rfl

theorem traverseTree_block_cons (v : String) (d : List String) (c : ASTNode)
    (cs : List ASTNode) (ic : IC) :
    traverseTree (.mk "BLOCK" v (c :: cs) d) ic
      = traverseTree (.mk "BLOCK" v cs d) (traverseTree c ic) := by
  rw [traverseTree, traverseTree]
  simp [List.foldl_map]

/-- The IR builder's output on `treeC5`, evaluated. -/
theorem icC5_eval : icC5 =
    { instructions :=
        [⟨"cmp", some (.REGISTER "x"), some (.CONSTANT "0")⟩,
         ⟨"je", some (.LABEL_IDENTIFIER ".IF_0"), none⟩,
         ⟨"jmp", some (.LABEL_IDENTIFIER ".ENDIF_0"), none⟩,
         ⟨"add", some (.REGISTER "y"), some (.CONSTANT "1")⟩,
         ⟨"hlt", none, none⟩],
      symbolTable := [("x", 0), ("y", 1), (".IF_0", 3), (".ENDIF_0", 3)],
      registers := [1, 0],
      comments := ["branch body is only a docstring"],
      helpRegisterScopes := [], helpRegisterCount := 0, ifCount := 1 } := by
  show fromSyntaxTree treeC5 = _
  rw [fromSyntaxTree]
  rw [show treeC5.root = astC5 from rfl]
  rw [show astC5 = .mk "BLOCK" "" [
      .mk "BRANCH" "" [
        .mk "COMPARISON" "==" [.mk "REGISTER" "x" [] [], .mk "CONSTANT" "0" [] []] [],
        .mk "BLOCK" "" [.mk "DOCSTRING" "branch body is only a docstring" [] []] [],
        .mk "BLOCK" "" [] []] [],
      .mk "ASSIGNMENT" "+=" [.mk "REGISTER" "y" [] [], .mk "CONSTANT" "1" [] []]
        ["AUGMENTED_ASSIGNMENT"]] [] from rfl]
  simp [traverseTree, List.foldl_map, nthChild, nullNode,
    getArithmeticOperand, calculateArithmeticExpression,
    mkOperand, condOpcode, emitInstr, bindLabel, resetHelpOperand, augMode,
    compileDynAssign, dictSet, dictGet?, List.find?, pyNormalizeComment,
    replaceCRLF, ASTNode.typ, ASTNode.val, ASTNode.children, ASTNode.decorators,
    treeC5]
  decide

/-- **C5.** Refuted (code bug in `src/optimizer.py` interacting with
`compile_cmp`): the IR builder does emit every `cmp` adjacent to its
conditional jump (first conjunct), but `optimizeJmpToNextLine` can delete
that conditional jump.  On `astC5` both branch bodies emit no instructions,
so after the `jmp .ENDIF_0` at index 2 is elided (its target resolves to
index 3), the `je .IF_0` at index 1 also targets the next line and is
elided in the following round.  The optimizer's fixpoint is
`[cmp, add, hlt]`: the instruction after the `cmp` is the user's `add`,
which is not a conditional jump, so `compile_cmp` would consume the `add`
as its guarding branch and silently drop it from the output. -/
theorem cmp_guard_deleted :
    icC5.instructions.map Instruction.opcode = ["cmp", "je", "jmp", "add", "hlt"] ∧
    optFix 8 icC5 = some
      { instructions :=
          [⟨"cmp", some (.REGISTER "x"), some (.CONSTANT "0")⟩,
           ⟨"add", some (.REGISTER "y"), some (.CONSTANT "1")⟩,
           ⟨"hlt", none, none⟩],
        symbolTable := [("x", 0), ("y", 1), (".IF_0", 1), (".ENDIF_0", 1)],
        registers := [1, 0],
        comments := ["branch body is only a docstring"],
        helpRegisterScopes := [], helpRegisterCount := 0, ifCount := 1 } ∧
    "add" ∉ jumpOpcodes := by
  rw [icC5_eval]
  refine ⟨by decide, by decide, by decide⟩

/-! ## The concrete Bonsai machine and the add/sub expansion blocks -/

/-- The value slot of a phase-A concrete instruction: Python stores either a
string (register name, label, or `@`-relative address), an int (a logical
help-register id), or `None` (for `HLT`). -/
inductive PVal : Type where
  | str (s : String)
  | int (n : Nat)
  | null
  deriving DecidableEq, Repr

/-- A phase-A concrete instruction `(opcode, operand)`. -/
abbrev PInstr : Type := String × PVal

instance : DecidableEq PInstr := inferInstanceAs (DecidableEq (String × PVal))

/-- `int(s)` on the numeric strings the compiler itself builds
(`"+8"`, `"-11"`, plain digit runs). -/
def digitsVal (ds : List Char) : Nat :=
  ds.foldl (fun a c => a * 10 + (c.toNat - 48)) 0

def pyStrInt (s : String) : Int :=
  match s.data with
  | '-' :: ds => - (digitsVal ds : Int)
  | '+' :: ds => (digitsVal ds : Int)
  | ds => (digitsVal ds : Int)

/-- The 12-instruction block `compile_add(op1, op2)` extends the output with
when `op2` is a register or help register (`h` is
`storage.helpRegisterCount` at that moment). -/
def addBlock (op1 op2 : PVal) (h : Nat) : List PInstr :=
  [("TST", op2), ("JMP", .str "@+8"), ("TST", .int h), ("JMP", .str "@+2"),
   ("JMP", .str "@+8"), ("DEC", .int h), ("INC", op1), ("INC", op2),
   ("JMP", .str "@-6"), ("DEC", op2), ("INC", .int h), ("JMP", .str "@-11")]

/-- The block `compile_sub(op1, op2)` extends the output with: identical to
`addBlock` except the destination is decremented. -/
def subBlock (op1 op2 : PVal) (h : Nat) : List PInstr :=
  [("TST", op2), ("JMP", .str "@+8"), ("TST", .int h), ("JMP", .str "@+2"),
   ("JMP", .str "@+8"), ("DEC", .int h), ("DEC", op1), ("INC", op2),
   ("JMP", .str "@-6"), ("DEC", op2), ("INC", .int h), ("JMP", .str "@-11")]

/-- Bonsai registers: user registers are still addressed by name at this
stage, help registers by logical id. -/
abbrev BKey : Type := String ⊕ Nat

instance : DecidableEq BKey := inferInstanceAs (DecidableEq (String ⊕ Nat))

/-- Machine state: program counter (0-based) and register valuation. -/
abbrev BState : Type := Nat × (BKey → Nat)

/-- The register a `TST`/`INC`/`DEC` operand addresses. -/
def bKey? : PVal → Option BKey
  | .str s => some (Sum.inl s)
  | .int n => some (Sum.inr n)
  | .null => Option.none

/-- One step of the Bonsai reference machine (spec: INC increments, DEC
decrements, TST skips the next instruction when the register is zero,
`JMP @±k` is a pc-relative jump); `Option.none` when there is no
instruction at the pc or the instruction is `HLT`. -/
def bstep (p : List PInstr) (s : BState) : Option BState :=
  match p[s.1]? with
  | Option.none => Option.none
  | some (op, v) =>
    if op = "INC" then
      match bKey? v with
      | some k => some (s.1 + 1, Function.update s.2 k (s.2 k + 1))
      | Option.none => Option.none
    else if op = "DEC" then
      match bKey? v with
      | some k => some (s.1 + 1, Function.update s.2 k (s.2 k - 1))
      | Option.none => Option.none
    else if op = "TST" then
      match bKey? v with
      | some k => some ((if s.2 k = 0 then s.1 + 2 else s.1 + 1), s.2)
      | Option.none => Option.none
    else if op = "JMP" then
      match v with
      | .str t =>
        if t.data.head? = some '@' then
          some ((((s.1 : Int) + pyStrInt ⟨t.data.tail⟩)).toNat, s.2)
        else Option.none
      | _ => Option.none
    else Option.none

/-- Exactly `n` machine steps. -/
def bstepsN : Nat → List PInstr → BState → Option BState
  | 0, _, s => some s
  | n + 1, p, s => (bstep p s).bind (bstepsN n p)

theorem bstepsN_add (m n : Nat) (p : List PInstr) (s : BState) :
    bstepsN (m + n) p s = (bstepsN m p s).bind (bstepsN n p) := by
  induction m generalizing s with
  | zero => simp [bstepsN]
  | succ m ih =>
    rw [Nat.add_right_comm]
    rw [bstepsN, bstepsN]
    cases bstep p s with
    | none => rfl
    | some s' => simp [ih]

theorem bKey?_str (s : String) : bKey? (PVal.str s) = some (Sum.inl s) := rfl

theorem bKey?_int (n : Nat) : bKey? (PVal.int n) = some (Sum.inr n) := rfl

theorem addBlock_loop1 (op1 op2 : PVal) (h : Nat) (k2 : BKey)
    (hk2 : bKey? op2 = some k2) (h2h : k2 ≠ Sum.inr h) :
    ∀ (a : Nat) (ρ : BKey → Nat), ρ k2 = a →
    bstepsN (5 * a + 1) (addBlock op1 op2 h) (0, ρ)
      = some (2, Function.update (Function.update ρ k2 0) (Sum.inr h)
          (ρ (Sum.inr h) + a)) := by
  intro a
  induction a with
  | zero =>
    intro ρ ha
    have e1 : Function.update ρ k2 0 = ρ := by
      rw [← ha]; exact Function.update_eq_self k2 ρ
    rw [e1]
    have e2 : Function.update ρ (Sum.inr h) (ρ (Sum.inr h) + 0) = ρ := by
      rw [Nat.add_zero]; exact Function.update_eq_self _ ρ
    rw [e2]
    simp [bstepsN, bstep, addBlock, hk2, ha, bKey?_str, bKey?_int]
  | succ a ih =>
    intro ρ ha
    rw [show 5 * (a + 1) + 1 = 5 + (5 * a + 1) by ring, bstepsN_add]
    have hne : Sum.inr h ≠ k2 := Ne.symm h2h
    have s5 : bstepsN 5 (addBlock op1 op2 h) (0, ρ)
        = some (0, Function.update (Function.update ρ k2 a) (Sum.inr h)
            (ρ (Sum.inr h) + 1)) := by
      simp [bstepsN, bstep, addBlock, hk2, ha, bKey?_str, bKey?_int, pyStrInt,
        digitsVal, Function.update_noteq hne]
    rw [s5, Option.some_bind]
    rw [ih _ (by simp [Function.update_noteq h2h])]
    congr 2
    funext k
    rcases eq_or_ne k (Sum.inr h) with rfl | hkh
    · simp [Function.update_same, Function.update_noteq hne]
      omega
    · rcases eq_or_ne k k2 with rfl | hkk2
      · simp [Function.update_noteq hkh, Function.update_same]
      · simp [Function.update_noteq hkh, Function.update_noteq hkk2]

theorem addBlock_loop2 (op1 op2 : PVal) (h : Nat) (k1 k2 : BKey)
    (hk1 : bKey? op1 = some k1) (hk2 : bKey? op2 = some k2)
    (h12 : k1 ≠ k2) (h1h : k1 ≠ Sum.inr h) (h2h : k2 ≠ Sum.inr h) :
    ∀ (c : Nat) (ρ : BKey → Nat), ρ (Sum.inr h) = c →
    bstepsN (6 * c + 2) (addBlock op1 op2 h) (2, ρ)
      = some (12, Function.update (Function.update (Function.update ρ
          (Sum.inr h) 0) k2 (ρ k2 + c)) k1 (ρ k1 + c)) := by
  intro c
  induction c with
  | zero =>
    intro ρ ha
    have e1 : Function.update ρ (Sum.inr h) 0 = ρ := by
      rw [← ha]; exact Function.update_eq_self _ ρ
    rw [e1]
    have e2 : Function.update ρ k2 (ρ k2 + 0) = ρ := by
      rw [Nat.add_zero]; exact Function.update_eq_self _ ρ
    rw [e2]
    have e3 : Function.update ρ k1 (ρ k1 + 0) = ρ := by
      rw [Nat.add_zero]; exact Function.update_eq_self _ ρ
    rw [e3]
    simp [bstepsN, bstep, addBlock, bKey?_int, ha, pyStrInt, digitsVal]
  | succ c ih =>
    intro ρ ha
    rw [show 6 * (c + 1) + 2 = 6 + (6 * c + 2) by ring, bstepsN_add]
    have s6 : bstepsN 6 (addBlock op1 op2 h) (2, ρ)
        = some (2, Function.update (Function.update (Function.update ρ
            (Sum.inr h) c) k1 (ρ k1 + 1)) k2 (ρ k2 + 1)) := by
      simp [bstepsN, bstep, addBlock, hk1, hk2, bKey?_int, ha, pyStrInt,
        digitsVal, Function.update_noteq h1h, Function.update_noteq h2h,
        Function.update_noteq (Ne.symm h12)]
    rw [s6, Option.some_bind]
    rw [ih _ (by simp [Function.update_noteq (Ne.symm h2h),
      Function.update_noteq (Ne.symm h1h)])]
    congr 2
    funext k
    rcases eq_or_ne k k1 with rfl | hkk1
    · simp [Function.update_same, Function.update_noteq h1h,
        Function.update_noteq h12]
      omega
    · rcases eq_or_ne k k2 with rfl | hkk2
      · simp [Function.update_same, Function.update_noteq hkk1]
        omega
      · rcases eq_or_ne k (Sum.inr h) with rfl | hkh
        · simp [Function.update_same, Function.update_noteq (Ne.symm h1h),
            Function.update_noteq (Ne.symm h2h)]
        · simp [Function.update_noteq hkk1, Function.update_noteq hkk2,
            Function.update_noteq hkh]

theorem subBlock_loop1 (op1 op2 : PVal) (h : Nat) (k2 : BKey)
    (hk2 : bKey? op2 = some k2) (h2h : k2 ≠ Sum.inr h) :
    ∀ (a : Nat) (ρ : BKey → Nat), ρ k2 = a →
    bstepsN (5 * a + 1) (subBlock op1 op2 h) (0, ρ)
      = some (2, Function.update (Function.update ρ k2 0) (Sum.inr h)
          (ρ (Sum.inr h) + a)) := by
  intro a
  induction a with
  | zero =>
    intro ρ ha
    have e1 : Function.update ρ k2 0 = ρ := by
      rw [← ha]; exact Function.update_eq_self k2 ρ
    rw [e1]
    have e2 : Function.update ρ (Sum.inr h) (ρ (Sum.inr h) + 0) = ρ := by
      rw [Nat.add_zero]; exact Function.update_eq_self _ ρ
    rw [e2]
    simp [bstepsN, bstep, subBlock, hk2, ha, bKey?_str, bKey?_int]
  | succ a ih =>
    intro ρ ha
    rw [show 5 * (a + 1) + 1 = 5 + (5 * a + 1) by ring, bstepsN_add]
    have hne : Sum.inr h ≠ k2 := Ne.symm h2h
    have s5 : bstepsN 5 (subBlock op1 op2 h) (0, ρ)
        = some (0, Function.update (Function.update ρ k2 a) (Sum.inr h)
            (ρ (Sum.inr h) + 1)) := by
      simp [bstepsN, bstep, subBlock, hk2, ha, bKey?_str, bKey?_int, pyStrInt,
        digitsVal, Function.update_noteq hne]
    rw [s5, Option.some_bind]
    rw [ih _ (by simp [Function.update_noteq h2h])]
    congr 2
    funext k
    rcases eq_or_ne k (Sum.inr h) with rfl | hkh
    · simp [Function.update_same, Function.update_noteq hne]
      omega
    · rcases eq_or_ne k k2 with rfl | hkk2
      · simp [Function.update_noteq hkh, Function.update_same]
      · simp [Function.update_noteq hkh, Function.update_noteq hkk2]

theorem subBlock_loop2 (op1 op2 : PVal) (h : Nat) (k1 k2 : BKey)
    (hk1 : bKey? op1 = some k1) (hk2 : bKey? op2 = some k2)
    (h12 : k1 ≠ k2) (h1h : k1 ≠ Sum.inr h) (h2h : k2 ≠ Sum.inr h) :
    ∀ (c : Nat) (ρ : BKey → Nat), ρ (Sum.inr h) = c →
    bstepsN (6 * c + 2) (subBlock op1 op2 h) (2, ρ)
      = some (12, Function.update (Function.update (Function.update ρ
          (Sum.inr h) 0) k2 (ρ k2 + c)) k1 (ρ k1 - c)) := by
  intro c
  induction c with
  | zero =>
    intro ρ ha
    have e1 : Function.update ρ (Sum.inr h) 0 = ρ := by
      rw [← ha]; exact Function.update_eq_self _ ρ
    rw [e1]
    have e2 : Function.update ρ k2 (ρ k2 + 0) = ρ := by
      rw [Nat.add_zero]; exact Function.update_eq_self _ ρ
    rw [e2]
    have e3 : Function.update ρ k1 (ρ k1 - 0) = ρ := by
      rw [Nat.sub_zero]; exact Function.update_eq_self _ ρ
    rw [e3]
    simp [bstepsN, bstep, subBlock, bKey?_int, ha, pyStrInt, digitsVal]
  | succ c ih =>
    intro ρ ha
    rw [show 6 * (c + 1) + 2 = 6 + (6 * c + 2) by ring, bstepsN_add]
    have s6 : bstepsN 6 (subBlock op1 op2 h) (2, ρ)
        = some (2, Function.update (Function.update (Function.update ρ
            (Sum.inr h) c) k1 (ρ k1 - 1)) k2 (ρ k2 + 1)) := by
      simp [bstepsN, bstep, subBlock, hk1, hk2, bKey?_int, ha, pyStrInt,
        digitsVal, Function.update_noteq h1h, Function.update_noteq h2h,
        Function.update_noteq (Ne.symm h12)]
    rw [s6, Option.some_bind]
    rw [ih _ (by simp [Function.update_noteq (Ne.symm h2h),
      Function.update_noteq (Ne.symm h1h)])]
    congr 2
    funext k
    rcases eq_or_ne k k1 with rfl | hkk1
    · simp [Function.update_same, Function.update_noteq h1h,
        Function.update_noteq h12]
      omega
    · rcases eq_or_ne k k2 with rfl | hkk2
      · simp [Function.update_same, Function.update_noteq hkk1]
        omega
      · rcases eq_or_ne k (Sum.inr h) with rfl | hkh
        · simp [Function.update_same, Function.update_noteq (Ne.symm h1h),
            Function.update_noteq (Ne.symm h2h)]
        · simp [Function.update_noteq hkk1, Function.update_noteq hkk2,
            Function.update_noteq hkh]

/-- **C3** (amended).  For `add dest, src` / `sub dest, src` on register (or
help-register) operands, the emitted 12-instruction block, run on the Bonsai
reference machine from its start with the fresh help register `h` holding 0,
exits just past its end having added `src`'s value to `dest` (subtracted,
for sub), restored `src` to its original value, and returned `h` to 0.  The
block's first loop only drains `src` into `h` (`DEC src; INC h`) — the spec's
description of the first loop as simultaneously incrementing `dest` is
refuted by `addBlock_loop_counterexample`; `dest` is updated in the second
loop (`DEC h; INC/DEC dest; INC src`), which also restores `src`. -/
theorem addsub_expansion (op1 op2 : PVal) (h : Nat) (k1 k2 : BKey)
    (ρ : BKey → Nat)
    (hk1 : bKey? op1 = some k1) (hk2 : bKey? op2 = some k2)
    (h12 : k1 ≠ k2) (h1h : k1 ≠ Sum.inr h) (h2h : k2 ≠ Sum.inr h)
    (hfresh : ρ (Sum.inr h) = 0) :
    bstepsN (11 * ρ k2 + 3) (addBlock op1 op2 h) (0, ρ)
      = some (12, Function.update ρ k1 (ρ k1 + ρ k2)) ∧
    bstepsN (11 * ρ k2 + 3) (subBlock op1 op2 h) (0, ρ)
      = some (12, Function.update ρ k1 (ρ k1 - ρ k2)) := by
  have hsplit : 11 * ρ k2 + 3 = (5 * ρ k2 + 1) + (6 * ρ k2 + 2) := by ring
  have hmid : (Function.update (Function.update ρ k2 0) (Sum.inr h)
      (ρ (Sum.inr h) + ρ k2)) (Sum.inr h) = ρ k2 := by
    simp [Function.update_same, hfresh]
  constructor
  · rw [hsplit, bstepsN_add, addBlock_loop1 op1 op2 h k2 hk2 h2h (ρ k2) ρ rfl,
      Option.some_bind, addBlock_loop2 op1 op2 h k1 k2 hk1 hk2 h12 h1h h2h
        (ρ k2) _ hmid]
    congr 2
    funext k
    rcases eq_or_ne k k1 with rfl | hkk1
    · simp [Function.update_same, Function.update_noteq h12,
        Function.update_noteq h1h]
    · rcases eq_or_ne k k2 with rfl | hkk2
      · simp [Function.update_noteq hkk1, Function.update_same,
          Function.update_noteq h2h]
      · rcases eq_or_ne k (Sum.inr h) with rfl | hkh
        · simp [Function.update_noteq hkk1, Function.update_noteq hkk2,
            Function.update_same, hfresh]
        · simp [Function.update_noteq hkk1, Function.update_noteq hkk2,
            Function.update_noteq hkh]
  · rw [hsplit, bstepsN_add, subBlock_loop1 op1 op2 h k2 hk2 h2h (ρ k2) ρ rfl,
      Option.some_bind, subBlock_loop2 op1 op2 h k1 k2 hk1 hk2 h12 h1h h2h
        (ρ k2) _ hmid]
    congr 2
    funext k
    rcases eq_or_ne k k1 with rfl | hkk1
    · simp [Function.update_same, Function.update_noteq h12,
        Function.update_noteq h1h]
    · rcases eq_or_ne k k2 with rfl | hkk2
      · simp [Function.update_noteq hkk1, Function.update_same,
          Function.update_noteq h2h]
      · rcases eq_or_ne k (Sum.inr h) with rfl | hkh
        · simp [Function.update_noteq hkk1, Function.update_noteq hkk2,
            Function.update_same, hfresh]
        · simp [Function.update_noteq hkk1, Function.update_noteq hkk2,
            Function.update_noteq hkh]

def exC3Regs : BKey → Nat := fun k => if k = Sum.inl "src" then 2 else 0

/-- **C3** counterexample to the claim as stated: one iteration of the first
loop of the `add` expansion (5 machine steps, from `src = 2`) decrements
`src` and increments the help register but leaves `dest` untouched — the
claimed `DEC src; INC dest; INC help` loop body does not exist in the
emitted block. -/
theorem addBlock_loop_counterexample :
    (bstepsN 5 (addBlock (.str "dest") (.str "src") 0) (0, exC3Regs)).map
      (fun σ => (σ.1, σ.2 (Sum.inl "src"), σ.2 (Sum.inl "dest"),
        σ.2 (Sum.inr 0)))
      = some (0, 1, 0, 1) := by rfl

def exC3W : BKey → Nat := fun k =>
  if k = Sum.inl "x" then 3 else if k = Sum.inl "y" then 5 else 0

theorem addsub_expansion_witness :
    bstepsN (11 * exC3W (Sum.inl "x") + 3)
        (addBlock (.str "y") (.str "x") 0) (0, exC3W)
      = some (12, Function.update exC3W (Sum.inl "y")
          (exC3W (Sum.inl "y") + exC3W (Sum.inl "x"))) :=
  (addsub_expansion (.str "y") (.str "x") 0 (Sum.inl "y") (Sum.inl "x") exC3W
    rfl rfl (by decide) (by decide) (by decide) rfl).1

/-! ## `IntermediateCode.compile`: phase A (instruction expansion) -/

/-- `op.val` as the phase-A code stores it into `bonInstructions`. -/
def pyVal : Operand → PVal
  | .REGISTER s => .str s
  | .HELP_REGISTER n => .int n
  | .CONSTANT s => .str s
  | .LABEL_IDENTIFIER s => .str s

/-- Nat-keyed dict lookup. -/
def ndictGet? (d : List (Nat × Nat)) (k : Nat) : Option Nat :=
  (d.find? fun e => e.1 = k).map (·.2)

/-- `del d[k]` on a Nat-keyed dict. -/
def ndictDel (d : List (Nat × Nat)) (k : Nat) : List (Nat × Nat) :=
  d.filter fun e => ¬ e.1 = k

/-- The mutable phase-A state: `storage.head`, `storage.helpRegisterCount`,
`bonInstructions`, the local `helpRegisterScopes` dict, the `labels` dict
and the two replay heads `labelHead` / `helpRegisterScopeHead`. -/
structure CompSt : Type where
  head : Nat
  helpRegisterCount : Nat
  bon : List PInstr
  scopes : List (Nat × Nat)
  labels : List (String × Nat)
  labelHead : Nat
  scopeHead : Nat
  deriving DecidableEq, Repr

/-- `compile_add`: n `INC`s for a constant, the 12-instruction transfer
block (recording the fresh help register's scope end and consuming its id)
for a register or help register; a label operand falls through silently. -/
def compile_add (op1 op2 : Operand) (st : CompSt) : CompSt :=
  match op2 with
  | .CONSTANT v =>
    { st with bon := st.bon ++ List.replicate (digitsVal v.data) ("INC", pyVal op1) }
  | .REGISTER _ | .HELP_REGISTER _ =>
    let st' : CompSt :=
      { st with bon := st.bon ++ addBlock (pyVal op1) (pyVal op2) st.helpRegisterCount }
    { st' with scopes := ndictSet st'.scopes st.helpRegisterCount st'.bon.length,
               helpRegisterCount := st.helpRegisterCount + 1 }
  | .LABEL_IDENTIFIER _ => st

/-- `compile_sub`: symmetric to `compile_add`. -/
def compile_sub (op1 op2 : Operand) (st : CompSt) : CompSt :=
  match op2 with
  | .CONSTANT v =>
    { st with bon := st.bon ++ List.replicate (digitsVal v.data) ("DEC", pyVal op1) }
  | .REGISTER _ | .HELP_REGISTER _ =>
    let st' : CompSt :=
      { st with bon := st.bon ++ subBlock (pyVal op1) (pyVal op2) st.helpRegisterCount }
    { st' with scopes := ndictSet st'.scopes st.helpRegisterCount st'.bon.length,
               helpRegisterCount := st.helpRegisterCount + 1 }
  | .LABEL_IDENTIFIER _ => st

/-- The 5-instruction drain-to-zero loop `compile_mov` emits first. -/
def movZeroBlock (v : PVal) : List PInstr :=
  [("TST", v), ("JMP", .str "@+2"), ("JMP", .str "@+3"), ("DEC", v),
   ("JMP", .str "@-4")]

/-- `compile_mov(op1, Constant(c))`: drain `op1` to zero, then add the
constant. -/
def compile_mov_const (op1 op2 : Operand) (st : CompSt) : CompSt :=
  compile_add op1 op2 { st with bon := st.bon ++ movZeroBlock (pyVal op1) }

/-- `compile_mov`: for a register source the Python code recurses once with
`Constant("0")` (always the constant branch) and then adds the source. -/
def compile_mov (op1 op2 : Operand) (st : CompSt) : CompSt :=
  match op2 with
  | .CONSTANT _ => compile_mov_const op1 op2 st
  | .REGISTER _ | .HELP_REGISTER _ =>
    compile_add op1 op2 (compile_mov_const op1 (.CONSTANT "0") st)
  | .LABEL_IDENTIFIER _ => st

def compile_hlt (st : CompSt) : CompSt :=
  { st with bon := st.bon ++ [("HLT", .null)] }

def compile_jmp (op1 : Operand) (st : CompSt) : CompSt :=
  { st with bon := st.bon ++ [("JMP", pyVal op1)] }

/-- `branch.op1.val` (the consumed conditional jump always carries a label
operand in builder output; `none` is totalised). -/
def branchTargetVal (br : Instruction) : PVal :=
  match br.op1 with
  | some op => pyVal op
  | none => .null

/-- The slow-path materialisation of one comparison operand: a constant is
accumulated into a fresh help register (`compile_add`), a register or help
register is used directly and its restore `INC` appended to the register
sequence. -/
def cmpMaterialize (op : Operand) (pre : List PInstr) (st : CompSt) :
    PVal × List PInstr × CompSt :=
  match op with
  | .CONSTANT _ =>
    (PVal.int st.helpRegisterCount, pre,
      compile_add (.HELP_REGISTER st.helpRegisterCount) op
        { st with helpRegisterCount := st.helpRegisterCount + 1 })
  | _ => (pyVal op, pre ++ [("INC", pyVal op)], st)

/-- `if type(op) == int:` — reset a materialised (or help-register) operand
to zero and close its scope. -/
def cmpReset (o : PVal) (st : CompSt) : CompSt :=
  match o with
  | .int n =>
    let st := compile_mov (.HELP_REGISTER n) (.CONSTANT "0") st
    { st with scopes := ndictSet st.scopes n st.bon.length }
  | _ => st

/-- The general lockstep-decrement comparison of `compile_cmp` (both
operands non-`"0"`): materialise constants, emit the jump-table block with
a fresh loop-counter help register, then reset materialised operands
(`KeyError` on an unknown branch opcode totalised with the TRUE labels). -/
def cmpSlow (branch : Instruction) (op1 op2 : Operand) (st : CompSt) :
    CompSt :=
  let r1 := cmpMaterialize op1 [] st
  let r2 := cmpMaterialize op2 r1.2.1 r1.2.2
  let o1 := r1.1
  let o2 := r2.1
  let rs := r2.2.1
  let st := r2.2.2
  let rsn := rs.length
  let L1T : PVal := .str ("@+" ++ toString 9)
  let L2T : PVal := .str ("@+" ++ toString 8)
  let L3T : PVal := .str ("@+" ++ toString 5)
  let L1F : PVal := .str ("@+" ++ toString (14 + rsn))
  let L2F : PVal := .str ("@+" ++ toString (13 + rsn))
  let L3F : PVal := .str ("@+" ++ toString (10 + rsn))
  let LRB : PVal := .str ("@-" ++ toString (4 + rsn))
  let LEL : PVal := .str ("@+" ++ toString (3 + rsn))
  let L123 : PVal × PVal × PVal :=
    if branch.opcode = "je" then (L1F, L2T, L3F)
    else if branch.opcode = "jne" then (L1T, L2F, L3T)
    else if branch.opcode = "jg" then (L1F, L2F, L3T)
    else if branch.opcode = "jge" then (L1F, L2T, L3T)
    else if branch.opcode = "jl" then (L1T, L2F, L3F)
    else if branch.opcode = "jle" then (L1T, L2T, L3F)
    else (L1T, L2T, L3T)
  let hc := st.helpRegisterCount
  let st : CompSt := { st with bon := st.bon ++
    ([("TST", o1), ("JMP", .str "@+4"), ("TST", o2), ("JMP", L123.1),
      ("JMP", L123.2.1), ("TST", o2), ("JMP", .str "@+2"), ("JMP", L123.2.2),
      ("DEC", o1), ("DEC", o2), ("INC", .int hc), ("JMP", .str "@-11"),
      ("TST", .int hc), ("JMP", .str "@+2"),
      ("JMP", branchTargetVal branch), ("DEC", .int hc)] ++ rs ++
     [("JMP", LRB), ("TST", .int hc), ("JMP", .str "@+2"), ("JMP", LEL),
      ("DEC", .int hc)] ++ rs ++ [("JMP", LRB)]) }
  let st : CompSt := { st with scopes := ndictSet st.scopes hc st.bon.length,
                               helpRegisterCount := hc + 1 }
  cmpReset o2 (cmpReset o1 st)

/-- The body of `compile_cmp` after the head bump, with the consumed
branch instruction in hand.  With `op2.val == "0"` the fast paths fire and
`jl` raises the one `CompilerError` of the backend; otherwise the general
comparison is emitted. -/
def compileCmpCore (branch : Instruction) (op1 op2 : Operand)
    (st : CompSt) : Except String CompSt :=
  if op2.pyValIsZeroString then
    if branch.opcode = "jg" ∨ branch.opcode = "jne" then
      .ok { st with bon := st.bon ++
        [("TST", pyVal op1), ("JMP", branchTargetVal branch)] }
    else if branch.opcode = "jge" then
      .ok { st with bon := st.bon ++ [("JMP", branchTargetVal branch)] }
    else if branch.opcode = "jl" then
      .error "Register can never be smaller than 0."
    else if branch.opcode = "jle" ∨ branch.opcode = "je" then
      .ok { st with bon := st.bon ++
        [("TST", pyVal op1), ("JMP", .str "@+2"),
         ("JMP", branchTargetVal branch)] }
    else .ok st
  else
    .ok (cmpSlow branch op1 op2 st)

/-- `compile_cmp`: bumps the head past the guarding branch it consumes and
runs the body on it. -/
def compile_cmp (ic : IC) (op1 op2 : Operand) (st : CompSt) :
    Except String CompSt :=
  compileCmpCore (ic.instructions[st.head + 1]?.getD ⟨"", none, none⟩)
    op1 op2 { st with head := st.head + 1 }

/-- `compiler_functions[instruction.opcode](...)` (an unknown opcode's
`KeyError` is totalised as a no-op). -/
def dispatchInstr (ic : IC) (instr : Instruction) (st : CompSt) :
    Except String CompSt :=
  let o1 := instr.op1.getD (Operand.CONSTANT "")
  let o2 := instr.op2.getD (Operand.CONSTANT "")
  if instr.opcode = "add" then .ok (compile_add o1 o2 st)
  else if instr.opcode = "sub" then .ok (compile_sub o1 o2 st)
  else if instr.opcode = "mov" then .ok (compile_mov o1 o2 st)
  else if instr.opcode = "hlt" then .ok (compile_hlt st)
  else if instr.opcode = "jmp" then .ok (compile_jmp o1 st)
  else if instr.opcode = "cmp" then compile_cmp ic o1 o2 st
  else .ok st

/-- The label-replay `while` loop at the top of the main loop: bind every
pending original label whose line equals the head to the current output
length, advancing the replay head except at the final entry. -/
def labelReplay (org : List (Nat × String)) : Nat → CompSt → CompSt
  | 0, st => st
  | f + 1, st =>
    match org[st.labelHead]? with
    | Option.none => st
    | some e =>
      if e.1 = st.head then
        if st.labelHead < org.length - 1 then
          labelReplay org f
            { st with labels := dictSet st.labels e.2 st.bon.length,
                      labelHead := st.labelHead + 1 }
        else { st with labels := dictSet st.labels e.2 st.bon.length }
      else st

/-- The scope-replay `while` loop at the bottom of the main loop: map each
original help-register scope end onto the current output length. -/
def scopeReplay (org : List (Nat × Nat)) : Nat → CompSt → CompSt
  | 0, st => st
  | f + 1, st =>
    match org[st.scopeHead]? with
    | Option.none => st
    | some e =>
      if e.1 = st.head then
        if st.scopeHead < org.length - 1 then
          scopeReplay org f
            { st with scopes := ndictSet st.scopes e.2 st.bon.length,
                      scopeHead := st.scopeHead + 1 }
        else { st with scopes := ndictSet st.scopes e.2 st.bon.length }
      else st

/-- The main `while storage.head < len(self.instructions)` loop.  The head
strictly increases each iteration, so fuel `length + 1` always suffices. -/
def compileLoop (ic : IC) (orgLabels : List (Nat × String))
    (orgScopes : List (Nat × Nat)) : Nat → CompSt → Except String CompSt
  | 0, st => .ok st
  | fuel + 1, st =>
    if st.head < ic.instructions.length then
      let st := labelReplay orgLabels (orgLabels.length + 1) st
      let instr := ic.instructions[st.head]?.getD ⟨"", none, none⟩
      match dispatchInstr ic instr st with
      | .error e => .error e
      | .ok st' =>
        let st'' := scopeReplay orgScopes (orgScopes.length + 1)
          { st' with head := st'.head + 1 }
        compileLoop ic orgLabels orgScopes fuel st''
    else .ok st

/-- Stable insertion by first component (Python's `sort(key=lambda e: e[0])`
is a stable ascending sort; any stable sort is extensionally the same). -/
def stableInsertFst {α : Type} (x : Nat × α) :
    List (Nat × α) → List (Nat × α)
  | [] => [x]
  | y :: ys => if y.1 ≤ x.1 then y :: stableInsertFst x ys else x :: y :: ys

def sortByFst {α : Type} : List (Nat × α) → List (Nat × α)
  | [] => []
  | x :: xs => stableInsertFst x (sortByFst xs)

/-- `orgLabels`: the dot-labels of the symbol table as (line, label) pairs,
stably sorted by line. -/
def orgLabelsOf (ic : IC) : List (Nat × String) :=
  sortByFst ((ic.symbolTable.filter fun e => pyStartsWithDot e.1).map
    fun e => (e.2, e.1))

/-- `orgHelpRegisterScopes`: the builder's scope dict as (line, register)
pairs, stably sorted by line. -/
def orgScopesOf (ic : IC) : List (Nat × Nat) :=
  sortByFst (ic.helpRegisterScopes.map fun e => (e.2, e.1))

def initSt (ic : IC) : CompSt :=
  ⟨0, ic.helpRegisterCount, [], [], [], 0, 0⟩

/-- Phase A of `compile()`: expand every intermediate instruction; `.error`
exactly on the backend's `CompilerError`. -/
def compilePhaseA (ic : IC) : Except String CompSt :=
  compileLoop ic (orgLabelsOf ic) (orgScopesOf ic)
    (ic.instructions.length + 1) (initSt ic)

/-! ## Phase B: address resolution, help-register allocation, serialization -/

/-- A resolved operand: an absolute number, a still-unallocated help
register (the `("H", id)` marker), or `None`. -/
inductive RVal : Type where
  | num (n : Int)
  | H (id : Nat)
  | null
  deriving DecidableEq, Repr

/-- The address-resolution pass on one operand at position `i`: ints are
marked help registers, `.`-strings resolve through `labels`, `@`-strings
are relative, anything else is a register name resolved through the symbol
table; all three produce 1-based absolute numbers. -/
def resolveOp (labels symtab : List (String × Nat)) (i : Nat) : PVal → RVal
  | .int n => .H n
  | .null => .null
  | .str s =>
    if s.data.head? = some '.' then
      .num (((dictGet? labels s).getD 0 : Int) + 1)
    else if s.data.head? = some '@' then
      .num ((i : Int) + pyStrInt ⟨s.data.tail⟩ + 1)
    else
      .num (((dictGet? symtab s).getD 0 : Int) + 1)

def resolveBon (labels symtab : List (String × Nat)) (bon : List PInstr) :
    List (String × RVal) :=
  bon.enum.map fun e => (e.2.1, resolveOp labels symtab e.1 e.2.2)

/-- The help-register allocator's state: the running register count, the
scope replay head, the free list (used as a stack: `pop()` takes the last
element), the in-use map from logical id to physical slot, and the rebuilt
instruction list. -/
structure AllocSt : Type where
  registerCount : Nat
  scopeHead : Nat
  free : List Nat
  inUse : List (Nat × Nat)
  out : List (String × RVal)
  deriving DecidableEq, Repr

/-- The substitution half of one allocation iteration: replace a help
register marker with its physical slot, reusing the most recently freed
slot, else creating a fresh one. -/
def allocSub (a : AllocSt) (e : Nat × (String × RVal)) : AllocSt :=
  match e.2.2 with
  | .H id =>
    match ndictGet? a.inUse id with
    | some phys => { a with out := a.out ++ [(e.2.1, .num phys)] }
    | Option.none =>
      if a.free ≠ [] then
        let phys := (a.free.getLast?).getD 0
        { a with free := a.free.dropLast,
                 inUse := ndictSet a.inUse id phys,
                 out := a.out ++ [(e.2.1, .num phys)] }
      else
        { a with registerCount := a.registerCount + 1,
                 inUse := ndictSet a.inUse id (a.registerCount + 1),
                 out := a.out ++ [(e.2.1, .num (a.registerCount + 1))] }
  | v => { a with out := a.out ++ [(e.2.1, v)] }

/-- The freeing half: if the pending scope entry ends at position `i`, move
its physical slot from the in-use map to the free list and advance the
replay head (except at the final entry). -/
def allocFree (scopes : List (Nat × Nat)) (a : AllocSt) (i : Nat) :
    AllocSt :=
  match scopes[a.scopeHead]? with
  | Option.none => a
  | some sc =>
    if sc.1 = i then
      match ndictGet? a.inUse sc.2 with
      | some phys =>
        let a := { a with free := a.free ++ [phys],
                          inUse := ndictDel a.inUse sc.2 }
        if a.scopeHead < scopes.length - 1 then
          { a with scopeHead := a.scopeHead + 1 }
        else a
      | Option.none => a
    else a

/-- One iteration of the allocation loop at position `i`: substitute, then
free whatever scope ends here. -/
def allocStep (scopes : List (Nat × Nat)) (a : AllocSt)
    (e : Nat × (String × RVal)) : AllocSt :=
  allocFree scopes (allocSub a e) e.1

def allocRun (scopes : List (Nat × Nat)) (resolved : List (String × RVal))
    (rc0 : Nat) : AllocSt :=
  resolved.enum.foldl (allocStep scopes) ⟨rc0, 0, [], [], []⟩

/-- Python's `str.rjust`-style field padding as `"{:2d}"`/`"{:5d}"` perform
it (spaces on the left when the rendering is shorter than the width). -/
def pyRjust (w : Nat) (s : String) : String :=
  String.mk (List.replicate (w - s.length) ' ' ++ s.data)

/-- `"{}{:2d}\r\n".format(opcode, oprnd)` for an operand-carrying line,
`opcode + "  \r\n"` for an operand-less one (a stray `H` marker being
totalised bare). -/
def fmtLine : String × RVal → String
  | (op, .num n) => op ++ pyRjust 2 (toString n) ++ "\r\n"
  | (op, .H _) => op ++ "\r\n"
  | (op, .null) => op ++ "  " ++ "\r\n"

/-- The instruction-line format as the specification's words describe it: a
3-character opcode, then a single separating space, then the operand
right-justified to width 2 (blanks filling the operand column for `HLT`). -/
def specFmtLine : String × RVal → String
  | (op, .num n) => op ++ " " ++ pyRjust 2 (toString n) ++ "\r\n"
  | (op, .H _) => op ++ "\r\n"
  | (op, .null) => op ++ " " ++ "  " ++ "\r\n"

/-- `"#{:5d}\r\n".format(int(register))`. -/
def fmtRegister (n : Nat) : String :=
  "#" ++ pyRjust 5 (toString n) ++ "\r\n"

/-- The `"".join(chain(...))` at the end of `compile()`: instruction lines,
user register lines, one `#    0` line per entry of the final free list,
comment lines, and blank comments up to ten. -/
def serializeOutput (instrs : List (String × RVal)) (registers : List Nat)
    (freeCount : Nat) (comments : List String) : String :=
  String.join (instrs.map fmtLine)
    ++ String.join (registers.map fmtRegister)
    ++ String.join (List.replicate freeCount "#    0\r\n")
    ++ String.join (comments.map fun c => ";" ++ c ++ "\r\n")
    ++ String.join (List.replicate (10 - comments.length) ";\r\n")

/-- The allocator input: the phase-A scope dict as sorted (line, register)
pairs. -/
def scopesSortedOf (st : CompSt) : List (Nat × Nat) :=
  sortByFst (st.scopes.map fun e => (e.2, e.1))

/-- All of `IntermediateCode.compile()`: phase A, address resolution,
help-register allocation, serialization. -/
def compileIC (ic : IC) : Except String String :=
  match compilePhaseA ic with
  | .error e => .error e
  | .ok st =>
    let resolved := resolveBon st.labels ic.symbolTable st.bon
    let a := allocRun (scopesSortedOf st) resolved ic.registers.length
    .ok (serializeOutput a.out ic.registers a.free.length ic.comments)

/-! ## C4: the backend's one `CompilerError` -/

theorem compile_add_head (op1 op2 : Operand) (st : CompSt) :
    (compile_add op1 op2 st).head = st.head := by
  unfold compile_add; split <;> rfl

theorem compile_sub_head (op1 op2 : Operand) (st : CompSt) :
    (compile_sub op1 op2 st).head = st.head := by
  unfold compile_sub; split <;> rfl

theorem compile_mov_head (op1 op2 : Operand) (st : CompSt) :
    (compile_mov op1 op2 st).head = st.head := by
  unfold compile_mov compile_mov_const
  split <;> simp [compile_add_head]

theorem labelReplay_head (org : List (Nat × String)) (f : Nat) (st : CompSt) :
    (labelReplay org f st).head = st.head := by
  induction f generalizing st with
  | zero => rfl
  | succ f ih =>
    rw [labelReplay]
    split
    · rfl
    · split
      · split
        · rw [ih]
        · rfl
      · rfl

theorem scopeReplay_head (org : List (Nat × Nat)) (f : Nat) (st : CompSt) :
    (scopeReplay org f st).head = st.head := by
  induction f generalizing st with
  | zero => rfl
  | succ f ih =>
    rw [scopeReplay]
    split
    · rfl
    · split
      · split
        · rw [ih]
        · rfl
      · rfl

theorem compileCmpCore_error_iff (branch : Instruction) (op1 op2 : Operand)
    (st : CompSt) :
    (∃ e, compileCmpCore branch op1 op2 st = .error e) ↔
      (op2.pyValIsZeroString = true ∧ branch.opcode = "jl") := by
  unfold compileCmpCore
  by_cases hz : op2.pyValIsZeroString = true
  · rw [if_pos hz]
    simp only [hz, true_and]
    split_ifs with h1 h2 h3 h4
    · constructor
      · rintro ⟨e, he⟩; simp at he
      · intro hjl; rcases h1 with h | h <;> rw [hjl] at h <;> simp at h
    · constructor
      · rintro ⟨e, he⟩; simp at he
      · intro hjl; rw [hjl] at h2; simp at h2
    · exact iff_of_true ⟨_, rfl⟩ h3
    · constructor
      · rintro ⟨e, he⟩; simp at he
      · intro hjl; exact absurd hjl h3
    · constructor
      · rintro ⟨e, he⟩; simp at he
      · intro hjl; exact absurd hjl h3
  · rw [if_neg hz]
    constructor
    · rintro ⟨e, he⟩; simp at he
    · rintro ⟨hzz, _⟩; exact absurd hzz hz

theorem cmpMaterialize_head (op : Operand) (pre : List PInstr) (st : CompSt) :
    (cmpMaterialize op pre st).2.2.head = st.head := by
  unfold cmpMaterialize
  split <;> simp [compile_add_head]

theorem cmpReset_head (o : PVal) (st : CompSt) :
    (cmpReset o st).head = st.head := by
  unfold cmpReset
  split <;> simp [compile_mov_head]

theorem cmpSlow_head (branch : Instruction) (op1 op2 : Operand)
    (st : CompSt) : (cmpSlow branch op1 op2 st).head = st.head := by
  unfold cmpSlow
  simp [cmpReset_head, cmpMaterialize_head]

theorem compileCmpCore_head (branch : Instruction) (op1 op2 : Operand)
    (st st' : CompSt) (h : compileCmpCore branch op1 op2 st = .ok st') :
    st'.head = st.head := by
  unfold compileCmpCore at h
  split_ifs at h
  · obtain rfl := Except.ok.inj h; rfl
  · obtain rfl := Except.ok.inj h; rfl
  · obtain rfl := Except.ok.inj h; rfl
  · obtain rfl := Except.ok.inj h; rfl
  · obtain rfl := Except.ok.inj h
    exact cmpSlow_head ..

theorem compileCmpCore_fast_no_alloc (branch : Instruction) (op1 op2 : Operand)
    (st st' : CompSt) (hz : op2.pyValIsZeroString = true)
    (h : compileCmpCore branch op1 op2 st = .ok st') :
    st'.helpRegisterCount = st.helpRegisterCount := by
  unfold compileCmpCore at h
  rw [if_pos hz] at h
  split_ifs at h <;> (obtain rfl := Except.ok.inj h; rfl)

theorem compile_cmp_error_iff (ic : IC) (op1 op2 : Operand) (st : CompSt) :
    (∃ e, compile_cmp ic op1 op2 st = .error e) ↔
      (op2.pyValIsZeroString = true ∧
        (ic.instructions[st.head + 1]?.getD ⟨"", none, none⟩).opcode = "jl") := by
  unfold compile_cmp
  rw [compileCmpCore_error_iff]

theorem compile_cmp_head (ic : IC) (op1 op2 : Operand) (st st' : CompSt)
    (h : compile_cmp ic op1 op2 st = .ok st') : st'.head = st.head + 1 := by
  unfold compile_cmp at h
  exact compileCmpCore_head _ _ _ _ _ h

theorem dispatchInstr_error_iff (ic : IC) (instr : Instruction) (st : CompSt) :
    (∃ e, dispatchInstr ic instr st = .error e) ↔
      (instr.opcode = "cmp" ∧
        (instr.op2.getD (Operand.CONSTANT "")).pyValIsZeroString = true ∧
        (ic.instructions[st.head + 1]?.getD ⟨"", none, none⟩).opcode = "jl") := by
  unfold dispatchInstr
  split
  · simp_all
  · split
    · simp_all
    · split
      · simp_all
      · split
        · simp_all
        · split
          · simp_all
          · split
            · rename_i h5 hcmp
              rw [compile_cmp_error_iff]
              simp_all
            · simp_all

theorem dispatchInstr_head (ic : IC) (instr : Instruction) (st st' : CompSt)
    (h : dispatchInstr ic instr st = .ok st') :
    st'.head = if instr.opcode = "cmp" then st.head + 1 else st.head := by
  unfold dispatchInstr at h
  split at h
  · rename_i ha
    obtain rfl := Except.ok.inj h
    simp_all [compile_add_head]
  · split at h
    · rename_i _ hs
      obtain rfl := Except.ok.inj h
      simp_all [compile_sub_head]
    · split at h
      · rename_i _ _ hm
        obtain rfl := Except.ok.inj h
        simp_all [compile_mov_head]
      · split at h
        · rename_i _ _ _ hh
          obtain rfl := Except.ok.inj h
          simp_all [compile_hlt]
        · split at h
          · rename_i _ _ _ _ hj
            obtain rfl := Except.ok.inj h
            simp_all [compile_jmp]
          · split at h
            · rename_i _ _ _ _ _ hc
              rw [if_pos hc]
              exact compile_cmp_head ic _ _ st st' h
            · rename_i _ _ _ _ _ hc
              obtain rfl := Except.ok.inj h
              simp_all

/-- The `cmp` at position `i` is guarded by a `jl` against the constant
string `"0"` (the exact condition under which `compile_cmp` raises). -/
def cmpJl0 (ic : IC) (i : Nat) : Bool :=
  match ic.instructions[i]? with
  | some a => a.opcode == "cmp"
      && (a.op2.getD (Operand.CONSTANT "")).pyValIsZeroString
      && (ic.instructions[i+1]?.getD ⟨"", none, none⟩).opcode == "jl"
  | Option.none => false

/-- No `cmp` immediately follows another `cmp` (true of builder output: the
instruction after a `cmp` is always the conditional jump). -/
def noAdjacentCmp (ic : IC) : Bool :=
  (List.range ic.instructions.length).all fun i =>
    match ic.instructions[i]?, ic.instructions[i+1]? with
    | some a, some b => !(a.opcode == "cmp" && b.opcode == "cmp")
    | _, _ => true

theorem noAdjacentCmp_spec (ic : IC) (h : noAdjacentCmp ic = true)
    (i : Nat) (a b : Instruction) (ha : ic.instructions[i]? = some a)
    (hb : ic.instructions[i+1]? = some b) (hac : a.opcode = "cmp") :
    b.opcode ≠ "cmp" := by
  have hi : i < ic.instructions.length := by
    by_contra hlt
    rw [List.getElem?_eq_none (by omega)] at ha
    exact Option.noConfusion ha
  have := List.all_eq_true.mp h i (List.mem_range.mpr hi)
  rw [ha, hb] at this
  simp only [Bool.not_eq_true', Bool.and_eq_false_iff] at this
  intro hbc
  rcases this with h1 | h1 <;> simp [hac, hbc] at h1

theorem cmpJl0_false_of_not_cmp (ic : IC) (i : Nat)
    (h : ∀ a, ic.instructions[i]? = some a → a.opcode ≠ "cmp") :
    cmpJl0 ic i = false := by
  unfold cmpJl0
  split
  · rename_i a ha
    have := h a ha
    simp [this]
  · rfl

theorem compileLoop_succ_lt (ic : IC) (oL : List (Nat × String))
    (oS : List (Nat × Nat)) (fuel : Nat) (st : CompSt)
    (h : st.head < ic.instructions.length) :
    compileLoop ic oL oS (fuel + 1) st =
      match dispatchInstr ic
          (ic.instructions[(labelReplay oL (oL.length + 1) st).head]?.getD
            ⟨"", none, none⟩)
          (labelReplay oL (oL.length + 1) st) with
      | .error e => .error e
      | .ok st' => compileLoop ic oL oS fuel
          (scopeReplay oS (oS.length + 1) { st' with head := st'.head + 1 }) := by
  rw [compileLoop, if_pos h]

theorem compileLoop_succ_ge (ic : IC) (oL : List (Nat × String))
    (oS : List (Nat × Nat)) (fuel : Nat) (st : CompSt)
    (h : ¬ st.head < ic.instructions.length) :
    compileLoop ic oL oS (fuel + 1) st = .ok st := by
  rw [compileLoop, if_neg h]

theorem compileLoop_error_iff (ic : IC) (oL : List (Nat × String))
    (oS : List (Nat × Nat)) (hadj : noAdjacentCmp ic = true) :
    ∀ (fuel : Nat) (st : CompSt),
      ic.instructions.length - st.head < fuel →
      ((∃ e, compileLoop ic oL oS fuel st = .error e) ↔
        ∃ i, st.head ≤ i ∧ cmpJl0 ic i = true) := by
  intro fuel
  induction fuel with
  | zero => omega
  | succ fuel ih =>
    intro st hfuel
    by_cases hlt : st.head < ic.instructions.length
    · rw [compileLoop_succ_lt ic oL oS fuel st hlt]
      have hLh : (labelReplay oL (oL.length + 1) st).head = st.head :=
        labelReplay_head ..
      have hfetch : ic.instructions[st.head]? =
          some ic.instructions[st.head] := List.getElem?_eq_getElem hlt
      cases hd : dispatchInstr ic
          (ic.instructions[(labelReplay oL (oL.length + 1) st).head]?.getD
            ⟨"", none, none⟩)
          (labelReplay oL (oL.length + 1) st) with
      | error e =>
        simp only
        rw [hLh, hfetch] at hd
        simp only [Option.getD_some] at hd
        constructor
        · intro _
          obtain ⟨hcmp, hz, hjl⟩ := (dispatchInstr_error_iff ic _ _).mp ⟨e, hd⟩
          rw [hLh] at hjl
          refine ⟨st.head, le_refl _, ?_⟩
          unfold cmpJl0
          rw [hfetch]
          simp [hcmp, hz, hjl]
        · intro _
          exact ⟨e, rfl⟩
      | ok st' =>
        simp only
        rw [hLh, hfetch] at hd
        simp only [Option.getD_some] at hd
        have hdh := dispatchInstr_head ic _ _ _ hd
        rw [hLh] at hdh
        have hnoerr : ¬ (ic.instructions[st.head].opcode = "cmp" ∧
            (ic.instructions[st.head].op2.getD
              (Operand.CONSTANT "")).pyValIsZeroString = true ∧
            (ic.instructions[st.head + 1]?.getD ⟨"", none, none⟩).opcode
              = "jl") := by
          intro hcond
          obtain ⟨e, he⟩ := (dispatchInstr_error_iff ic
            ic.instructions[st.head]
            (labelReplay oL (oL.length + 1) st)).mpr
            (by rw [hLh]; exact hcond)
          rw [hd] at he
          exact Except.noConfusion he
        set st'' := scopeReplay oS (oS.length + 1)
          { st' with head := st'.head + 1 } with hst''
        have hsh : st''.head = st'.head + 1 := scopeReplay_head ..
        have hge1 : st.head + 1 ≤ st''.head := by
          rw [hsh, hdh]
          split <;> omega
        rw [ih st'' (by omega)]
        have hcmpJl0_head : cmpJl0 ic st.head = false := by
          by_cases hcmp : ic.instructions[st.head].opcode = "cmp"
          · unfold cmpJl0
            rw [hfetch]
            simp only [Bool.and_eq_false_iff]
            by_cases hz : (ic.instructions[st.head].op2.getD
                (Operand.CONSTANT "")).pyValIsZeroString = true
            · by_cases hjl : (ic.instructions[st.head + 1]?.getD
                  ⟨"", none, none⟩).opcode = "jl"
              · exact absurd ⟨hcmp, hz, hjl⟩ hnoerr
              · right
                simp [hjl]
            · left
              right
              simp [hz]
          · exact cmpJl0_false_of_not_cmp ic st.head
              (by intro a ha
                  rw [hfetch] at ha
                  obtain rfl := Option.some.inj ha
                  exact hcmp)
        constructor
        · rintro ⟨i, hi, hc⟩
          exact ⟨i, by omega, hc⟩
        · rintro ⟨i, hi, hc⟩
          refine ⟨i, ?_, hc⟩
          rcases Nat.eq_or_lt_of_le hi with rfl | hgt
          · rw [hcmpJl0_head] at hc
            exact Bool.noConfusion hc
          · by_cases hcmp : ic.instructions[st.head].opcode = "cmp"
            · rw [hsh, hdh, if_pos hcmp]
              rcases Nat.eq_or_lt_of_le hgt with heq | hgt2
              · exfalso
                have hfalse : cmpJl0 ic (st.head + 1) = false := by
                  apply cmpJl0_false_of_not_cmp
                  intro b hb
                  exact noAdjacentCmp_spec ic hadj st.head _ b hfetch hb hcmp
                have heq2 : i = st.head + 1 := by omega
                rw [heq2, hfalse] at hc
                exact Bool.noConfusion hc
              · omega
            · rw [hsh, hdh, if_neg hcmp]
              omega
    · rw [compileLoop_succ_ge ic oL oS fuel st hlt]
      constructor
      · rintro ⟨e, he⟩
        exact Except.noConfusion he
      · rintro ⟨i, hle, hcmp⟩
        exfalso
        unfold cmpJl0 at hcmp
        rw [List.getElem?_eq_none (by omega)] at hcmp
        exact Bool.noConfusion hcmp

def icC4 : IC :=
  { instructions :=
      [⟨"cmp", some (.REGISTER "x"), some (.CONSTANT "0")⟩,
       ⟨"jl", some (.LABEL_IDENTIFIER ".L"), none⟩,
       ⟨"hlt", none, none⟩],
    symbolTable := [("x", 0), (".L", 2)],
    registers := [0], comments := [], helpRegisterScopes := [],
    helpRegisterCount := 0, ifCount := 0 }

/-- **C4.** `compile()` raises a `CompilerError` — aborting with no output —
iff some `cmp` whose second operand is the constant-`"0"` string is guarded
by a `jl` conditional jump (under the builder-output invariant that no
`cmp` immediately follows another `cmp`, so that every `cmp` is processed
rather than consumed as a branch); and every fast-path comparison against
the constant 0 (any guarding opcode other than `jl`) is expanded without
allocating any help register. -/
theorem compilerError_iff (ic : IC) (hadj : noAdjacentCmp ic = true) :
    ((∃ e, compileIC ic = .error e) ↔ ∃ i, cmpJl0 ic i = true) ∧
    (∀ branch op1 op2 st st', op2.pyValIsZeroString = true →
      compileCmpCore branch op1 op2 st = .ok st' →
      st'.helpRegisterCount = st.helpRegisterCount) := by
  constructor
  · have hiff := compileLoop_error_iff ic (orgLabelsOf ic) (orgScopesOf ic)
      hadj (ic.instructions.length + 1) (initSt ic)
      (by simp only [initSt]; omega)
    constructor
    · rintro ⟨e, he⟩
      unfold compileIC at he
      cases hpa : compilePhaseA ic with
      | error e' =>
        obtain ⟨i, _, hc⟩ := hiff.mp ⟨e', hpa⟩
        exact ⟨i, hc⟩
      | ok st =>
        rw [hpa] at he
        simp at he
    · rintro ⟨i, hc⟩
      obtain ⟨e, he⟩ := hiff.mpr ⟨i, Nat.zero_le i, hc⟩
      refine ⟨e, ?_⟩
      unfold compileIC
      rw [show compilePhaseA ic = .error e from he]
  · intro branch op1 op2 st st' hz h
    exact compileCmpCore_fast_no_alloc branch op1 op2 st st' hz h

theorem compilerError_iff_witness :
    noAdjacentCmp icC4 = true ∧ (∃ e, compileIC icC4 = .error e) :=
  ⟨by decide, (compilerError_iff icC4 (by decide)).1.mpr ⟨0, by decide⟩⟩

/-! ## C10: the instruction-line wire format -/

def icC10 : IC :=
  { instructions :=
      [⟨"add", some (.REGISTER "x"), some (.REGISTER "y")⟩,
       ⟨"hlt", none, none⟩],
    symbolTable := [("x", 0), ("y", 1)],
    registers := [0, 0], comments := [], helpRegisterScopes := [],
    helpRegisterCount := 0, ifCount := 0 }

/-- **C10** (amended).  Every operand-carrying instruction line is the
3-character opcode *immediately* followed by the operand right-justified in
a width-2 field — there is no separating space, so a one-digit operand gets
one leading blank and a two-digit operand abuts the opcode (`JMP10`); an
`HLT` line is the opcode followed by two blanks; every line ends with CRLF.
The full pipeline output for `add x, y; hlt` exhibits both forms. -/
theorem instruction_line_format :
    (∀ (op : String) (n : Int),
      fmtLine (op, .num n) = op ++ pyRjust 2 (toString n) ++ "\r\n") ∧
    (∀ op : String, fmtLine (op, .null) = op ++ "  " ++ "\r\n") ∧
    compileIC icC10 = .ok
      ("TST 2\r\nJMP10\r\nTST 3\r\nJMP 6\r\nJMP13\r\nDEC 3\r\nINC 1\r\n"
        ++ "INC 2\r\nJMP 3\r\nDEC 2\r\nINC 3\r\nJMP 1\r\nHLT  \r\n"
        ++ "#    0\r\n#    0\r\n#    0\r\n"
        ++ ";\r\n;\r\n;\r\n;\r\n;\r\n;\r\n;\r\n;\r\n;\r\n;\r\n") :=
  ⟨fun _ _ => rfl, fun _ => rfl, by rfl⟩

/-- **C10** counterexample to the format as the spec words it (opcode, a
single separating space, then a width-2 right-justified operand): the
pipeline emits the line `JMP10\r\n` for the resolved instruction
`("JMP", 10)` — opcode and operand abut — where the spec's format would
print `JMP 10\r\n`. -/
theorem specFmtLine_counterexample :
    fmtLine ("JMP", .num 10) = "JMP10\r\n" ∧
    specFmtLine ("JMP", .num 10) = "JMP 10\r\n" ∧
    fmtLine ("JMP", .num 10) ≠ specFmtLine ("JMP", .num 10) ∧
    (compilePhaseA icC10).map (fun st =>
      (allocRun (scopesSortedOf st)
        (resolveBon st.labels icC10.symbolTable st.bon)
        icC10.registers.length).out[1]?)
      = .ok (some ("JMP", RVal.num 10)) :=
  ⟨rfl, rfl, by decide, by rfl⟩

/-! ## C9: help-register lines in the serialized output -/

/-- The decorated tree of `goto .a` / `.a:` / `y = w + v` (a dynamic
assignment whose right-hand side needs an expression help register). -/
def astC9 : ASTNode :=
  .mk "BLOCK" "" [
    .mk "GOTO" "" [.mk "LABEL_IDENTIFIER" ".a" [] []] [],
    .mk "LABEL" "" [.mk "LABEL_IDENTIFIER" ".a" [] []] [],
    .mk "ASSIGNMENT" "=" [.mk "REGISTER" "y" [] [],
      .mk "ARITHMETIC_EXPRESSION" "" [.mk "REGISTER" "w" [] [],
        .mk "REGISTER" "v" [] []] []] ["DYNAMIC_ASSIGNMENT"]] []

def treeC9 : ASTree := ⟨astC9, [("w", 0), ("v", 1), ("y", 2)], [1, 2, 0]⟩

def icC9 : IC := fromSyntaxTree treeC9

/-- The IR builder's output on `treeC9`, evaluated. -/
theorem icC9_eval : icC9 =
    { instructions :=
        [⟨"jmp", some (.LABEL_IDENTIFIER ".a"), none⟩,
         ⟨"add", some (.HELP_REGISTER 0), some (.REGISTER "w")⟩,
         ⟨"add", some (.HELP_REGISTER 0), some (.REGISTER "v")⟩,
         ⟨"mov", some (.REGISTER "y"), some (.HELP_REGISTER 0)⟩,
         ⟨"mov", some (.HELP_REGISTER 0), some (.CONSTANT "0")⟩,
         ⟨"hlt", none, none⟩],
      symbolTable := [("w", 0), ("v", 1), ("y", 2), (".a", 1)],
      registers := [1, 2, 0], comments := [],
      helpRegisterScopes := [(0, 5)], helpRegisterCount := 1,
      ifCount := 0 } := by
  show fromSyntaxTree treeC9 = _
  rw [fromSyntaxTree]
  rw [show treeC9.root = astC9 from rfl]
  rw [show astC9 = .mk "BLOCK" "" [
      .mk "GOTO" "" [.mk "LABEL_IDENTIFIER" ".a" [] []] [],
      .mk "LABEL" "" [.mk "LABEL_IDENTIFIER" ".a" [] []] [],
      .mk "ASSIGNMENT" "=" [.mk "REGISTER" "y" [] [],
        .mk "ARITHMETIC_EXPRESSION" "" [.mk "REGISTER" "w" [] [],
          .mk "REGISTER" "v" [] []] []] ["DYNAMIC_ASSIGNMENT"]] [] from rfl]
  simp [traverseTree, List.foldl_map, nthChild, nullNode,
    getArithmeticOperand, calculateArithmeticExpression,
    mkOperand, condOpcode, emitInstr, bindLabel, resetHelpOperand, augMode,
    compileDynAssign, dictSet, dictGet?, List.find?, pyNormalizeComment,
    replaceCRLF, ASTNode.typ, ASTNode.val, ASTNode.children,
    ASTNode.decorators, treeC9, ndictSet]
  decide

/-- What the optimizer makes of `icC9`: the fallthrough `goto` is elided
and the label adjusted, but `helpRegisterScopes` keeps the stale line 5. -/
def icC9opt : IC :=
  { instructions :=
      [⟨"add", some (.HELP_REGISTER 0), some (.REGISTER "w")⟩,
       ⟨"add", some (.HELP_REGISTER 0), some (.REGISTER "v")⟩,
       ⟨"mov", some (.REGISTER "y"), some (.HELP_REGISTER 0)⟩,
       ⟨"mov", some (.HELP_REGISTER 0), some (.CONSTANT "0")⟩,
       ⟨"hlt", none, none⟩],
    symbolTable := [("w", 0), ("v", 1), ("y", 2), (".a", 0)],
    registers := [1, 2, 0], comments := [],
    helpRegisterScopes := [(0, 5)], helpRegisterCount := 1, ifCount := 0 }

set_option maxRecDepth 8192 in
/-- **C9** refuted (code bug): the optimizer decrements label indices after
deleting a fallthrough jump but leaves `helpRegisterScopes` untouched, so
the builder-level help register's scope end (IC line 5) now lies past the
last remaining instruction (index 4).  During code generation its scope
replays to a position one past the final concrete instruction, the
allocator's freeing scan (which only reaches the last instruction index)
never frees the slot, and the serialized output carries only one `#    0`
line although two physical help-register slots were allocated
(`registerCount` 5 = 3 user registers + 2 slots, final free list `[4]`,
slot 5 still marked in use). -/
theorem help_register_lines_missing :
    optFix 5 icC9 = some icC9opt ∧
    icC9opt.helpRegisterScopes = icC9.helpRegisterScopes ∧
    (compilePhaseA icC9opt).map (fun st =>
      ((allocRun (scopesSortedOf st)
          (resolveBon st.labels icC9opt.symbolTable st.bon)
          icC9opt.registers.length).registerCount,
       (allocRun (scopesSortedOf st)
          (resolveBon st.labels icC9opt.symbolTable st.bon)
          icC9opt.registers.length).free,
       (allocRun (scopesSortedOf st)
          (resolveBon st.labels icC9opt.symbolTable st.bon)
          icC9opt.registers.length).inUse)) = .ok (5, [4], [(0, 5)]) ∧
    compileIC icC9opt = .ok
      ("TST 1\r\nJMP10\r\nTST 4\r\nJMP 6\r\nJMP13\r\nDEC 4\r\nINC 5\r\nINC 1\r\n"
        ++ "JMP 3\r\nDEC 1\r\nINC 4\r\nJMP 1\r\nTST 2\r\nJMP22\r\nTST 4\r\nJMP18\r\n"
        ++ "JMP25\r\nDEC 4\r\nINC 5\r\nINC 2\r\nJMP15\r\nDEC 2\r\nINC 4\r\nJMP13\r\n"
        ++ "TST 3\r\nJMP28\r\nJMP30\r\nDEC 3\r\nJMP25\r\nTST 5\r\nJMP39\r\nTST 4\r\n"
        ++ "JMP35\r\nJMP42\r\nDEC 4\r\nINC 3\r\nINC 5\r\nJMP32\r\nDEC 5\r\nINC 4\r\n"
        ++ "JMP30\r\nTST 5\r\nJMP45\r\nJMP47\r\nDEC 5\r\nJMP42\r\nHLT  \r\n#    1\r\n"
        ++ "#    2\r\n#    0\r\n#    0\r\n;\r\n;\r\n;\r\n;\r\n;\r\n"
        ++ ";\r\n;\r\n;\r\n;\r\n;\r\n") := by
  refine ⟨?_, ?_, by rfl, by rfl⟩
  · rw [icC9_eval]
    decide
  · rw [icC9_eval]
    decide

/-! ## C2: the help-register allocator is liveness-optimal -/

/-- `id` occurs as a help-register operand at an index `< n`. -/
def occB (resolved : List (String × RVal)) (n : Nat) (id : Nat) : Bool :=
  (resolved.take n).any fun e => e.2 = RVal.H id

/-- The recorded scope end of a logical help register (from the sorted
`(line, register)` list the allocator scans). -/
def scopeLine? (scopes : List (Nat × Nat)) (id : Nat) : Option Nat :=
  (scopes.find? fun e => e.2 = id).map (·.1)

/-- `id` is live at stream position `p`: it has occurred at or before `p`
and its recorded scope end (if any) has not passed. -/
def liveB (resolved : List (String × RVal)) (scopes : List (Nat × Nat))
    (id p : Nat) : Bool :=
  occB resolved (p + 1) id &&
    (match scopeLine? scopes id with
     | some L => decide (p ≤ L)
     | Option.none => true)

/-- The logical help-register ids occurring in the stream, each once. -/
def helpIds (resolved : List (String × RVal)) : List Nat :=
  (resolved.filterMap fun e =>
    match e.2 with
    | RVal.H id => some id
    | _ => Option.none).dedup

/-- The number of simultaneously live help-register ids at position `p`. -/
def liveCount (resolved : List (String × RVal)) (scopes : List (Nat × Nat))
    (p : Nat) : Nat :=
  ((helpIds resolved).filter fun id => liveB resolved scopes id p).length

/-- The maximum of `liveCount` over the whole stream. -/
def peakLive (resolved : List (String × RVal))
    (scopes : List (Nat × Nat)) : Nat :=
  (List.range resolved.length).foldl
    (fun m p => max m (liveCount resolved scopes p)) 0

theorem ndictGet?_isSome_iff (d : List (Nat × Nat)) (k : Nat) :
    (ndictGet? d k).isSome = true ↔ k ∈ d.map Prod.fst := by
  unfold ndictGet?
  cases hf : d.find? (fun e => decide (e.1 = k)) with
  | none =>
    simp only [Option.map_none', Option.isSome_none, Bool.false_eq_true,
      false_iff]
    intro hk
    obtain ⟨e, he, hk⟩ := List.mem_map.mp hk
    have := List.find?_eq_none.mp hf e he
    simp [hk] at this
  | some e =>
    simp only [Option.map_some', Option.isSome_some, true_iff]
    have h1 := List.find?_some hf
    have h2 := List.mem_of_find?_eq_some hf
    simp only [decide_eq_true_eq] at h1
    exact h1 ▸ List.mem_map_of_mem Prod.fst h2

theorem ndictGet?_ndictSet_self (d : List (Nat × Nat)) (k v : Nat) :
    ndictGet? (ndictSet d k v) k = some v := by
  unfold ndictGet? ndictSet
  split
  · rename_i hfind
    induction d with
    | nil => simp [List.find?] at hfind
    | cons x rest ih =>
      by_cases hx : x.1 = k
      · simp [List.find?, hx]
      · rw [List.find?_cons_of_neg _ (by simpa using hx)] at hfind
        simpa [List.find?, hx] using ih hfind
  · rename_i hfind
    have hnone : d.find? (fun e => decide (e.1 = k)) = none := by
      cases h : d.find? (fun e => decide (e.1 = k)) with
      | none => rfl
      | some e => rw [h] at hfind; simp at hfind
    rw [List.find?_append, hnone]
    simp [List.find?]

theorem ndictGet?_ndictSet_ne (d : List (Nat × Nat)) (k v k' : Nat)
    (h : k' ≠ k) : ndictGet? (ndictSet d k v) k' = ndictGet? d k' := by
  unfold ndictGet? ndictSet
  split
  · rw [List.find?_map]
    have hpf : ((fun e => decide (e.1 = k')) ∘
          fun e : Nat × Nat => if e.1 = k then (k, v) else e)
        = fun e : Nat × Nat => decide (e.1 = k') := by
      funext e
      by_cases he : e.1 = k
      · simp [Function.comp, he, Ne.symm h]
      · simp [Function.comp, he]
    rw [hpf]
    cases hf : d.find? (fun e => decide (e.1 = k')) with
    | none => rfl
    | some e =>
      have he := List.find?_some hf
      simp only [decide_eq_true_eq] at he
      have hfe : (if e.1 = k then (k, v) else e) = e := by
        rw [if_neg]
        rw [he]
        exact h
      simp [hfe]
  · rw [List.find?_append]
    have hone : List.find? (fun e => decide (e.1 = k')) [(k, v)] = none := by
      simp [List.find?, Ne.symm h]
    cases hf : d.find? fun e => decide (e.1 = k') with
    | none => simp [hf, hone]
    | some e => simp [hf]

theorem ndictGet?_ndictDel_self (d : List (Nat × Nat)) (k : Nat) :
    ndictGet? (ndictDel d k) k = Option.none := by
  unfold ndictGet? ndictDel
  induction d with
  | nil => rfl
  | cons x rest ih =>
    rw [List.filter_cons]
    by_cases hx : x.1 = k
    · rw [if_neg (by simpa using hx)]
      exact ih
    · rw [if_pos (by simpa using hx)]
      rw [List.find?_cons_of_neg _ (by simpa using hx)]
      exact ih

theorem ndictGet?_ndictDel_ne (d : List (Nat × Nat)) (k k' : Nat)
    (h : k' ≠ k) : ndictGet? (ndictDel d k) k' = ndictGet? d k' := by
  unfold ndictGet? ndictDel
  induction d with
  | nil => rfl
  | cons x rest ih =>
    rw [List.filter_cons]
    by_cases hx : x.1 = k
    · rw [if_neg (by simpa using hx)]
      have hx' : ¬ x.1 = k' := by rw [hx]; exact Ne.symm h
      rw [List.find?_cons_of_neg _ (by simpa using hx')]
      exact ih
    · rw [if_pos (by simpa using hx)]
      by_cases hx' : x.1 = k'
      · rw [List.find?_cons_of_pos _ (by simpa using hx'),
          List.find?_cons_of_pos _ (by simpa using hx')]
      · rw [List.find?_cons_of_neg _ (by simpa using hx'),
          List.find?_cons_of_neg _ (by simpa using hx')]
        exact ih

theorem ndictGet?_isSome_eq (d : List (Nat × Nat)) (k : Nat) :
    (ndictGet? d k).isSome = (d.find? fun e => decide (e.1 = k)).isSome := by
  unfold ndictGet?
  cases d.find? fun e => decide (e.1 = k) <;> rfl

theorem keys_ndictSet_present (d : List (Nat × Nat)) (k v : Nat)
    (h : (ndictGet? d k).isSome = true) :
    (ndictSet d k v).map Prod.fst = d.map Prod.fst := by
  unfold ndictSet
  rw [if_pos (by rw [← ndictGet?_isSome_eq]; exact h)]
  rw [List.map_map]
  congr 1
  funext e
  by_cases he : e.1 = k <;> simp [Function.comp, he]

theorem keys_ndictSet_absent (d : List (Nat × Nat)) (k v : Nat)
    (h : (ndictGet? d k).isSome = false) :
    (ndictSet d k v).map Prod.fst = d.map Prod.fst ++ [k] := by
  unfold ndictSet
  rw [if_neg (by rw [← ndictGet?_isSome_eq, h]; simp)]
  simp

theorem length_ndictSet_present (d : List (Nat × Nat)) (k v : Nat)
    (h : (ndictGet? d k).isSome = true) :
    (ndictSet d k v).length = d.length := by
  unfold ndictSet
  rw [if_pos (by rw [← ndictGet?_isSome_eq]; exact h)]
  exact List.length_map ..

theorem length_ndictSet_absent (d : List (Nat × Nat)) (k v : Nat)
    (h : (ndictGet? d k).isSome = false) :
    (ndictSet d k v).length = d.length + 1 := by
  unfold ndictSet
  rw [if_neg (by rw [← ndictGet?_isSome_eq, h]; simp)]
  simp

theorem keys_ndictDel (d : List (Nat × Nat)) (k : Nat) :
    (ndictDel d k).map Prod.fst = (d.map Prod.fst).filter fun x => ¬ x = k := by
  unfold ndictDel
  induction d with
  | nil => rfl
  | cons x rest ih =>
    rw [List.filter_cons, List.map_cons, List.filter_cons]
    by_cases hx : x.1 = k
    · rw [if_neg (by simpa using hx), if_neg (by simpa using hx)]
      exact ih
    · rw [if_pos (by simpa using hx), if_pos (by simpa using hx)]
      rw [List.map_cons, ih]

theorem ndictDel_eq_self (d : List (Nat × Nat)) (k : Nat)
    (h : ¬ k ∈ d.map Prod.fst) : ndictDel d k = d := by
  unfold ndictDel
  apply List.filter_eq_self.mpr
  intro e he
  simp only [decide_not, Bool.not_eq_true', decide_eq_false_iff_not]
  intro hk
  exact h (hk ▸ List.mem_map_of_mem Prod.fst he)

theorem length_ndictDel (d : List (Nat × Nat)) (k : Nat)
    (hnd : (d.map Prod.fst).Nodup) (hmem : k ∈ d.map Prod.fst) :
    (ndictDel d k).length + 1 = d.length := by
  induction d with
  | nil => simp at hmem
  | cons x rest ih =>
    rw [List.map_cons, List.nodup_cons] at hnd
    unfold ndictDel
    rw [List.filter_cons]
    by_cases hx : x.1 = k
    · rw [if_neg (by simpa using hx)]
      have : ¬ k ∈ rest.map Prod.fst := hx ▸ hnd.1
      have heq : List.filter (fun e => decide ¬ e.1 = k) rest
          = ndictDel rest k := rfl
      rw [heq, ndictDel_eq_self rest k this]
      simp
    · rw [if_pos (by simpa using hx)]
      have hmem' : k ∈ rest.map Prod.fst := by
        rcases List.mem_cons.mp hmem with h | h
        · exact absurd h.symm (by simpa using hx)
        · exact h
      rw [List.length_cons]
      have heq : List.filter (fun e => decide ¬ e.1 = k) rest
          = ndictDel rest k := rfl
      rw [heq]
      rw [List.length_cons, ← ih hnd.2 hmem']

theorem occB_succ (resolved : List (String × RVal)) (n id : Nat) :
    occB resolved (n + 1) id =
      (occB resolved n id ||
        (match resolved[n]? with
         | some e => decide (e.2 = RVal.H id)
         | Option.none => false)) := by
  unfold occB
  rw [List.take_succ, List.any_append]
  congr 1
  cases h : resolved[n]? <;> simp

theorem occB_mem_helpIds (resolved : List (String × RVal)) (m id : Nat)
    (h : occB resolved m id = true) : id ∈ helpIds resolved := by
  unfold occB at h
  obtain ⟨e, he, hp⟩ := List.any_eq_true.mp h
  have he' : e ∈ resolved := List.mem_of_mem_take he
  unfold helpIds
  rw [List.mem_dedup]
  apply List.mem_filterMap.mpr
  refine ⟨e, he', ?_⟩
  simp only [decide_eq_true_eq] at hp
  rw [hp]

theorem foldlMax_range_succ (f : Nat → Nat) (n : Nat) :
    (List.range (n + 1)).foldl (fun m p => max m (f p)) 0
      = max ((List.range n).foldl (fun m p => max m (f p)) 0) (f n) := by
  rw [List.range_succ, List.foldl_append]
  rfl

theorem foldlMax_le_of_lt (f : Nat → Nat) (n i : Nat) (h : i < n) :
    f i ≤ (List.range n).foldl (fun m p => max m (f p)) 0 := by
  induction n with
  | zero => omega
  | succ n ih =>
    rw [foldlMax_range_succ]
    rcases Nat.lt_or_ge i n with h2 | h2
    · exact le_trans (ih h2) (le_max_left ..)
    · have : i = n := by omega
      rw [this]
      exact le_max_right ..

theorem scopeLine?_eq_of_mem (scopes : List (Nat × Nat))
    (H3 : (scopes.map Prod.snd).Nodup) (e : Nat × Nat) (he : e ∈ scopes) :
    scopeLine? scopes e.2 = some e.1 := by
  unfold scopeLine?
  induction scopes with
  | nil => simp at he
  | cons x rest ih =>
    rw [List.map_cons, List.nodup_cons] at H3
    rcases List.mem_cons.mp he with rfl | he'
    · rw [List.find?_cons_of_pos _ (by simp)]
      rfl
    · have hx : ¬ x.2 = e.2 := by
        intro hc
        exact H3.1 (hc ▸ List.mem_map_of_mem Prod.snd he')
      rw [List.find?_cons_of_neg _ (by simpa using hx)]
      exact ih H3.2 he'

theorem mem_of_scopeLine?_eq (scopes : List (Nat × Nat)) (id L : Nat)
    (h : scopeLine? scopes id = some L) : (L, id) ∈ scopes := by
  unfold scopeLine? at h
  cases hf : scopes.find? fun e => e.2 = id with
  | none => rw [hf] at h; simp at h
  | some e =>
    rw [hf] at h
    have h1 := List.find?_some hf
    have h2 := List.mem_of_find?_eq_some hf
    simp only [Option.map_some', Option.some.injEq] at h
    simp only [decide_eq_true_eq] at h1
    have : e = (L, id) := by
      cases e
      simp only at h h1
      rw [h, h1]
    exact this ▸ h2

/-- The scope half of liveness as a standalone test: `n` has not passed
`id`'s recorded scope end. -/
def scopeCond (scopes : List (Nat × Nat)) (n id : Nat) : Bool :=
  match scopeLine? scopes id with
  | some L => decide (n ≤ L)
  | Option.none => true

theorem liveB_eq (resolved : List (String × RVal))
    (scopes : List (Nat × Nat)) (id p : Nat) :
    liveB resolved scopes id p
      = (occB resolved (p + 1) id && scopeCond scopes p id) := rfl

/-- Every help-register occurrence lies at or before its recorded scope
end (decidable form of the well-formedness the allocator relies on). -/
def occWithinScope (resolved : List (String × RVal))
    (scopes : List (Nat × Nat)) : Bool :=
  (List.range resolved.length).all fun j =>
    match resolved[j]? with
    | some e =>
      match e.2 with
      | RVal.H id =>
        match scopeLine? scopes id with
        | some L => decide (j ≤ L)
        | Option.none => true
      | _ => true
    | Option.none => true

theorem occWithinScope_spec (resolved : List (String × RVal))
    (scopes : List (Nat × Nat)) (h : occWithinScope resolved scopes = true)
    (j : Nat) (e : String × RVal) (hj : resolved[j]? = some e) (id : Nat)
    (hid : e.2 = RVal.H id) (L : Nat)
    (hL : scopeLine? scopes id = some L) : j ≤ L := by
  have hjlen : j < resolved.length := by
    by_contra hc
    rw [List.getElem?_eq_none (by omega)] at hj
    exact Option.noConfusion hj
  have := List.all_eq_true.mp h j (List.mem_range.mpr hjlen)
  rw [hj] at this
  simp only at this
  rw [hid] at this
  simp only at this
  rw [hL] at this
  simpa using this

/-- A `Nat`-keyed dict whose key set is exactly the live ids at `p` has
`liveCount p` entries. -/
theorem inUse_length_eq_liveCount (resolved : List (String × RVal))
    (scopes : List (Nat × Nat)) (d : List (Nat × Nat)) (p : Nat)
    (hnd : (d.map Prod.fst).Nodup)
    (hkeys : ∀ id, (ndictGet? d id).isSome = liveB resolved scopes id p) :
    d.length = liveCount resolved scopes p := by
  have hnodup2 : ((helpIds resolved).filter fun id =>
      liveB resolved scopes id p).Nodup :=
    (List.nodup_dedup _).filter _
  have hperm : (d.map Prod.fst).Perm
      ((helpIds resolved).filter fun id => liveB resolved scopes id p) := by
    rw [List.perm_ext_iff_of_nodup hnd hnodup2]
    intro id
    rw [← ndictGet?_isSome_iff, hkeys, List.mem_filter]
    constructor
    · intro hl
      refine ⟨?_, hl⟩
      rw [liveB_eq] at hl
      exact occB_mem_helpIds resolved (p + 1) id
        (Bool.and_eq_true_iff.mp hl).1
    · exact fun h => h.2
  have := hperm.length_eq
  rw [List.length_map] at this
  exact this

/-- The scope-replay-head tracking part of the allocator invariant: either
the head splits the (sorted) scope list exactly at line `n`, or every scope
has been processed and the head rests on the final entry. -/
def AllocSH (scopes : List (Nat × Nat)) (n : Nat) (a : AllocSt) : Prop :=
  ((∀ j e, scopes[j]? = some e → (e.1 < n ↔ j < a.scopeHead))
      ∧ a.scopeHead ≤ scopes.length - 1)
    ∨ ((∀ e ∈ scopes, e.1 < n) ∧ a.scopeHead = scopes.length - 1)

/-- The allocator invariant after fully processing the first `n` stream
positions: the in-use map holds exactly the ids live past position `n - 1`,
slots are conserved, and the running register count is the peak liveness
seen so far. -/
def AllocInv (resolved : List (String × RVal)) (scopes : List (Nat × Nat))
    (rc0 n : Nat) (a : AllocSt) : Prop :=
  (∀ id, (ndictGet? a.inUse id).isSome
      = (occB resolved n id && scopeCond scopes n id)) ∧
  (a.inUse.map Prod.fst).Nodup ∧
  a.free.length + a.inUse.length = a.registerCount - rc0 ∧
  rc0 ≤ a.registerCount ∧
  a.registerCount - rc0
    = (List.range n).foldl
        (fun m p => max m (liveCount resolved scopes p)) 0 ∧
  AllocSH scopes n a

/-- The invariant between the substitution and freeing halves of step `n`:
the in-use map is exactly the live set at `n` and the peak already counts
position `n`. -/
def AllocMidInv (resolved : List (String × RVal))
    (scopes : List (Nat × Nat)) (rc0 n : Nat) (a : AllocSt) : Prop :=
  (∀ id, (ndictGet? a.inUse id).isSome = liveB resolved scopes id n) ∧
  (a.inUse.map Prod.fst).Nodup ∧
  a.free.length + a.inUse.length = a.registerCount - rc0 ∧
  rc0 ≤ a.registerCount ∧
  a.registerCount - rc0
    = (List.range (n + 1)).foldl
        (fun m p => max m (liveCount resolved scopes p)) 0 ∧
  AllocSH scopes n a

theorem allocSub_inv (resolved : List (String × RVal))
    (scopes : List (Nat × Nat)) (rc0 n : Nat) (x : String × RVal)
    (a : AllocSt) (hx : resolved[n]? = some x)
    (H2b : occWithinScope resolved scopes = true)
    (hInv : AllocInv resolved scopes rc0 n a) :
    AllocMidInv resolved scopes rc0 n (allocSub a (n, x)) := by
  obtain ⟨hkeys, hnd, hsum, hrc, hpeak, hSH⟩ := hInv
  have hoccsucc : ∀ id, occB resolved (n + 1) id
      = (occB resolved n id || decide (x.2 = RVal.H id)) := by
    intro id
    rw [occB_succ, hx]
  obtain ⟨s, v⟩ := x
  cases v with
  | H id =>
    have hscope : scopeCond scopes n id = true := by
      unfold scopeCond
      cases hsl : scopeLine? scopes id with
      | none => rfl
      | some L =>
        simpa using occWithinScope_spec resolved scopes H2b n (s, RVal.H id)
          hx id rfl L hsl
    cases hget : ndictGet? a.inUse id with
    | some phys =>
      have hres : allocSub a (n, (s, RVal.H id))
          = { a with out := a.out ++ [(s, .num phys)] } := by
        unfold allocSub
        dsimp only
        rw [hget]
      rw [hres]
      have hlive : ∀ id', (ndictGet? a.inUse id').isSome
          = liveB resolved scopes id' n := by
        intro id'
        rw [hkeys id', liveB_eq, hoccsucc id']
        by_cases hid : id = id'
        · subst hid
          have htrue : (occB resolved n id && scopeCond scopes n id) = true := by
            rw [← hkeys id, hget]
            rfl
          rw [htrue]
          have := Bool.and_eq_true_iff.mp htrue
          rw [this.1]
          simp [hscope]
        · simp [hid]
      refine ⟨hlive, hnd, hsum, hrc, ?_, hSH⟩
      rw [foldlMax_range_succ, ← hpeak]
      have hcnt : a.inUse.length = liveCount resolved scopes n :=
        inUse_length_eq_liveCount resolved scopes a.inUse n hnd hlive
      have : liveCount resolved scopes n ≤ a.registerCount - rc0 := by omega
      exact (Nat.max_eq_left this).symm
    | none =>
      have hfalse : (occB resolved n id && scopeCond scopes n id) = false := by
        rw [← hkeys id, hget]
        rfl
      have hocc0 : occB resolved n id = false := by
        cases h : occB resolved n id
        · rfl
        · rw [h, hscope] at hfalse
          simp at hfalse
      have hnotmem : id ∉ a.inUse.map Prod.fst := by
        rw [← ndictGet?_isSome_iff, hget]
        simp
      have hgetfalse : (ndictGet? a.inUse id).isSome = false := by
        rw [hget]
        rfl
      have hlive : ∀ (w : Nat) id',
          (ndictGet? (ndictSet a.inUse id w) id').isSome
            = liveB resolved scopes id' n := by
        intro w id'
        by_cases hid : id' = id
        · subst hid
          rw [ndictGet?_ndictSet_self]
          rw [liveB_eq, hoccsucc]
          simp [hscope]
        · rw [ndictGet?_ndictSet_ne _ _ _ _ hid]
          rw [hkeys id', liveB_eq, hoccsucc id']
          have : decide ((RVal.H id) = RVal.H id') = false := by
            simp
            intro hc
            exact hid hc.symm
          rw [this]
          simp
      have hnd' : ∀ w, ((ndictSet a.inUse id w).map Prod.fst).Nodup := by
        intro w
        rw [keys_ndictSet_absent _ _ _ hgetfalse]
        simp [List.nodup_append, hnd, hnotmem]
      have hlen' : ∀ w, (ndictSet a.inUse id w).length = a.inUse.length + 1 :=
        fun w => length_ndictSet_absent _ _ _ hgetfalse
      by_cases hfree : a.free ≠ []
      · have hres : allocSub a (n, (s, RVal.H id))
            = { a with free := a.free.dropLast,
                       inUse := ndictSet a.inUse id ((a.free.getLast?).getD 0),
                       out := a.out ++
                         [(s, .num ((a.free.getLast?).getD 0))] } := by
          unfold allocSub
          dsimp only
          rw [hget]
          dsimp only
          rw [if_pos hfree]
        rw [hres]
        have hfl : 1 ≤ a.free.length := by
          cases hf : a.free with
          | nil => exact absurd hf hfree
          | cons y ys => simp
        have hcnt : a.inUse.length + 1 = liveCount resolved scopes n := by
          rw [← hlen' ((a.free.getLast?).getD 0)]
          exact inUse_length_eq_liveCount resolved scopes _ n (hnd' _) (hlive _)
        refine ⟨hlive _, hnd' _, ?_, hrc, ?_, hSH⟩
        · simp only [List.length_dropLast, hlen']
          omega
        · rw [foldlMax_range_succ, ← hpeak]
          have : liveCount resolved scopes n ≤ a.registerCount - rc0 := by
            omega
          exact (Nat.max_eq_left this).symm
      · have hres : allocSub a (n, (s, RVal.H id))
            = { a with registerCount := a.registerCount + 1,
                       inUse := ndictSet a.inUse id (a.registerCount + 1),
                       out := a.out ++
                         [(s, .num (a.registerCount + 1))] } := by
          unfold allocSub
          dsimp only
          rw [hget]
          dsimp only
          rw [if_neg hfree]
        rw [hres]
        have hfl : a.free.length = 0 := by
          simp only [ne_eq, not_not] at hfree
          rw [hfree]
          rfl
        have hcnt : a.inUse.length + 1 = liveCount resolved scopes n := by
          rw [← hlen' (a.registerCount + 1)]
          exact inUse_length_eq_liveCount resolved scopes _ n (hnd' _) (hlive _)
        refine ⟨hlive _, hnd' _, ?_, by show rc0 ≤ a.registerCount + 1; omega,
          ?_, hSH⟩
        · simp only [hlen']
          omega
        · rw [foldlMax_range_succ, ← hpeak]
          have h1 : a.registerCount + 1 - rc0 = liveCount resolved scopes n := by
            omega
          have h2 : a.registerCount - rc0 ≤ liveCount resolved scopes n := by
            omega
          rw [h1]
          exact (Nat.max_eq_right h2).symm
  | num m =>
    have hres : allocSub a (n, (s, RVal.num m))
        = { a with out := a.out ++ [(s, RVal.num m)] } := by
      unfold allocSub
      dsimp only
    rw [hres]
    have hlive : ∀ id', (ndictGet? a.inUse id').isSome
        = liveB resolved scopes id' n := by
      intro id'
      rw [hkeys id', liveB_eq, hoccsucc id']
      simp
    refine ⟨hlive, hnd, hsum, hrc, ?_, hSH⟩
    rw [foldlMax_range_succ, ← hpeak]
    have hcnt : a.inUse.length = liveCount resolved scopes n :=
      inUse_length_eq_liveCount resolved scopes a.inUse n hnd hlive
    have : liveCount resolved scopes n ≤ a.registerCount - rc0 := by omega
    exact (Nat.max_eq_left this).symm
  | null =>
    have hres : allocSub a (n, (s, RVal.null))
        = { a with out := a.out ++ [(s, RVal.null)] } := by
      unfold allocSub
      dsimp only
    rw [hres]
    have hlive : ∀ id', (ndictGet? a.inUse id').isSome
        = liveB resolved scopes id' n := by
      intro id'
      rw [hkeys id', liveB_eq, hoccsucc id']
      simp
    refine ⟨hlive, hnd, hsum, hrc, ?_, hSH⟩
    rw [foldlMax_range_succ, ← hpeak]
    have hcnt : a.inUse.length = liveCount resolved scopes n :=
      inUse_length_eq_liveCount resolved scopes a.inUse n hnd hlive
    have : liveCount resolved scopes n ≤ a.registerCount - rc0 := by omega
    exact (Nat.max_eq_left this).symm

theorem allocFree_inv (resolved : List (String × RVal))
    (scopes : List (Nat × Nat)) (rc0 n : Nat) (a : AllocSt)
    (H1 : scopes.Pairwise fun e f => e.1 < f.1)
    (H2 : ∀ e ∈ scopes, occB resolved (e.1 + 1) e.2 = true)
    (H3 : (scopes.map Prod.snd).Nodup)
    (hMid : AllocMidInv resolved scopes rc0 n a) :
    AllocInv resolved scopes rc0 (n + 1) (allocFree scopes a n) := by
  obtain ⟨hkeys, hnd, hsum, hrc, hpeak, hSH⟩ := hMid
  have hpair : ∀ (i j : Nat) (hi : i < scopes.length)
      (hj : j < scopes.length), i < j → (scopes.get ⟨i, hi⟩).1 < (scopes.get ⟨j, hj⟩).1 :=
    fun i j hi hj hij => List.pairwise_iff_getElem.mp H1 i j hi hj hij
  unfold allocFree
  cases hsc : scopes[a.scopeHead]? with
  | none =>
    have hge : scopes.length ≤ a.scopeHead := List.getElem?_eq_none_iff.mp hsc
    have hlen0 : scopes.length = 0 := by
      rcases hSH with ⟨_, hh⟩ | ⟨_, hh⟩ <;> omega
    have hnil : scopes = [] := List.eq_nil_of_length_eq_zero hlen0
    subst hnil
    have hsc0 : ∀ id, scopeCond ([] : List (Nat × Nat)) n id
        = scopeCond ([] : List (Nat × Nat)) (n + 1) id := fun _ => rfl
    refine ⟨?_, hnd, hsum, hrc, hpeak, ?_⟩
    · intro id
      rw [hkeys id, liveB_eq, hsc0 id]
    · left
      refine ⟨fun j e hj => by simp at hj, ?_⟩
      rcases hSH with ⟨_, hh⟩ | ⟨_, hh⟩ <;> simpa using hh
  | some sc =>
    have hheadlt : a.scopeHead < scopes.length := by
      by_contra hc
      rw [List.getElem?_eq_none (by omega)] at hsc
      exact Option.noConfusion hsc
    have hmem : sc ∈ scopes := List.getElem?_mem hsc
    have hsceq : scopes.get ⟨a.scopeHead, hheadlt⟩ = sc := by
      rw [List.getElem?_eq_getElem hheadlt] at hsc
      exact Option.some.inj hsc
    by_cases hline : sc.1 = n
    · have hAB : (∀ j e, scopes[j]? = some e → (e.1 < n ↔ j < a.scopeHead))
          ∧ a.scopeHead ≤ scopes.length - 1 := by
        rcases hSH with hA | ⟨hB, _⟩
        · exact hA
        · exact absurd (hB sc hmem) (by omega)
      obtain ⟨hA, hhead⟩ := hAB
      have hsl : scopeLine? scopes sc.2 = some n := by
        have := scopeLine?_eq_of_mem scopes H3 sc hmem
        rw [hline] at this
        exact this
      have hocc : occB resolved (n + 1) sc.2 = true := by
        have := H2 sc hmem
        rw [hline] at this
        exact this
      have hcond : scopeCond scopes n sc.2 = true := by
        unfold scopeCond
        rw [hsl]
        simp
      have hget : (ndictGet? a.inUse sc.2).isSome = true := by
        rw [hkeys sc.2, liveB_eq, hocc, hcond]
        rfl
      obtain ⟨phys, hphys⟩ := Option.isSome_iff_exists.mp hget
      have hmemk : sc.2 ∈ a.inUse.map Prod.fst :=
        (ndictGet?_isSome_iff _ _).mp hget
      have huniq : ∀ j e, scopes[j]? = some e → e.1 = n → j = a.scopeHead := by
        intro j e hj hej
        have hjlen : j < scopes.length := by
          by_contra hc
          rw [List.getElem?_eq_none (by omega)] at hj
          exact Option.noConfusion hj
        rcases Nat.lt_trichotomy j a.scopeHead with h | h | h
        · have := (hA j e hj).mpr h
          omega
        · exact h
        · exfalso
          have hlt := hpair a.scopeHead j hheadlt hjlen h
          rw [hsceq] at hlt
          have hje : scopes.get ⟨j, hjlen⟩ = e := by
            rw [List.getElem?_eq_getElem hjlen] at hj
            exact Option.some.inj hj
          rw [hje, hej, hline] at hlt
          omega
      have hkeys' : ∀ id, (ndictGet? (ndictDel a.inUse sc.2) id).isSome
          = (occB resolved (n + 1) id && scopeCond scopes (n + 1) id) := by
        intro id
        by_cases hid : id = sc.2
        · subst hid
          rw [ndictGet?_ndictDel_self]
          have hc2 : scopeCond scopes (n + 1) sc.2 = false := by
            unfold scopeCond
            rw [hsl]
            simp
          rw [hc2]
          simp
        · rw [ndictGet?_ndictDel_ne _ _ _ hid, hkeys id, liveB_eq]
          congr 1
          unfold scopeCond
          cases hLid : scopeLine? scopes id with
          | none => rfl
          | some L =>
            have hLn : L ≠ n := by
              intro hc
              subst hc
              have hmem2 := mem_of_scopeLine?_eq scopes id _ hLid
              obtain ⟨j, hjl, hje⟩ := List.getElem_of_mem hmem2
              have hj2 : scopes[j]? = some (L, id) := by
                rw [List.getElem?_eq_getElem hjl, hje]
              have := huniq j (L, id) hj2 rfl
              subst this
              rw [hsc] at hj2
              have hsceq2 := Option.some.inj hj2
              exact hid (by rw [hsceq2])
            simp only [decide_eq_decide]
            omega
      have hnd' : ((ndictDel a.inUse sc.2).map Prod.fst).Nodup := by
        rw [keys_ndictDel]
        exact hnd.filter _
      have hlen' : (ndictDel a.inUse sc.2).length + 1 = a.inUse.length :=
        length_ndictDel a.inUse sc.2 hnd hmemk
      by_cases hadv : a.scopeHead < scopes.length - 1
      · dsimp only
        rw [if_pos hline, hphys]
        dsimp only
        rw [if_pos hadv]
        refine ⟨hkeys', hnd', ?_, hrc, hpeak, ?_⟩
        · dsimp only
          simp only [List.length_append, List.length_singleton]
          omega
        · left
          refine ⟨?_, by dsimp only; omega⟩
          intro j e hj
          dsimp only
          have hjlen : j < scopes.length := by
            by_contra hc
            rw [List.getElem?_eq_none (by omega)] at hj
            exact Option.noConfusion hj
          constructor
          · intro hen
            rcases Nat.lt_or_ge e.1 n with h | h
            · have := (hA j e hj).mp h
              omega
            · have hen2 : e.1 = n := by omega
              have := huniq j e hj hen2
              omega
          · intro hj2
            rcases Nat.lt_or_ge j a.scopeHead with h | h
            · have := (hA j e hj).mpr h
              omega
            · have hjh : j = a.scopeHead := by omega
              subst hjh
              rw [hsc] at hj
              have := Option.some.inj hj
              rw [← this, hline]
              omega
      · dsimp only
        rw [if_pos hline, hphys]
        dsimp only
        rw [if_neg hadv]
        refine ⟨hkeys', hnd', ?_, hrc, hpeak, ?_⟩
        · dsimp only
          simp only [List.length_append, List.length_singleton]
          omega
        · right
          refine ⟨?_, by dsimp only; omega⟩
          intro e he
          obtain ⟨j, hjl, hje⟩ := List.getElem_of_mem he
          have hj? : scopes[j]? = some e := by
            rw [List.getElem?_eq_getElem hjl, hje]
          rcases Nat.lt_or_ge j a.scopeHead with h | h
          · have := (hA j e hj?).mpr h
            omega
          · have hjh : j = a.scopeHead := by omega
            subst hjh
            rw [hsc] at hj?
            have := Option.some.inj hj?
            rw [← this, hline]
            omega
    · dsimp only
      rw [if_neg hline]
      have hnoentryn : ∀ id L, scopeLine? scopes id = some L → L ≠ n := by
        intro id L hLid hLn
        subst hLn
        have hmem2 := mem_of_scopeLine?_eq scopes id _ hLid
        obtain ⟨j, hjl, hje⟩ := List.getElem_of_mem hmem2
        have hj? : scopes[j]? = some (L, id) := by
          rw [List.getElem?_eq_getElem hjl, hje]
        rcases hSH with ⟨hA2, hhead2⟩ | ⟨hB, _⟩
        · rcases Nat.lt_trichotomy j a.scopeHead with h | h | h
          · have := (hA2 j _ hj?).mpr h
            simp at this
          · subst h
            rw [hsc] at hj?
            have := Option.some.inj hj?
            exact hline (by rw [this])
          · have hlt := hpair a.scopeHead j hheadlt hjl h
            have hje2 : scopes.get ⟨j, hjl⟩ = (L, id) := hje
            rw [hsceq, hje2] at hlt
            have hge : ¬ sc.1 < L := by
              intro hc
              have := (hA2 a.scopeHead sc hsc).mp hc
              omega
            exact hge (by simpa using hlt)
        · have := hB _ hmem2
          simp at this
      have hcond_eq : ∀ id, scopeCond scopes n id = scopeCond scopes (n + 1) id := by
        intro id
        unfold scopeCond
        cases hLid : scopeLine? scopes id with
        | none => rfl
        | some L =>
          have := hnoentryn id L hLid
          simp only [decide_eq_decide]
          omega
      refine ⟨?_, hnd, hsum, hrc, hpeak, ?_⟩
      · intro id
        rw [hkeys id, liveB_eq, hcond_eq id]
      · rcases hSH with ⟨hA2, hhead2⟩ | ⟨hB, hh⟩
        · left
          refine ⟨?_, hhead2⟩
          intro j e hj
          have hjlen : j < scopes.length := by
            by_contra hc
            rw [List.getElem?_eq_none (by omega)] at hj
            exact Option.noConfusion hj
          constructor
          · intro hen
            have hLn : e.1 ≠ n := by
              have hje : scopes.get ⟨j, hjlen⟩ = e := by
                rw [List.getElem?_eq_getElem hjlen] at hj
                exact Option.some.inj hj
              intro hc
              have hmemE : e ∈ scopes := List.getElem?_mem hj
              have := scopeLine?_eq_of_mem scopes H3 e hmemE
              exact hnoentryn e.2 e.1 this hc
            have : e.1 < n := by omega
            exact (hA2 j e hj).mp this
          · intro hj2
            have := (hA2 j e hj).mpr hj2
            omega
        · right
          refine ⟨?_, hh⟩
          intro e he
          have := hB e he
          omega

theorem allocRun_loop (resolved : List (String × RVal))
    (scopes : List (Nat × Nat)) (rc0 : Nat)
    (H1 : scopes.Pairwise fun e f => e.1 < f.1)
    (H2 : ∀ e ∈ scopes, occB resolved (e.1 + 1) e.2 = true)
    (H2b : occWithinScope resolved scopes = true)
    (H3 : (scopes.map Prod.snd).Nodup) :
    ∀ (l : List (String × RVal)) (n : Nat) (a : AllocSt),
      resolved = resolved.take n ++ l →
      n ≤ resolved.length →
      AllocInv resolved scopes rc0 n a →
      AllocInv resolved scopes rc0 resolved.length
        ((l.enumFrom n).foldl (allocStep scopes) a) := by
  intro l
  induction l with
  | nil =>
    intro n a hdec hle hInv
    have hlen : resolved.length = n := by
      have := congrArg List.length hdec
      simp only [List.append_nil, List.length_take] at this
      omega
    rw [hlen]
    simpa using hInv
  | cons x xs ih =>
    intro n a hdec hle hInv
    have hn : n < resolved.length := by
      have := congrArg List.length hdec
      simp only [List.length_append, List.length_take, List.length_cons]
        at this
      omega
    have hx : resolved[n]? = some x := by
      have hlt : (resolved.take n).length ≤ n := by
        simp [List.length_take]
      conv_lhs => rw [hdec]
      rw [List.getElem?_append_right hlt]
      have hln : (resolved.take n).length = n := by
        simp [List.length_take]
        omega
      rw [hln]
      simp
    have hstep := allocFree_inv resolved scopes rc0 n (allocSub a (n, x))
      H1 H2 H3 (allocSub_inv resolved scopes rc0 n x a hx H2b hInv)
    have hdec' : resolved = resolved.take (n + 1) ++ xs := by
      conv_lhs => rw [hdec]
      rw [show resolved.take (n + 1) = resolved.take n ++ [x] by
        rw [List.take_succ, hx]
        rfl]
      rw [List.append_assoc]
      rfl
    have := ih (n + 1) (allocStep scopes a (n, x)) hdec' (by omega) hstep
    exact this

/-- **C2.** The number of distinct physical help-register slots the second
pass of `compile()` allocates equals the maximum, over all positions of the
concrete instruction stream, of the number of simultaneously live logical
help-register ids (live: at or after its first occurrence and at or before
its recorded scope end), so the final register count is the user register
count plus that peak.  The well-formedness hypotheses are what phase A's
output satisfies when the scope map is intact: scope lines strictly
increasing, one scope per id, every scoped id used at or before its scope
line, and no use after it. -/
theorem allocator_minimal (resolved : List (String × RVal))
    (scopes : List (Nat × Nat)) (rc0 : Nat)
    (H1 : scopes.Pairwise fun e f => e.1 < f.1)
    (H2 : ∀ e ∈ scopes, occB resolved (e.1 + 1) e.2 = true)
    (H2b : occWithinScope resolved scopes = true)
    (H3 : (scopes.map Prod.snd).Nodup) :
    (allocRun scopes resolved rc0).registerCount
      = rc0 + peakLive resolved scopes := by
  have hInv0 : AllocInv resolved scopes rc0 0 ⟨rc0, 0, [], [], []⟩ := by
    refine ⟨?_, by simp, by simp, le_refl _, by simp, ?_⟩
    · intro id
      show (Option.none : Option Nat).isSome = _
      unfold occB
      simp
    · left
      refine ⟨?_, by dsimp only; omega⟩
      intro j e hj
      dsimp only
      constructor
      · intro h
        omega
      · intro h
        omega
  have hfin := allocRun_loop resolved scopes rc0 H1 H2 H2b H3 resolved 0
    ⟨rc0, 0, [], [], []⟩ (by simp) (by omega) hInv0
  obtain ⟨_, _, _, hrc, hpeak, _⟩ := hfin
  have hEq : allocRun scopes resolved rc0
      = (resolved.enumFrom 0).foldl (allocStep scopes) ⟨rc0, 0, [], [], []⟩ :=
    rfl
  rw [hEq]
  unfold peakLive
  omega

def resolvedC2 : List (String × RVal) :=
  [("TST", .num 2), ("INC", .H 0), ("DEC", .H 0), ("HLT", .null)]

def scopesC2 : List (Nat × Nat) := [(2, 0)]

theorem allocator_minimal_witness :
    (allocRun scopesC2 resolvedC2 2).registerCount
      = 2 + peakLive resolvedC2 scopesC2 :=
  allocator_minimal resolvedC2 scopesC2 2 (by decide) (by decide)
    (by decide) (by decide)

end PyBon